import Mathlib

/-!
Verification of the random family-tree generator (`generate_gedcom.py`).

The Python source is shallowly embedded: Python floats are modelled by exact
rationals, Python exceptions by an explicit error monad, and the global
`random` module by an explicit stream of rationals (each call to
`random.random()` consumes one stream element, assumed to lie in `[0, 1)`).
Mutation of the tree is modelled by explicit state passing.
-/

set_option maxHeartbeats 1000000
set_option maxRecDepth 4000
set_option linter.unusedVariables false

/-- Python exceptions that the embedded code can raise. -/
inductive PyErr where
  | indexError : PyErr
  | valueError : PyErr
  | zeroDivisionError : PyErr
  | runtimeError : PyErr
deriving DecidableEq, Repr

/-- Explicit random stream: `seq` enumerates the values returned by successive
calls to `random.random()` (intended to lie in `[0,1)`), `pos` is the cursor. -/
structure RS where
  seq : Nat → ℚ
  pos : Nat

/-- The value of the next random draw (`random.random()`). -/
def RS.peek (r : RS) : ℚ := r.seq r.pos

/-- The stream after consuming one draw. -/
def RS.advance (r : RS) : RS := ⟨r.seq, r.pos + 1⟩

/-- A stream is admissible when every value lies in `[0, 1)`, as guaranteed by
`random.random()`. -/
def RS.Admissible (r : RS) : Prop :=
  ∀ i : Nat, 0 ≤ r.seq i ∧ r.seq i < 1

/-- Source: `WeightedString = collections.namedtuple('WeightedString', ['s', 'weight'])`. -/
structure WeightedString where
  s : String
  weight : Int
deriving DecidableEq, Repr

/-- Source: the loop body of `weighted_list_to_cdf`.  The first parameter is
`weightmax`, the accumulator is `prevtotal`.  Python raises
`ZeroDivisionError` at `elem.weight / weightmax` when `weightmax == 0`, which
happens on the first iteration (so only when the list is non-empty). -/
def weighted_list_to_cdf_loop (weightmax : Int) : ℚ → List WeightedString → Except PyErr (List (ℚ × String))
  | _, [] => .ok []
  | prevtotal, elem :: rest =>
    if weightmax = 0 then .error .zeroDivisionError
    else
      let prob : ℚ := (elem.weight : ℚ) / (weightmax : ℚ)
      let newtotal := prevtotal + prob
      match weighted_list_to_cdf_loop weightmax newtotal rest with
      | .error e => .error e
      | .ok cdf => .ok ((newtotal, elem.s) :: cdf)

/-- Source: `weighted_list_to_cdf(po, wlist)` (the unused `po` argument is dropped). -/
def weighted_list_to_cdf (wlist : List WeightedString) : Except PyErr (List (ℚ × String)) :=
  weighted_list_to_cdf_loop ((wlist.map WeightedString.weight).sum) 0 wlist

/-- Spec-side description of the CDF output of the Distribution Builder
(used to compare `weighted_list_to_cdf` against the spec's words): one entry
per input value, in input order, cumulative probabilities being the running
sums of `weight / total`. -/
def running_cdf (total : ℚ) : ℚ → List WeightedString → List (ℚ × String)
  | _, [] => []
  | acc, e :: rest =>
    (acc + (e.weight : ℚ) / total, e.s) :: running_cdf total (acc + (e.weight : ℚ) / total) rest

/-- Source: `cdf_random_value(cdf)`.  `cdf[-1][0]` raises `IndexError` on an
empty CDF (before any random draw); the final `raise ValueError` fires when no
entry satisfies `probupper > rand`. -/
def cdf_random_value {α : Type} (cdf : List (ℚ × α)) (r : RS) : Except PyErr (α × RS) :=
  match cdf.getLast? with
  | none => .error .indexError
  | some lastEntry =>
    let probmax := lastEntry.1
    let q := r.peek
    let r1 := r.advance
    let rand := q * probmax
    match cdf.find? (fun e => decide (rand < e.1)) with
    | some e => .ok (e.2, r1)
    | none => .error .valueError

/-- Source: the shrinking loop of `cdf_random_value_not_in_list`.  The two
rational accumulators are `probmin` and `newtotal`. -/
def cdf_reject_loop {α : Type} [DecidableEq α] (reject_list : List α) :
    ℚ → ℚ → List (ℚ × α) → List (ℚ × α)
  | _, _, [] => []
  | probmin, newtotal, (probupper, val) :: rest =>
    if val ∈ reject_list then cdf_reject_loop reject_list probupper newtotal rest
    else
      let nt := newtotal + (probupper - probmin)
      (nt, val) :: cdf_reject_loop reject_list probupper nt rest

/-- Source: `cdf_random_value_not_in_list(cdf, reject_list)`. -/
def cdf_random_value_not_in_list {α : Type} [DecidableEq α]
    (cdf : List (ℚ × α)) (reject_list : List α) (r : RS) : Except PyErr (α × RS) :=
  cdf_random_value (cdf_reject_loop reject_list 0 0 cdf) r

/-- The per-entry probability shares of a CDF relative to a starting cumulative
value (the successive differences of the cumulative column). -/
def cdf_widths {α : Type} : ℚ → List (ℚ × α) → List ℚ
  | _, [] => []
  | prev, (t, _) :: rest => (t - prev) :: cdf_widths t rest

/-- Accumulating builder used to render the index loops of
`num_of_children_cdf`: appends, for each `n` in the list, an entry whose
cumulative value grows by `f n`; also returns the final cumulative value. -/
def cdf_accum_t {α : Type} (f : α → ℚ) : ℚ → List α → (List (ℚ × α) × ℚ)
  | nt, [] => ([], nt)
  | nt, n :: rest =>
    let nt1 := nt + f n
    let (l, ntf) := cdf_accum_t f nt1 rest
    ((nt1, n) :: l, ntf)

/-- Source: `num_of_children_cdf(po, expected_num)` (unused `po` dropped).
`int(expected_num * 3 / 2 + 1)` on a non-negative int equals
`expected_num * 3 / 2 + 1` with truncating natural division. -/
def num_of_children_cdf (expected_num : Nat) : List (ℚ × Nat) :=
  let max_num : Nat := expected_num * 3 / 2 + 1
  if expected_num = 0 then
    (cdf_accum_t (fun (n : Nat) => 0.4 / 1 * (1 - (n : ℚ)) + 0.6 / 2) 0 [0, 1]).1
  else
    let total_upto_expected : ℚ := 1.0 / ((max_num : ℚ) + 1) * (6/5 * (expected_num : ℚ) + 1)
    let total_after_expected : ℚ := 1.0 - total_upto_expected
    let firstPair : List (ℚ × Nat) × ℚ :=
      if expected_num > 1 then
        let a := 0.8 * total_upto_expected /
          ((expected_num : ℚ) - 1 + (((List.range' 1 expected_num).sum : Nat) : ℚ))
        let b := 0.2 * total_upto_expected / ((expected_num : ℚ) + 1)
        let p0 := cdf_accum_t (fun (_ : Nat) => a * ((expected_num : ℚ) - 1) + b) 0 [0]
        let p1 := cdf_accum_t (fun (n : Nat) => a * (n : ℚ) + b) p0.2 (List.range' 1 expected_num)
        (p0.1 ++ p1.1, p1.2)
      else
        let a := 0.2 * total_upto_expected / 1
        let b := 0.8 * total_upto_expected / ((expected_num : ℚ) + 1)
        cdf_accum_t (fun (n : Nat) => a * (n : ℚ) + b) 0 [0, 1]
    let second : List (ℚ × Nat) :=
      if max_num - expected_num > 1 then
        let a := 0.8 * total_after_expected /
          (((List.range' 1 (max_num - expected_num - 1)).sum : Nat) : ℚ)
        let b := 0.2 * total_after_expected / ((max_num : ℚ) - (expected_num : ℚ))
        (cdf_accum_t (fun (n : Nat) => a * ((max_num : ℚ) - (n : ℚ)) + b) firstPair.2
          (List.range' (expected_num + 1) (max_num - expected_num))).1
      else
        (cdf_accum_t (fun (_ : Nat) => 1.0 * total_after_expected) firstPair.2
          (List.range' (expected_num + 1) (max_num - expected_num))).1
    firstPair.1 ++ second

/-- Source: `person_sex_cdf(po)`. -/
def person_sex_cdf : List (ℚ × String) :=
  [ (0.48, "M"), (0.96, "F"), (0.98, "X"), (0.99, "U"), (1.00, "N") ]

/-- Source: `relation_type_cdf(po)`. -/
def relation_type_cdf : List (ℚ × String) :=
  [ (0.60, "marriage"), (0.70, "civil"), (0.80, "not married"), (0.85, "unknown"),
    (0.86, "religious"), (0.87, "common law"), (0.94, "partnership"),
    (0.97, "registered partnership"), (0.99, "living together"),
    (1.00, "living apart together") ]

/-- Source: `child_pedigree_cdf(po)`. -/
def child_pedigree_cdf : List (ℚ × String) :=
  [ (0.96, "birth"), (0.99, "adopted"), (1.00, "foster") ]

/-- Simple calendar date (the generator only ever stores fixed dates; no date
arithmetic is observable in the modelled core). -/
structure GDate where
  year : Int
  month : Int
  day : Int
deriving DecidableEq, Repr

/-- Source: class `GPName` (fields `snprefix`/`snsuffix` are renamed `spfx`/`nsfx`). -/
structure GPName where
  typ : String
  givn : String
  surn : String
  nick : String := ""
  spfx : String := ""
  nsfx : String := ""
deriving DecidableEq, Repr

/-- Source: class `GPEvent`. -/
structure GPEvent where
  typ : String
  dat : Option GDate := none
  place : Option String := none
  comment : String := ""
deriving DecidableEq, Repr

/-- Source: class `GPerson`.  Indices into the tree arrays are natural numbers;
`ind` is the GEDCOM identifier assigned by `gedcom_reset_identifiers`. -/
structure GPerson where
  level : Int
  ind : String
  names : List GPName
  sex : String
  families : List Nat
  events : List GPEvent := []
  sources : List Nat := []
  notes : List Nat := []
  objects : List Nat := []
  change_date : Option GDate := none
deriving DecidableEq, Repr

/-- Source: class `GFamily`. -/
structure GFamily where
  ind : String
  legal : String
  dat : Option GDate
  father : Option Nat
  mother : Option Nat
  children : List Nat
  change_date : Option GDate := none
deriving DecidableEq, Repr

/-- Sources, notes and media objects are never populated by the generator; the
only field the modelled core touches is the identifier. -/
structure GMisc where
  ind : String
deriving DecidableEq, Repr

/-- Source: class `GTree`. -/
structure GTree where
  people : List GPerson
  families : List GFamily
  sources : List GMisc
  notes : List GMisc
  objects : List GMisc
deriving DecidableEq, Repr

/-- The relevant slice of the global options object `po` (command-line options
plus the name CDFs and the final date installed by `gedcom_generate`). -/
structure PO where
  second_name_chance : Int
  num_people : Nat
  num_generations : Nat
  firstnames_male_cdf : List (ℚ × String)
  firstnames_feml_cdf : List (ℚ × String)
  lastnames_male_cdf : List (ℚ × String)
  final_date : GDate

/-- Source: the loop of `person_is_parent_in_families` over `gperson.families`. -/
def parent_family_matches (gtree : GTree) (gperson_id : Nat) : List Nat → Except PyErr (List Nat)
  | [] => .ok []
  | gfamily_id :: rest =>
    match gtree.families[gfamily_id]? with
    | none => .error .indexError
    | some gfamily =>
      match parent_family_matches gtree gperson_id rest with
      | .error e => .error e
      | .ok ms =>
        if gfamily.father = some gperson_id ∨ gfamily.mother = some gperson_id then
          .ok (gfamily_id :: ms)
        else .ok ms

/-- Source: `person_is_parent_in_families(po, gtree, gperson_id)` (unused `po` dropped). -/
def person_is_parent_in_families (gtree : GTree) (gperson_id : Nat) : Except PyErr (List Nat) :=
  match gtree.people[gperson_id]? with
  | none => .error .indexError
  | some gperson => parent_family_matches gtree gperson_id gperson.families

/-- Source: the loop of `person_is_child_in_families` over `gperson.families`. -/
def child_family_matches (gtree : GTree) (gperson_id : Nat) : List Nat → Except PyErr (List Nat)
  | [] => .ok []
  | gfamily_id :: rest =>
    match gtree.families[gfamily_id]? with
    | none => .error .indexError
    | some gfamily =>
      match child_family_matches gtree gperson_id rest with
      | .error e => .error e
      | .ok ms =>
        if gperson_id ∈ gfamily.children then .ok (gfamily_id :: ms) else .ok ms

/-- Source: `person_is_child_in_families(po, gtree, gperson_id)` (unused `po` dropped). -/
def person_is_child_in_families (gtree : GTree) (gperson_id : Nat) : Except PyErr (List Nat) :=
  match gtree.people[gperson_id]? with
  | none => .error .indexError
  | some gperson => child_family_matches gtree gperson_id gperson.families

/-- The level/surname inference block of `create_father`: existing mother
first, else first child, else level 0 and empty surname. -/
def father_level_surname (gtree : GTree) (gfamily : GFamily) (surname : Option String) :
    Except PyErr (Int × String) :=
  match gfamily.mother with
  | some mid =>
    match gtree.people[mid]? with
    | none => .error .indexError
    | some gmother =>
      match surname with
      | some s => .ok (gmother.level, s)
      | none =>
        match gmother.names[0]? with
        | none => .error .indexError
        | some nm => .ok (gmother.level, nm.surn)
  | none =>
    match gfamily.children with
    | cid :: _ =>
      match gtree.people[cid]? with
      | none => .error .indexError
      | some gchild_first =>
        match surname with
        | some s => .ok (gchild_first.level - 1, s)
        | none =>
          match gchild_first.names[0]? with
          | none => .error .indexError
          | some nm => .ok (gchild_first.level - 1, nm.surn)
    | [] => .ok (0, surname.getD "")

/-- Source: `create_father(po, gtree, gfamily_id, givname, surname, sex)`.
The three Python mutations (append person, set `gfamily.father`, stamp
`change_date`) become three successive functional updates. -/
def create_father (po : PO) (gtree : GTree) (gfamily_id : Nat)
    (givname : String) (surname : Option String) (sex : String) : Except PyErr (Nat × GTree) :=
  match gtree.families[gfamily_id]? with
  | none => .error .indexError
  | some gfamily =>
    match father_level_surname gtree gfamily surname with
    | .error e => .error e
    | .ok (level, surname1) =>
      let birth_name : GPName := { typ := "birth", givn := givname, surn := surname1 }
      let gfather : GPerson :=
        { level := level, ind := "", names := [birth_name], sex := sex, families := [gfamily_id] }
      let gfather_id := gtree.people.length
      let t1 := { gtree with people := gtree.people ++ [gfather] }
      let t2 := { t1 with
        families := t1.families.set gfamily_id { gfamily with father := some gfather_id } }
      let t3 := { t2 with
        people := t2.people.set gfather_id { gfather with change_date := some po.final_date } }
      .ok (gfather_id, t3)

/-- The level/surname inference block of `create_mother`: existing father
first, else first child, else level 0 and empty surname. -/
def mother_level_surname (gtree : GTree) (gfamily : GFamily) (married_surname : Option String) :
    Except PyErr (Int × String) :=
  match gfamily.father with
  | some fid =>
    match gtree.people[fid]? with
    | none => .error .indexError
    | some gfather =>
      match married_surname with
      | some s => .ok (gfather.level, s)
      | none =>
        match gfather.names[0]? with
        | none => .error .indexError
        | some nm => .ok (gfather.level, nm.surn)
  | none =>
    match gfamily.children with
    | cid :: _ =>
      match gtree.people[cid]? with
      | none => .error .indexError
      | some gchild_first =>
        match married_surname with
        | some s => .ok (gchild_first.level - 1, s)
        | none =>
          match gchild_first.names[0]? with
          | none => .error .indexError
          | some nm => .ok (gchild_first.level - 1, nm.surn)
    | [] => .ok (0, married_surname.getD "")

/-- Source: `create_mother(po, gtree, gfamily_id, givname, married_surname,
maiden_surname=None, sex="F")`. -/
def create_mother (po : PO) (gtree : GTree) (gfamily_id : Nat)
    (givname : String) (married_surname maiden_surname : Option String) (sex : String) :
    Except PyErr (Nat × GTree) :=
  match gtree.families[gfamily_id]? with
  | none => .error .indexError
  | some gfamily =>
    match mother_level_surname gtree gfamily married_surname with
    | .error e => .error e
    | .ok (level, married1) =>
      let names : List GPName :=
        match maiden_surname with
        | none => [{ typ := "married", givn := givname, surn := married1 }]
        | some maiden =>
          [{ typ := "married", givn := givname, surn := married1 },
           { typ := "maiden", givn := givname, surn := maiden }]
      let gmother : GPerson :=
        { level := level, ind := "", names := names, sex := sex, families := [gfamily_id] }
      let gmother_id := gtree.people.length
      let t1 := { gtree with people := gtree.people ++ [gmother] }
      let t2 := { t1 with
        families := t1.families.set gfamily_id { gfamily with mother := some gmother_id } }
      let t3 := { t2 with
        people := t2.people.set gmother_id { gmother with change_date := some po.final_date } }
      .ok (gmother_id, t3)

/-- The level/surname inference block of `create_child`: father first, else
mother, else first existing child, else level 0 and empty surname. -/
def child_level_surname (gtree : GTree) (gfamily : GFamily) (surname : Option String) :
    Except PyErr (Int × String) :=
  match gfamily.father with
  | some fid =>
    match gtree.people[fid]? with
    | none => .error .indexError
    | some gfather =>
      match surname with
      | some s => .ok (gfather.level + 1, s)
      | none =>
        match gfather.names[0]? with
        | none => .error .indexError
        | some nm => .ok (gfather.level + 1, nm.surn)
  | none =>
    match gfamily.mother with
    | some mid =>
      match gtree.people[mid]? with
      | none => .error .indexError
      | some gmother =>
        match surname with
        | some s => .ok (gmother.level + 1, s)
        | none =>
          match gmother.names[0]? with
          | none => .error .indexError
          | some nm => .ok (gmother.level + 1, nm.surn)
    | none =>
      match gfamily.children with
      | cid :: _ =>
        match gtree.people[cid]? with
        | none => .error .indexError
        | some gchild_first =>
          match surname with
          | some s => .ok (gchild_first.level, s)
          | none =>
            match gchild_first.names[0]? with
            | none => .error .indexError
            | some nm => .ok (gchild_first.level, nm.surn)
      | [] => .ok (0, surname.getD "")

/-- Source: `create_child(po, gtree, gfamily_id, givname, surname, sex)`. -/
def create_child (po : PO) (gtree : GTree) (gfamily_id : Nat)
    (givname : String) (surname : Option String) (sex : String) : Except PyErr (Nat × GTree) :=
  match gtree.families[gfamily_id]? with
  | none => .error .indexError
  | some gfamily =>
    match child_level_surname gtree gfamily surname with
    | .error e => .error e
    | .ok (level, surname1) =>
      let gchild : GPerson :=
        { level := level, ind := "",
          names := [{ typ := "birth", givn := givname, surn := surname1 }],
          sex := sex, families := [gfamily_id] }
      let gchild_id := gtree.people.length
      let t1 := { gtree with people := gtree.people ++ [gchild] }
      let t2 := { t1 with
        families := t1.families.set gfamily_id
          { gfamily with children := gfamily.children ++ [gchild_id] } }
      let t3 := { t2 with
        people := t2.people.set gchild_id { gchild with change_date := some po.final_date } }
      .ok (gchild_id, t3)

/-- Adding the new family id to one member's `families` list
(`gX.families.append(gfamily_id)` in `create_family`). -/
def family_backlink (gfamily_id : Nat) (t : GTree) (pid : Nat) : Except PyErr GTree :=
  match t.people[pid]? with
  | none => .error .indexError
  | some p =>
    .ok { t with people := t.people.set pid { p with families := p.families ++ [gfamily_id] } }

/-- The optional father/mother back-link steps of `create_family`. -/
def family_backlink_opt (gfamily_id : Nat) (t : GTree) : Option Nat → Except PyErr GTree
  | none => .ok t
  | some pid => family_backlink gfamily_id t pid

/-- The children back-link loop of `create_family`. -/
def family_backlink_children (gfamily_id : Nat) : GTree → List Nat → Except PyErr GTree
  | t, [] => .ok t
  | t, pid :: rest =>
    match family_backlink gfamily_id t pid with
    | .error e => .error e
    | .ok t1 => family_backlink_children gfamily_id t1 rest

/-- Source: `create_family(po, gtree, gfather_id, gmother_id, children_list)`.
Note that the new family's `change_date` is left at its constructor default
`None`: unlike the person constructors, `create_family` never stamps it. -/
def create_family (po : PO) (gtree : GTree) (gfather_id gmother_id : Option Nat)
    (children_list : List Nat) (r : RS) : Except PyErr (Nat × GTree × RS) :=
  match cdf_random_value relation_type_cdf r with
  | .error e => .error e
  | .ok (legal, r1) =>
    let gfamily : GFamily :=
      { ind := "", legal := legal, dat := none, father := gfather_id, mother := gmother_id,
        children := children_list }
    let gfamily_id := gtree.families.length
    let t1 := { gtree with families := gtree.families ++ [gfamily] }
    match family_backlink_opt gfamily_id t1 gfather_id with
    | .error e => .error e
    | .ok t2 =>
      match family_backlink_opt gfamily_id t2 gmother_id with
      | .error e => .error e
      | .ok t3 =>
        match family_backlink_children gfamily_id t3 children_list with
        | .error e => .error e
        | .ok t4 => .ok (gfamily_id, t4, r1)

/-- The random given-name block shared verbatim by `generate_child` and
`generate_parent`: draw a given name from the chosen first-name CDF, then with
probability `second_name_chance` percent draw a second one and append it. -/
def generate_givname_from (firstnames_cdf : List (ℚ × String)) (second_name_chance : Int)
    (r : RS) : Except PyErr (String × RS) :=
  match cdf_random_value firstnames_cdf r with
  | .error e => .error e
  | .ok (givname, r1) =>
    let q := r1.peek
    let r2 := r1.advance
    if q * 100 < (second_name_chance : ℚ) then
      match cdf_random_value firstnames_cdf r2 with
      | .error e => .error e
      | .ok (secname, r3) =>
        .ok ((if 0 < secname.length then givname ++ " " ++ secname else givname), r3)
    else .ok (givname, r2)

/-- The first-name CDF choice shared by `generate_child` and `generate_parent`
(a 50/50 coin flip between the male and female lists when the sex is neither
`"M"` nor `"F"`). -/
def pick_firstnames_cdf (po : PO) (sex : String) (r : RS) : (List (ℚ × String)) × RS :=
  if sex = "M" then (po.firstnames_male_cdf, r)
  else if sex = "F" then (po.firstnames_feml_cdf, r)
  else
    let q := r.peek
    let r1 := r.advance
    if q * 100 < 50 then (po.firstnames_male_cdf, r1) else (po.firstnames_feml_cdf, r1)

/-- The attribute-randomization prologue shared verbatim by `generate_child`
and `generate_parent`: fill in `sex` from `person_sex_cdf` and `givname`
from the sex-appropriate first-name distribution when unspecified. -/
def generate_givname_sex (po : PO) (givname sex : Option String) (r : RS) :
    Except PyErr (String × String × RS) :=
  let sexR : Except PyErr (String × RS) :=
    match sex with
    | some sx => .ok (sx, r)
    | none => cdf_random_value person_sex_cdf r
  match sexR with
  | .error e => .error e
  | .ok (sexv, r1) =>
    match givname with
    | some g => .ok (g, sexv, r1)
    | none =>
      let (cdf, r2) := pick_firstnames_cdf po sexv r1
      match generate_givname_from cdf po.second_name_chance r2 with
      | .error e => .error e
      | .ok (g, r3) => .ok (g, sexv, r3)

/-- Source: `generate_child(po, gtree, gfamily_id, givname, surname, sex)`. -/
def generate_child (po : PO) (gtree : GTree) (gfamily_id : Nat)
    (givname surname sex : Option String) (r : RS) : Except PyErr (Nat × GTree × RS) :=
  match generate_givname_sex po givname sex r with
  | .error e => .error e
  | .ok (givname1, sex1, r1) =>
    match create_child po gtree gfamily_id givname1 surname sex1 with
    | .error e => .error e
    | .ok (gchild_id, t1) => .ok (gchild_id, t1, r1)

/-- Source: `generate_parent(po, gtree, gfamily_id, givname, surname,
maiden_surname=None, sex="M")`.  When the mother branch is taken with
`maiden_surname` unspecified, the maiden name is drawn rejecting `[surname]`;
a `None` surname rejects nothing (`val in [None]` is false for strings), which
`Option.toList` reproduces. -/
def generate_parent (po : PO) (gtree : GTree) (gfamily_id : Nat)
    (givname surname maiden_surname sex : Option String) (r : RS) :
    Except PyErr (Nat × GTree × RS) :=
  match generate_givname_sex po givname sex r with
  | .error e => .error e
  | .ok (givname1, sex1, r1) =>
    match gtree.families[gfamily_id]? with
    | none => .error .indexError
    | some gfamily =>
      if gfamily.father = none ∨ (gfamily.mother ≠ none ∧ sex1 = "M") then
        match create_father po gtree gfamily_id givname1 surname sex1 with
        | .error e => .error e
        | .ok (pid, t1) => .ok (pid, t1, r1)
      else
        let maidenR : Except PyErr (String × RS) :=
          match maiden_surname with
          | some m => .ok (m, r1)
          | none => cdf_random_value_not_in_list po.lastnames_male_cdf surname.toList r1
        match maidenR with
        | .error e => .error e
        | .ok (maiden1, r2) =>
          match create_mother po gtree gfamily_id givname1 surname (some maiden1) sex1 with
          | .error e => .error e
          | .ok (pid, t1) => .ok (pid, t1, r2)

/-- The per-child filter of `family_get_random_child` (the three `continue`
guards; name fields are only inspected when the corresponding filter is set). -/
def child_match (givname surname sex : Option String) (gchild : GPerson) :
    Except PyErr Bool :=
  let givnameCheck : Except PyErr Bool :=
    match givname with
    | none => .ok true
    | some g =>
      match gchild.names[0]? with
      | none => .error .indexError
      | some nm => .ok (decide (nm.givn = g))
  let surnameCheck : Except PyErr Bool :=
    match surname with
    | none => givnameCheck
    | some s =>
      match gchild.names[0]? with
      | none => .error .indexError
      | some nm => if nm.surn ≠ s then .ok false else givnameCheck
  match sex with
  | none => surnameCheck
  | some sx => if gchild.sex ≠ sx then .ok false else surnameCheck

/-- The match-collecting loop of `family_get_random_child`. -/
def child_filter_loop (gtree : GTree) (givname surname sex : Option String) :
    List Nat → Except PyErr (List Nat)
  | [] => .ok []
  | gchild_id :: rest =>
    match gtree.people[gchild_id]? with
    | none => .error .indexError
    | some gchild =>
      match child_match givname surname sex gchild with
      | .error e => .error e
      | .ok keep =>
        match child_filter_loop gtree givname surname sex rest with
        | .error e => .error e
        | .ok ms => .ok (if keep then gchild_id :: ms else ms)

/-- Source: `family_get_random_child(po, gtree, gfamily_id, givname, surname, sex)`.
`random.choice(matches)` is modelled as one uniform draw scaled to an index. -/
def family_get_random_child (gtree : GTree) (gfamily_id : Nat)
    (givname surname sex : Option String) (r : RS) : Except PyErr (Option Nat × RS) :=
  match gtree.families[gfamily_id]? with
  | none => .error .indexError
  | some gfamily =>
    match child_filter_loop gtree givname surname sex gfamily.children with
    | .error e => .error e
    | .ok mlist =>
      if mlist.length < 1 then .ok (none, r)
      else
        let q := r.peek
        let r1 := r.advance
        match mlist[(q * (mlist.length : ℚ)).floor.toNat]? with
        | none => .error .indexError
        | some cid => .ok (some cid, r1)

/-- Source: the `for i in range(min_children, max_children)` loop of
`generate_family_incl_person`: draw a sex, force `"M"` when `i` is the single
forcing slot `max_children - min_male_children` and males are still short,
track the male count, and generate the child. -/
def gfip_children_loop (po : PO) (gfamily_id : Nat) (max_children min_male_children : Nat) :
    List Nat → Nat → GTree → RS → Except PyErr (Nat × GTree × RS)
  | [], male_children, t, r => .ok (male_children, t, r)
  | i :: rest, male_children, t, r =>
    match cdf_random_value person_sex_cdf r with
    | .error e => .error e
    | .ok (sex0, r1) =>
      let sex := if (i : Int) = (max_children : Int) - (min_male_children : Int)
                    ∧ male_children < min_male_children then "M" else sex0
      let male_children1 := if sex = "M" then male_children + 1 else male_children
      match generate_child po t gfamily_id none none (some sex) r1 with
      | .error e => .error e
      | .ok (_, t1, r2) =>
        gfip_children_loop po gfamily_id max_children min_male_children rest male_children1 t1 r2

/-- Source: `generate_family_incl_person(po, gtree, gperson_incl_id,
gperson_role, num_children, min_male_children)`. -/
def generate_family_incl_person (po : PO) (gtree : GTree) (gperson_incl_id : Nat)
    (gperson_role : String) (num_children min_male_children : Nat) (r : RS) :
    Except PyErr (Nat × GTree × RS) :=
  let gfather_id : Option Nat := if gperson_role = "father" then some gperson_incl_id else none
  let gmother_id : Option Nat := if gperson_role = "mother" then some gperson_incl_id else none
  let children_list : List Nat := if gperson_role = "child" then [gperson_incl_id] else []
  let gchildR : Except PyErr (Option GPerson) :=
    if gperson_role = "child" then
      match gtree.people[gperson_incl_id]? with
      | none => .error .indexError
      | some p => .ok (some p)
    else .ok none
  match gchildR with
  | .error e => .error e
  | .ok gchild =>
    match create_family po gtree gfather_id gmother_id children_list r with
    | .error e => .error e
    | .ok (gfamily_id, t1, r1) =>
      let fatherStep : Except PyErr (GTree × RS) :=
        match gfather_id with
        | some _ => .ok (t1, r1)
        | none =>
          match generate_parent po t1 gfamily_id none none none (some "M") r1 with
          | .error e => .error e
          | .ok (_, t2, r2) => .ok (t2, r2)
      match fatherStep with
      | .error e => .error e
      | .ok (t2, r2) =>
        let motherStep : Except PyErr (GTree × RS) :=
          match gmother_id with
          | some _ => .ok (t2, r2)
          | none =>
            match generate_parent po t2 gfamily_id none none none (some "F") r2 with
            | .error e => .error e
            | .ok (_, t3, r3) => .ok (t3, r3)
        match motherStep with
        | .error e => .error e
        | .ok (t3, r3) =>
          let min_children : Nat := if gperson_role = "child" then 1 else 0
          let male_children0 : Nat :=
            match gchild with
            | some c => if c.sex = "M" then 1 else 0
            | none => 0
          let max_children : Nat :=
            max num_children
              (min_children + (max 0 ((min_male_children : Int) - (male_children0 : Int))).toNat + 1)
          match gfip_children_loop po gfamily_id max_children min_male_children
              (List.range' min_children (max_children - min_children)) male_children0 t3 r3 with
          | .error e => .error e
          | .ok (_, t4, r4) => .ok (gfamily_id, t4, r4)

/-- Source: the `for i in range(1, num_h)` trunk loop of `generate_core_branch`. -/
def generate_core_branch_loop (po : PO) (num_w : Nat) :
    List Nat → Nat → GTree → RS → Except PyErr (Nat × GTree × RS)
  | [], gperson_id, t, r => .ok (gperson_id, t, r)
  | _i :: rest, gperson_id, t, r =>
    match cdf_random_value (num_of_children_cdf num_w) r with
    | .error e => .error e
    | .ok (num_children, r1) =>
      match generate_family_incl_person po t gperson_id "father" num_children 1 r1 with
      | .error e => .error e
      | .ok (gfamily_id, t1, r2) =>
        match family_get_random_child t1 gfamily_id none none (some "M") r2 with
        | .error e => .error e
        | .ok (none, _) => .error .runtimeError
        | .ok (some gperson_id1, r3) => generate_core_branch_loop po num_w rest gperson_id1 t1 r3

/-- Source: `generate_core_branch(po, gtree, start_date, num_w, num_h)`.
The birth date `bdate` is computed from one `random.randrange(365)` draw and
then never used; the draw is consumed and discarded. -/
def generate_core_branch (po : PO) (t : GTree) (num_w num_h : Nat) (r : RS) :
    Except PyErr (GTree × RS) :=
  let r0 := r.advance
  match cdf_random_value po.lastnames_male_cdf r0 with
  | .error e => .error e
  | .ok (surname, r1) =>
    match cdf_random_value po.firstnames_male_cdf r1 with
    | .error e => .error e
    | .ok (givname, r2) =>
      let gperson : GPerson :=
        { level := 0, ind := "",
          names := [{ typ := "birth", givn := givname, surn := surname }],
          sex := "M", families := [] }
      let gperson_id := t.people.length
      let t1 := { t with people := t.people ++ [gperson] }
      match generate_core_branch_loop po num_w (List.range' 1 (num_h - 1)) gperson_id t1 r2 with
      | .error e => .error e
      | .ok (_, t2, r3) => .ok (t2, r3)

/-- Source: the body of `generate_sub_branches`: iterate over the person indices
fixed at entry, break as soon as the population target is met, and give each
person lacking a parent role (below the generation ceiling) a spouse-family, or
each person lacking a child role (above generation 0) a parent-family. -/
def sub_branches_loop (po : PO) (num_w : Nat) :
    List Nat → GTree → RS → Except PyErr (GTree × RS)
  | [], t, r => .ok (t, r)
  | gperson_id :: rest, t, r =>
    if po.num_people ≤ t.people.length then .ok (t, r)
    else
      match t.people[gperson_id]? with
      | none => .error .indexError
      | some gperson =>
        match person_is_parent_in_families t gperson_id with
        | .error e => .error e
        | .ok parentFams =>
          if parentFams.length < 1 ∧ gperson.level + 1 < (po.num_generations : Int) then
            let gperson_role := if gperson.sex = "F" then "mother" else "father"
            match cdf_random_value (num_of_children_cdf num_w) r with
            | .error e => .error e
            | .ok (num_children, r1) =>
              match generate_family_incl_person po t gperson_id gperson_role num_children 0 r1 with
              | .error e => .error e
              | .ok (_, t1, r2) => sub_branches_loop po num_w rest t1 r2
          else
            match person_is_child_in_families t gperson_id with
            | .error e => .error e
            | .ok childFams =>
              if childFams.length < 1 ∧ 0 < gperson.level then
                match cdf_random_value (num_of_children_cdf num_w) r with
                | .error e => .error e
                | .ok (num_children, r1) =>
                  match generate_family_incl_person po t gperson_id "child" num_children 0 r1 with
                  | .error e => .error e
                  | .ok (_, t1, r2) => sub_branches_loop po num_w rest t1 r2
              else sub_branches_loop po num_w rest t r

/-- Source: `generate_sub_branches(po, gtree, num_w)`; the iteration range is
computed once from the population at entry, as `range(0, len(gtree.people))`. -/
def generate_sub_branches (po : PO) (num_w : Nat) (t : GTree) (r : RS) :
    Except PyErr (GTree × RS) :=
  sub_branches_loop po num_w (List.range t.people.length) t r

/-- Source: the `while len(gtree.people) < po.num_people` loop of
`gedcom_generate`, indexed by an explicit iteration bound (`fuel`): running out
of fuel returns the current state, so reaching the target within some fuel is
exactly termination of the unbounded Python loop. -/
def gen_phase_loop (po : PO) (num_w : Nat) : Nat → GTree → RS → Except PyErr (GTree × RS)
  | 0, t, r => .ok (t, r)
  | fuel + 1, t, r =>
    if t.people.length < po.num_people then
      match generate_sub_branches po num_w t r with
      | .error e => .error e
      | .ok (t1, r1) => gen_phase_loop po num_w fuel t1 r1
    else .ok (t, r)

/-- Source: `core_branch_w = min(int(1/3 * po.num_people / po.num_generations), 8)`
(exact rational arithmetic in place of floats). -/
def core_branch_w (po : PO) : Nat :=
  min (((po.num_people : ℚ) / 3 / (po.num_generations : ℚ)).floor.toNat) 8

/-- Python's `"{:05d}".format(n)` for a natural number: decimal digits,
left-padded with zeros to a minimum width. -/
def format_pad0 (width n : Nat) : String :=
  let s := Nat.repr n
  if s.length < width then String.mk (List.replicate (width - s.length) '0') ++ s else s

/-- Source: `gedcom_reset_identifiers(po, gtree)` (unused `po` dropped). -/
def gedcom_reset_identifiers (gtree : GTree) : GTree :=
  { people := gtree.people.enum.map (fun ip => { ip.2 with ind := "I" ++ format_pad0 5 ip.1 }),
    families := gtree.families.enum.map (fun ip => { ip.2 with ind := "F" ++ format_pad0 5 ip.1 }),
    sources := gtree.sources.enum.map (fun ip => { ip.2 with ind := "S" ++ format_pad0 5 ip.1 }),
    notes := gtree.notes.enum.map (fun ip => { ip.2 with ind := "N" ++ format_pad0 5 ip.1 }),
    objects := gtree.objects.enum.map (fun ip => { ip.2 with ind := "O" ++ format_pad0 5 ip.1 }) }

/-- Person `pid` (with record `p`) has sound back-links: every family index in
`p.families` is in range and that family lists the person as father, mother,
or child. -/
def PersonLinked (t : GTree) (pid : Nat) (p : GPerson) : Prop :=
  ∀ fid ∈ p.families, ∃ f, t.families[fid]? = some f ∧
    (f.father = some pid ∨ f.mother = some pid ∨ pid ∈ f.children)

/-- Family `fid` (with record `f`) has sound forward links: every member index
is in range and that member's `families` list contains `fid`. -/
def FamilyLinked (t : GTree) (fid : Nat) (f : GFamily) : Prop :=
  (∀ pid, f.father = some pid → ∃ p, t.people[pid]? = some p ∧ fid ∈ p.families) ∧
  (∀ pid, f.mother = some pid → ∃ p, t.people[pid]? = some p ∧ fid ∈ p.families) ∧
  (∀ pid ∈ f.children, ∃ p, t.people[pid]? = some p ∧ fid ∈ p.families)

/-- The bidirectional-link invariant of the data model: no one-sided or
dangling link in either direction. -/
def Linked (t : GTree) : Prop :=
  (∀ pid p, t.people[pid]? = some p → PersonLinked t pid p) ∧
  (∀ fid f, t.families[fid]? = some f → FamilyLinked t fid f)

/-- Every person's generation level lies in `[0, numgen)`. -/
def LevelsOk (numgen : Nat) (t : GTree) : Prop :=
  ∀ p ∈ t.people, 0 ≤ p.level ∧ p.level < (numgen : Int)

/-- Every person has a non-empty name list (`names[0]` is read during surname
inheritance). -/
def NamesOk (t : GTree) : Prop :=
  ∀ p ∈ t.people, p.names ≠ []

/-- A CDF from which `cdf_random_value` always succeeds to draw (non-empty with
positive final cumulative value). -/
def cdfOkBool {α : Type} (cdf : List (ℚ × α)) : Bool :=
  match cdf.getLast? with
  | none => false
  | some e => decide (0 < e.1)

/-- The three reference-name CDFs installed on the options object are drawable. -/
def POk (po : PO) : Prop :=
  cdfOkBool po.firstnames_male_cdf = true ∧ cdfOkBool po.firstnames_feml_cdf = true ∧
  cdfOkBool po.lastnames_male_cdf = true

/-- Person `pid` holds a parent role in some family it links to. -/
def IsParentIn (t : GTree) (pid : Nat) (p : GPerson) : Prop :=
  ∃ fid ∈ p.families, ∃ f, t.families[fid]? = some f ∧
    (f.father = some pid ∨ f.mother = some pid)

/-- Person `pid` holds a child role in some family it links to. -/
def IsChildIn (t : GTree) (pid : Nat) (p : GPerson) : Prop :=
  ∃ fid ∈ p.families, ∃ f, t.families[fid]? = some f ∧ pid ∈ f.children

/-- Person `pid` is still eligible for an attachment in the sub-branch scan:
lacking a parent role below the generation ceiling, or lacking a child role
above generation 0. -/
def Unresolved (po : PO) (t : GTree) (pid : Nat) : Prop :=
  ∃ p, t.people[pid]? = some p ∧
    ((¬ IsParentIn t pid p ∧ p.level + 1 < (po.num_generations : Int)) ∨
     (¬ IsChildIn t pid p ∧ 0 < p.level))

/-- Person record `p'` is person `p` with the family id `L` back-linked some
number of times (zero or more), all other modelled fields untouched. -/
def GrowsN (L : Nat) (p p' : GPerson) : Prop :=
  p'.level = p.level ∧ p'.names = p.names ∧ p'.sex = p.sex ∧
  ∃ k, p'.families = p.families ++ List.replicate k L

/-- Person `pid` exists in `t` and its `families` list contains `L`. -/
def HasLink (t : GTree) (pid L : Nat) : Prop :=
  ∃ p, t.people[pid]? = some p ∧ L ∈ p.families

/-- Relation between a tree and the tree after some of `create_family`'s
back-link steps for family `L` have run: the family list is unchanged, the
population is unchanged, and each person record has only grown by copies of
the back-link `L` — and only for persons in the processed set `S`. -/
def BackStar (L : Nat) (S : List Nat) (t t' : GTree) : Prop :=
  t'.families = t.families ∧
  t'.people.length = t.people.length ∧
  (∀ (q : Nat) (p : GPerson), t.people[q]? = some p →
    ∃ p', t'.people[q]? = some p' ∧ GrowsN L p p') ∧
  (∀ (q : Nat) (p' : GPerson), t'.people[q]? = some p' →
    ∃ p, t.people[q]? = some p ∧ GrowsN L p p' ∧
      (p'.families = p.families ∨ q ∈ S))

/-- Concrete fixed date used for sample evaluations. -/
def sampleDate : GDate := ⟨2020, 1, 1⟩

/-- Concrete minimal options object used for sample evaluations. -/
def samplePO : PO :=
  { second_name_chance := 0, num_people := 2, num_generations := 1,
    firstnames_male_cdf := [(1, "Adam")],
    firstnames_feml_cdf := [(1, "Eva")],
    lastnames_male_cdf := [(1, "Nowak")],
    final_date := sampleDate }

/-- Options object with three generations and the population target already
met by a single person, for sample evaluations of the generation phase. -/
def samplePO3 : PO :=
  { second_name_chance := 0, num_people := 1, num_generations := 3,
    firstnames_male_cdf := [(1, "Adam")],
    firstnames_feml_cdf := [(1, "Eva")],
    lastnames_male_cdf := [(1, "Nowak")],
    final_date := sampleDate }

/-- Random stream delivering 0 on every draw. -/
def zeroStream : RS := ⟨fun _ => 0, 0⟩

/-- Random stream delivering 1/2 on every draw. -/
def halfStream : RS := ⟨fun _ => 1/2, 0⟩

/-- The name list `create_mother` builds: a married name, plus a maiden name
when a maiden surname is supplied. -/
def mother_names (gn sn1 : String) (maiden : Option String) : List GPName :=
  match maiden with
  | none => [⟨"married", gn, sn1, "", "", ""⟩]
  | some m => [⟨"married", gn, sn1, "", "", ""⟩, ⟨"maiden", gn, m, "", "", ""⟩]

/-- Numeric value of a decimal digit character. -/
def digitVal (c : Char) : Nat := c.toNat - Char.toNat '0'

/-- Decimal value encoded by a list of digit characters (most significant
first); leading zero padding does not change the value. -/
def decValue (l : List Char) : Nat := l.foldl (fun a c => 10 * a + digitVal c) 0

/-- Shape check for an assigned identifier: one prefix character followed by
exactly five decimal digits (the pattern `I\d{5}` of the claim, with `I`
generalized to the prefix). -/
def idFormatOk (pre : Char) (s : String) : Bool :=
  decide (s.length = 6) && decide (s.data.head? = some pre) && (s.data.drop 1).all Char.isDigit

/-- A blank person used to build large test trees. -/
def blankPerson : GPerson :=
  { level := 0, ind := "", names := [⟨"birth", "A", "B", "", "", ""⟩], sex := "M", families := [] }

/-- A tree with 100001 people, one more than the 5-digit identifier space. -/
def bigTree100001 : GTree := ⟨List.replicate 100001 blankPerson, [], [], [], []⟩

/-- The value `max_num` computed by `num_of_children_cdf`. -/
def nocM (E : Nat) : Nat := E * 3 / 2 + 1

/-- The value `total_upto_expected` computed by `num_of_children_cdf`. -/
def nocT (E : Nat) : ℚ := 1.0 / ((nocM E : ℚ) + 1) * (6/5 * (E : ℚ) + 1)

/-- The first-half slope `a` of `num_of_children_cdf` for `expected_num > 1`. -/
def nocA1 (E : Nat) : ℚ :=
  0.8 * nocT E / ((E : ℚ) - 1 + (((List.range' 1 E).sum : Nat) : ℚ))

/-- The first-half offset `b` of `num_of_children_cdf` for `expected_num > 1`. -/
def nocB1 (E : Nat) : ℚ := 0.2 * nocT E / ((E : ℚ) + 1)

/-- The second-half slope `a` of `num_of_children_cdf` when `max_num - expected_num > 1`. -/
def nocA2 (E : Nat) : ℚ :=
  0.8 * (1.0 - nocT E) / (((List.range' 1 (nocM E - E - 1)).sum : Nat) : ℚ)

/-- The second-half offset `b` of `num_of_children_cdf` when `max_num - expected_num > 1`. -/
def nocB2 (E : Nat) : ℚ := 0.2 * (1.0 - nocT E) / ((nocM E : ℚ) - (E : ℚ))

/-- The empty tree `GTree([], [], [], [], [])`. -/
def emptyTree : GTree := ⟨[], [], [], [], []⟩

/-- A tree holding a single family with no members yet. -/
def oneFamilyTree : GTree := ⟨[], [⟨"", "marriage", none, none, none, [], none⟩], [], [], []⟩

/-- A tree holding a single male person at index 0. -/
def oneManTree : GTree := ⟨[blankPerson], [], [], [], []⟩

/-- Number of children of family `f` in tree `t` whose sex is `"M"`. -/
def countMaleChildren (t : GTree) (f : GFamily) : Nat :=
  (f.children.filterMap (fun cid => t.people[cid]?)).countP (fun p => p.sex == "M")

/-- The male-children count of the family produced by a
`generate_family_incl_person` run, when the run succeeds. -/
def gfipMaleCount (po : PO) (t : GTree) (pid : Nat) (role : String)
    (num_children min_male : Nat) (r : RS) : Option (Option Nat) :=
  (generate_family_incl_person po t pid role num_children min_male r).toOption.map
    (fun res => (res.2.1.families[res.1]?).map (fun f => countMaleChildren res.2.1 f))

/-! ## Distribution Builder and degenerate children distribution (C5, C6) -/

/-- C5 counterexample: `num_of_children_cdf(0)` gives outcome 0 the share
`0.7` and outcome 1 the share `0.3`, not the claimed 60/40 split. -/
theorem C5_counterexample :
    cdf_widths 0 (num_of_children_cdf 0) = [7/10, 3/10] ∧
    ¬ cdf_widths 0 (num_of_children_cdf 0) = [3/5, 2/5] := by
  with_unfolding_all decide

/-- C5 (amended): `num_of_children_cdf(0)` is a two-point distribution over
outcomes 0 and 1 favouring 0, with shares `0.7` and `0.3` (a 70/30 split). -/
theorem C5_zero_expectation_distribution :
    num_of_children_cdf 0 = [(7/10, 0), (1, 1)] ∧
    cdf_widths 0 (num_of_children_cdf 0) = [7/10, 3/10] ∧
    (3/10 : ℚ) < 7/10 := by
  with_unfolding_all decide

/-- The loop of `weighted_list_to_cdf` raises `ZeroDivisionError` as soon as it
divides by a zero total, i.e. on the first element. -/
theorem weighted_list_to_cdf_loop_zero (pt : ℚ) (e : WeightedString) (wl : List WeightedString) :
    weighted_list_to_cdf_loop 0 pt (e :: wl) = .error .zeroDivisionError := by
  simp [weighted_list_to_cdf_loop]

/-- With a non-zero total the loop of `weighted_list_to_cdf` succeeds and
produces exactly the running cumulative sums. -/
theorem weighted_list_to_cdf_loop_ok (wm : Int) (h : wm ≠ 0) :
    ∀ (wl : List WeightedString) (pt : ℚ),
      weighted_list_to_cdf_loop wm pt wl = .ok (running_cdf (wm : ℚ) pt wl) := by
  intro wl
  induction wl with
  | nil => intro pt; simp [weighted_list_to_cdf_loop, running_cdf]
  | cons e rest ih =>
    intro pt
    simp only [weighted_list_to_cdf_loop, running_cdf, h, if_false, ih]

/-- The running-sum CDF has one entry per input value, in input order. -/
theorem running_cdf_values (total : ℚ) :
    ∀ (wl : List WeightedString) (acc : ℚ),
      (running_cdf total acc wl).map Prod.snd = wl.map WeightedString.s := by
  intro wl
  induction wl with
  | nil => intro acc; simp [running_cdf]
  | cons e rest ih => intro acc; simp [running_cdf, ih]

/-- C6 counterexample: on the empty list `weighted_list_to_cdf` does not raise;
it returns the empty CDF (the division by the zero total is never executed
because the loop body never runs). -/
theorem C6_counterexample : weighted_list_to_cdf [] = .ok [] := rfl

/-- C6 (amended): `weighted_list_to_cdf` fails exactly when the input list is
non-empty and the total weight is 0 (and then with the division-by-zero
error); the empty list yields the empty CDF; whenever the total weight is
non-zero it returns one entry per input value, in input order, whose
cumulative probabilities are the running sums of `weight/total`. -/
theorem C6_build_cdf_characterization (wlist : List WeightedString) :
    ((weighted_list_to_cdf wlist).isOk = false ↔
      wlist ≠ [] ∧ (wlist.map WeightedString.weight).sum = 0) ∧
    (∀ e, weighted_list_to_cdf wlist = .error e → e = .zeroDivisionError) ∧
    ((wlist.map WeightedString.weight).sum ≠ 0 →
      weighted_list_to_cdf wlist =
        .ok (running_cdf (((wlist.map WeightedString.weight).sum : Int) : ℚ) 0 wlist)) ∧
    (wlist = [] → weighted_list_to_cdf wlist = .ok []) := by
  refine ⟨?_, ?_, ?_, ?_⟩
  · constructor
    · intro h
      rcases wlist with _ | ⟨e, rest⟩
      · simp [weighted_list_to_cdf, weighted_list_to_cdf_loop, Except.isOk, Except.toBool] at h
      · refine ⟨by simp, ?_⟩
        by_contra hsum
        rw [weighted_list_to_cdf, weighted_list_to_cdf_loop_ok _ hsum] at h
        simp [Except.isOk, Except.toBool] at h
    · rintro ⟨hne, hsum⟩
      rcases wlist with _ | ⟨e, rest⟩
      · exact absurd rfl hne
      · rw [weighted_list_to_cdf, hsum, weighted_list_to_cdf_loop_zero]
        rfl
  · intro e he
    by_cases hsum : (wlist.map WeightedString.weight).sum = 0
    · rcases wlist with _ | ⟨x, rest⟩
      · simp [weighted_list_to_cdf, weighted_list_to_cdf_loop] at he
      · rw [weighted_list_to_cdf, hsum, weighted_list_to_cdf_loop_zero] at he
        injection he with h
        exact h.symm
    · rw [weighted_list_to_cdf, weighted_list_to_cdf_loop_ok _ hsum] at he
      exact absurd he (by simp)
  · intro hsum
    rw [weighted_list_to_cdf, weighted_list_to_cdf_loop_ok _ hsum]
  · rintro rfl
    rfl

/-- C6 witness: a concrete non-empty list with positive total weight, where the
characterization yields the explicit running-sum CDF. -/
theorem C6_build_cdf_witness :
    weighted_list_to_cdf [⟨"a", 1⟩, ⟨"b", 3⟩] = .ok [(1/4, "a"), (1, "b")] := by
  have h := (C6_build_cdf_characterization [⟨"a", 1⟩, ⟨"b", 3⟩]).2.2.1 (by decide)
  rw [h]
  exact congrArg Except.ok (by with_unfolding_all decide)

/-! ## Sampler under exclusion (C7) -/

/-- A successful draw from `cdf_random_value` returns one of the CDF's values. -/
theorem cdf_random_value_ok_mem {α : Type} (cdf : List (ℚ × α)) (r : RS) (v : α) (r1 : RS)
    (h : cdf_random_value cdf r = .ok (v, r1)) : v ∈ cdf.map Prod.snd := by
  unfold cdf_random_value at h
  rcases hl : cdf.getLast? with _ | lastEntry
  · rw [hl] at h; exact absurd h (by simp)
  · rw [hl] at h
    simp only [RS.peek] at h
    rcases hf : cdf.find? (fun e => decide (r.seq r.pos * lastEntry.1 < e.1)) with _ | e
    · rw [hf] at h; exact absurd h (by simp)
    · rw [hf] at h
      have hmem := List.mem_of_find?_eq_some hf
      have hev : e.2 = v := by
        injection h with h1
        injection h1 with h2 h3
      exact hev ▸ List.mem_map_of_mem Prod.snd hmem

/-- The shrinking loop keeps exactly the entries whose value is not rejected,
in order. -/
theorem cdf_reject_loop_values {α : Type} [DecidableEq α] (rj : List α) :
    ∀ (cdf : List (ℚ × α)) (pm nt : ℚ),
      (cdf_reject_loop rj pm nt cdf).map Prod.snd =
        (cdf.map Prod.snd).filter (fun v => decide (v ∉ rj)) := by
  intro cdf
  induction cdf with
  | nil => intro pm nt; simp [cdf_reject_loop]
  | cons e rest ih =>
    intro pm nt
    rcases e with ⟨pu, v⟩
    by_cases hv : v ∈ rj
    · simp [cdf_reject_loop, hv, ih]
    · simp [cdf_reject_loop, hv, ih]

/-- The shrinking loop preserves each surviving entry's probability share: the
successive differences of the shrunk CDF are exactly the successive
differences of the surviving entries in the original CDF. -/
theorem cdf_reject_loop_widths {α : Type} [DecidableEq α] (rj : List α) :
    ∀ (cdf : List (ℚ × α)) (pm nt : ℚ),
      cdf_widths nt (cdf_reject_loop rj pm nt cdf) =
        (((cdf.map Prod.snd).zip (cdf_widths pm cdf)).filter
          (fun p => decide (p.1 ∉ rj))).map Prod.snd := by
  intro cdf
  induction cdf with
  | nil => intro pm nt; simp [cdf_reject_loop, cdf_widths]
  | cons e rest ih =>
    intro pm nt
    rcases e with ⟨pu, v⟩
    by_cases hv : v ∈ rj
    · simp [cdf_reject_loop, hv, cdf_widths, ih]
    · have h1 : nt + (pu - pm) - nt = pu - pm := by ring
      simp [cdf_reject_loop, hv, cdf_widths, ih, h1]

/-- C7: the exclusion sampler never returns a rejected value; the shrunk CDF it
samples from keeps exactly the surviving entries, in order, each with its
original probability share (relative weighting preserved); and if every entry
is rejected the sampler fails (the shrunk distribution is empty, so the draw
raises before sampling). -/
theorem C7_sample_excluding :
    (∀ (α : Type) [DecidableEq α] (cdf : List (ℚ × α)) (reject_list : List α)
        (r : RS) (v : α) (r1 : RS),
        cdf_random_value_not_in_list cdf reject_list r = .ok (v, r1) → v ∉ reject_list) ∧
    (∀ (α : Type) [DecidableEq α] (cdf : List (ℚ × α)) (reject_list : List α),
        (cdf_reject_loop reject_list 0 0 cdf).map Prod.snd =
          (cdf.map Prod.snd).filter (fun v => decide (v ∉ reject_list)) ∧
        cdf_widths 0 (cdf_reject_loop reject_list 0 0 cdf) =
          (((cdf.map Prod.snd).zip (cdf_widths 0 cdf)).filter
            (fun p => decide (p.1 ∉ reject_list))).map Prod.snd) ∧
    (∀ (α : Type) [DecidableEq α] (cdf : List (ℚ × α)) (reject_list : List α) (r : RS),
        (∀ v ∈ cdf.map Prod.snd, v ∈ reject_list) →
        cdf_random_value_not_in_list cdf reject_list r = .error .indexError) := by
  refine ⟨?_, ?_, ?_⟩
  · intro α inst cdf reject_list r v r1 h hv
    have hmem := cdf_random_value_ok_mem _ _ _ _ h
    rw [cdf_reject_loop_values] at hmem
    have := List.of_mem_filter hmem
    simp at this
    exact this hv
  · intro α inst cdf reject_list
    exact ⟨cdf_reject_loop_values reject_list cdf 0 0, cdf_reject_loop_widths reject_list cdf 0 0⟩
  · intro α inst cdf reject_list r hall
    have hempty : (cdf_reject_loop reject_list 0 0 cdf).map Prod.snd = [] := by
      rw [cdf_reject_loop_values]
      rw [List.filter_eq_nil]
      intro v hv
      simpa using hall v hv
    have : cdf_reject_loop reject_list 0 0 cdf = [] := by
      exact List.map_eq_nil.mp hempty
    rw [cdf_random_value_not_in_list, this]
    rfl

/-- C7 witness: rejecting the only value of a one-entry CDF makes the sampler
fail with the empty-distribution error. -/
theorem C7_sample_excluding_witness :
    cdf_random_value_not_in_list [((1 : ℚ), "a")] ["a"] zeroStream = .error .indexError :=
  C7_sample_excluding.2.2 String [((1 : ℚ), "a")] ["a"] zeroStream (by decide)

/-! ## Entity creation shapes and change-date stamping (C8) -/

/-- Setting the freshly appended element of a list replaces it. -/
theorem set_append_len {α : Type} (l : List α) (a b : α) : (l ++ [a]).set l.length b = l ++ [b] := by
  induction l with
  | nil => rfl
  | cons x xs ih => simp [List.set, ih]

/-- Full characterization of a successful `create_father` call. -/
theorem create_father_shape (po : PO) (t : GTree) (fid : Nat) (gn : String) (sn : Option String)
    (sx : String) (pid : Nat) (t1 : GTree)
    (h : create_father po t fid gn sn sx = .ok (pid, t1)) :
    ∃ fam lv sn1, t.families[fid]? = some fam ∧
      father_level_surname t fam sn = .ok (lv, sn1) ∧
      pid = t.people.length ∧
      t1 = { t with
        people := t.people ++ [{ level := lv, ind := "", names := [⟨"birth", gn, sn1, "", "", ""⟩],
                                 sex := sx, families := [fid], events := [], sources := [],
                                 notes := [], objects := [], change_date := some po.final_date }],
        families := t.families.set fid { fam with father := some pid } } := by
  unfold create_father at h
  rcases hf : t.families[fid]? with _ | fam
  · simp only [hf] at h
    exact Except.noConfusion h
  · simp only [hf] at h
    rcases hls : father_level_surname t fam sn with e | lv1
    · simp only [hls] at h
      exact Except.noConfusion h
    · obtain ⟨lv, sn1⟩ := lv1
      simp only [hls] at h
      injection h with h1
      rw [Prod.mk.injEq] at h1
      obtain ⟨h2, h3⟩ := h1
      subst h3
      subst h2
      refine ⟨fam, lv, sn1, rfl, hls, rfl, ?_⟩
      simp [set_append_len]

/-- Full characterization of a successful `create_mother` call. -/
theorem create_mother_shape (po : PO) (t : GTree) (fid : Nat) (gn : String)
    (msn maiden : Option String) (sx : String) (pid : Nat) (t1 : GTree)
    (h : create_mother po t fid gn msn maiden sx = .ok (pid, t1)) :
    ∃ fam lv sn1, t.families[fid]? = some fam ∧
      mother_level_surname t fam msn = .ok (lv, sn1) ∧
      pid = t.people.length ∧
      t1 = { t with
        people := t.people ++ [{ level := lv, ind := "", names := mother_names gn sn1 maiden,
                                 sex := sx, families := [fid], events := [], sources := [],
                                 notes := [], objects := [], change_date := some po.final_date }],
        families := t.families.set fid { fam with mother := some pid } } := by
  unfold create_mother at h
  rcases hf : t.families[fid]? with _ | fam
  · simp only [hf] at h
    exact Except.noConfusion h
  · simp only [hf] at h
    rcases hls : mother_level_surname t fam msn with e | lv1
    · simp only [hls] at h
      exact Except.noConfusion h
    · obtain ⟨lv, sn1⟩ := lv1
      simp only [hls] at h
      injection h with h1
      rw [Prod.mk.injEq] at h1
      obtain ⟨h2, h3⟩ := h1
      subst h3
      subst h2
      refine ⟨fam, lv, sn1, rfl, hls, rfl, ?_⟩
      rcases maiden with _ | m
      · simp [set_append_len, mother_names]
      · simp [set_append_len, mother_names]

/-- Full characterization of a successful `create_child` call. -/
theorem create_child_shape (po : PO) (t : GTree) (fid : Nat) (gn : String) (sn : Option String)
    (sx : String) (pid : Nat) (t1 : GTree)
    (h : create_child po t fid gn sn sx = .ok (pid, t1)) :
    ∃ fam lv sn1, t.families[fid]? = some fam ∧
      child_level_surname t fam sn = .ok (lv, sn1) ∧
      pid = t.people.length ∧
      t1 = { t with
        people := t.people ++ [{ level := lv, ind := "", names := [⟨"birth", gn, sn1, "", "", ""⟩],
                                 sex := sx, families := [fid], events := [], sources := [],
                                 notes := [], objects := [], change_date := some po.final_date }],
        families := t.families.set fid { fam with children := fam.children ++ [pid] } } := by
  unfold create_child at h
  rcases hf : t.families[fid]? with _ | fam
  · simp only [hf] at h
    exact Except.noConfusion h
  · simp only [hf] at h
    rcases hls : child_level_surname t fam sn with e | lv1
    · simp only [hls] at h
      exact Except.noConfusion h
    · obtain ⟨lv, sn1⟩ := lv1
      simp only [hls] at h
      injection h with h1
      rw [Prod.mk.injEq] at h1
      obtain ⟨h2, h3⟩ := h1
      subst h3
      subst h2
      refine ⟨fam, lv, sn1, rfl, hls, rfl, ?_⟩
      simp [set_append_len]

/-- Back-linking one person does not alter the family list. -/
theorem family_backlink_families (fid : Nat) (t : GTree) (pid : Nat) (t1 : GTree)
    (h : family_backlink fid t pid = .ok t1) : t1.families = t.families := by
  unfold family_backlink at h
  rcases hp : t.people[pid]? with _ | p
  · simp only [hp] at h
    exact Except.noConfusion h
  · simp only [hp] at h
    injection h with h1
    rw [← h1]

/-- Optionally back-linking a person does not alter the family list. -/
theorem family_backlink_opt_families (fid : Nat) (t : GTree) (o : Option Nat) (t1 : GTree)
    (h : family_backlink_opt fid t o = .ok t1) : t1.families = t.families := by
  rcases o with _ | pid
  · injection h with h1; rw [← h1]
  · exact family_backlink_families fid t pid t1 h

/-- Back-linking the children does not alter the family list. -/
theorem family_backlink_children_families (fid : Nat) :
    ∀ (ch : List Nat) (t t1 : GTree),
      family_backlink_children fid t ch = .ok t1 → t1.families = t.families := by
  intro ch
  induction ch with
  | nil => intro t t1 h; injection h with h1; rw [← h1]
  | cons c rest ih =>
    intro t t1 h
    unfold family_backlink_children at h
    rcases hb : family_backlink fid t c with e | t2
    · simp only [hb] at h
      exact Except.noConfusion h
    · simp only [hb] at h
      rw [ih t2 t1 h, family_backlink_families fid t c t2 hb]

/-- The family record created by a successful `create_family` call: appended at
index `len(families)`, with the drawn legal status, the given members, and an
unstamped (`None`) change date. -/
theorem create_family_families_shape (po : PO) (t : GTree) (fa mo : Option Nat)
    (ch : List Nat) (r : RS) (fid1 : Nat) (t1 : GTree) (r1 : RS)
    (h : create_family po t fa mo ch r = .ok (fid1, t1, r1)) :
    fid1 = t.families.length ∧ ∃ legal,
      t1.families = t.families ++
        [{ ind := "", legal := legal, dat := none, father := fa, mother := mo,
           children := ch, change_date := none }] := by
  unfold create_family at h
  rcases hd : cdf_random_value relation_type_cdf r with e | lr
  · simp only [hd] at h
    exact Except.noConfusion h
  · obtain ⟨legal, r2⟩ := lr
    simp only [hd] at h
    rcases hb1 : family_backlink_opt t.families.length
        ({ t with families := t.families ++ [⟨"", legal, none, fa, mo, ch, none⟩] }) fa
      with e | t2
    · simp only [hb1] at h
      exact Except.noConfusion h
    · simp only [hb1] at h
      rcases hb2 : family_backlink_opt t.families.length t2 mo with e | t3
      · simp only [hb2] at h
        exact Except.noConfusion h
      · simp only [hb2] at h
        rcases hb3 : family_backlink_children t.families.length t3 ch with e | t4
        · simp only [hb3] at h
          exact Except.noConfusion h
        · simp only [hb3] at h
          injection h with h1
          rw [Prod.mk.injEq] at h1
          obtain ⟨h2, h3⟩ := h1
          rw [Prod.mk.injEq] at h3
          obtain ⟨h4, h5⟩ := h3
          refine ⟨h2.symm, legal, ?_⟩
          rw [← h4]
          rw [family_backlink_children_families _ _ _ _ hb3,
            family_backlink_opt_families _ _ _ _ hb2,
            family_backlink_opt_families _ _ _ _ hb1]

/-- C8 counterexample: `create_family` succeeds on an empty tree but leaves the
new family's `change_date` unset (`None`), contradicting the claim that every
family is stamped at creation. -/
theorem C8_counterexample :
    ((create_family samplePO emptyTree none none [] zeroStream).toOption.map
      (fun res => res.2.1.families.map GFamily.change_date)) = some [none] := by
  with_unfolding_all decide

/-- C8 (amended): every person created by `create_father`, `create_mother` or
`create_child` has its `change_date` stamped (to `po.final_date`) when the
creating call returns, but a family created by `create_family` keeps
`change_date = None` (the function never stamps it). -/
theorem C8_change_date_stamps :
    (∀ po t fid gn sn sx pid t1, create_father po t fid gn sn sx = .ok (pid, t1) →
      (t1.people[pid]?).map GPerson.change_date = some (some po.final_date)) ∧
    (∀ po t fid gn msn maiden sx pid t1, create_mother po t fid gn msn maiden sx = .ok (pid, t1) →
      (t1.people[pid]?).map GPerson.change_date = some (some po.final_date)) ∧
    (∀ po t fid gn sn sx pid t1, create_child po t fid gn sn sx = .ok (pid, t1) →
      (t1.people[pid]?).map GPerson.change_date = some (some po.final_date)) ∧
    (∀ po t fa mo ch r fid1 t1 r1, create_family po t fa mo ch r = .ok (fid1, t1, r1) →
      (t1.families[fid1]?).map GFamily.change_date = some none) := by
  refine ⟨?_, ?_, ?_, ?_⟩
  · intro po t fid gn sn sx pid t1 h
    obtain ⟨fam, lv, sn1, hf, hls, hpid, ht⟩ := create_father_shape po t fid gn sn sx pid t1 h
    subst ht; subst hpid
    simp [List.getElem?_concat_length]
  · intro po t fid gn msn maiden sx pid t1 h
    obtain ⟨fam, lv, sn1, hf, hls, hpid, ht⟩ := create_mother_shape po t fid gn msn maiden sx pid t1 h
    subst ht; subst hpid
    simp [List.getElem?_concat_length]
  · intro po t fid gn sn sx pid t1 h
    obtain ⟨fam, lv, sn1, hf, hls, hpid, ht⟩ := create_child_shape po t fid gn sn sx pid t1 h
    subst ht; subst hpid
    simp [List.getElem?_concat_length]
  · intro po t fa mo ch r fid1 t1 r1 h
    obtain ⟨hfid, legal, ht⟩ := create_family_families_shape po t fa mo ch r fid1 t1 r1 h
    rw [ht, hfid]
    simp [List.getElem?_concat_length]

/-- C8 witness: creating a father for a concrete one-family tree yields a
person stamped with the final date. -/
theorem C8_change_date_witness :
    ((create_father samplePO oneFamilyTree 0 "Adam" none "M").toOption.map
      (fun res => (res.2.people[res.1]?).map GPerson.change_date)) =
      some (some (some samplePO.final_date)) := by
  have hok : (create_father samplePO oneFamilyTree 0 "Adam" none "M").isOk = true := by
    with_unfolding_all decide
  rcases hcf : create_father samplePO oneFamilyTree 0 "Adam" none "M" with e | res
  · rw [hcf] at hok; exact absurd hok (by simp [Except.isOk, Except.toBool])
  · have := C8_change_date_stamps.1 samplePO oneFamilyTree 0 "Adam" none "M" res.1 res.2
      (by rw [hcf])
    simp [Except.toOption, this]

/-! ## Identifier assignment (C9) -/

/-- The digit character of a value below 10 decodes back to that value. -/
theorem digitVal_digitChar (m : Nat) (h : m < 10) : digitVal (Nat.digitChar m) = m := by
  interval_cases m <;> decide

/-- The digit character of a value below 10 is a decimal digit. -/
theorem digitChar_isDigit (m : Nat) (h : m < 10) : (Nat.digitChar m).isDigit = true := by
  interval_cases m <;> decide

/-- The digit accumulator of `Nat.toDigitsCore` prepends to its tail argument. -/
theorem toDigitsCore_append (b : Nat) :
    ∀ (fuel n : Nat) (ds : List Char),
      Nat.toDigitsCore b fuel n ds = Nat.toDigitsCore b fuel n [] ++ ds := by
  intro fuel
  induction fuel with
  | zero => intro n ds; simp [Nat.toDigitsCore]
  | succ f ih =>
    intro n ds
    unfold Nat.toDigitsCore
    by_cases h : n / b = 0
    · simp [h]
    · simp only [h, if_false]
      rw [ih (n / b) (Nat.digitChar (n % b) :: ds), ih (n / b) [Nat.digitChar (n % b)]]
      simp

/-- Folding the decimal digits of `n` (produced with sufficient fuel) onto an
accumulator recovers `n`. -/
theorem foldl_toDigitsCore :
    ∀ (fuel n : Nat), n < fuel → ∀ (a : Nat),
      (Nat.toDigitsCore 10 fuel n []).foldl (fun a c => 10 * a + digitVal c) a =
        a * 10 ^ (Nat.toDigitsCore 10 fuel n []).length + n := by
  intro fuel
  induction fuel with
  | zero => intro n h; exact absurd h (Nat.not_lt_zero n)
  | succ f ih =>
    intro n hn a
    unfold Nat.toDigitsCore
    by_cases h : n / 10 = 0
    · have hlt : n < 10 := (Nat.div_eq_zero_iff (by norm_num)).mp h
      simp [h, Nat.mod_eq_of_lt hlt]
      rw [digitVal_digitChar n hlt]
      ring
    · have hpos : 0 < n := by
        rcases Nat.eq_zero_or_pos n with h0 | h0
        · subst h0; simp at h
        · exact h0
      have hdivlt : n / 10 < f := by
        have h1 : n / 10 < n := Nat.div_lt_self hpos (by norm_num)
        omega
      simp only [h, if_false]
      rw [toDigitsCore_append 10 f (n / 10) [Nat.digitChar (n % 10)]]
      rw [List.foldl_append, List.length_append]
      rw [ih (n / 10) hdivlt a]
      simp [digitVal_digitChar (n % 10) (Nat.mod_lt _ (by norm_num))]
      rw [pow_succ]
      have hmod := Nat.div_add_mod n 10
      ring_nf
      omega

/-- The decimal digit string of `n` decodes back to `n`. -/
theorem decValue_toDigits (n : Nat) : decValue (Nat.toDigits 10 n) = n := by
  unfold decValue Nat.toDigits
  rw [foldl_toDigitsCore (n + 1) n (Nat.lt_succ_self n) 0]
  simp

/-- The character data of `Nat.repr` is the decimal digit list. -/
theorem repr_data (n : Nat) : (Nat.repr n).data = Nat.toDigits 10 n := rfl

/-- Leading zero padding does not change the decoded decimal value. -/
theorem decValue_replicate_zero (k : Nat) (l : List Char) :
    decValue (List.replicate k '0' ++ l) = decValue l := by
  unfold decValue
  rw [List.foldl_append]
  have h0 : ∀ (j : Nat), (List.replicate j '0').foldl (fun a c => 10 * a + digitVal c) 0 = 0 := by
    intro j
    induction j with
    | zero => rfl
    | succ j ihj => simpa [List.replicate_succ, digitVal] using ihj
  rw [h0]

/-- Python's zero-padded format decodes back to the formatted number. -/
theorem decValue_format_pad0 (w n : Nat) : decValue (format_pad0 w n).data = n := by
  unfold format_pad0
  by_cases h : (Nat.repr n).length < w
  · simp only [h, if_true]
    rw [String.data_append]
    have hmk : (String.mk (List.replicate (w - (Nat.repr n).length) '0')).data =
        List.replicate (w - (Nat.repr n).length) '0' := rfl
    rw [hmk, repr_data, decValue_replicate_zero, decValue_toDigits]
  · simp only [h, if_false]
    rw [repr_data, decValue_toDigits]

/-- Python's zero-padded format is injective at any fixed width. -/
theorem format_pad0_inj (w m n : Nat) (h : format_pad0 w m = format_pad0 w n) : m = n := by
  have hm := decValue_format_pad0 w m
  rw [h] at hm
  rw [decValue_format_pad0 w n] at hm
  exact hm.symm

/-- All characters produced by `Nat.toDigitsCore` in base 10 are decimal digits. -/
theorem toDigitsCore_all_digits :
    ∀ (fuel n : Nat) (ds : List Char), (∀ c ∈ ds, c.isDigit = true) →
      ∀ c ∈ Nat.toDigitsCore 10 fuel n ds, c.isDigit = true := by
  intro fuel
  induction fuel with
  | zero => intro n ds hds; simpa [Nat.toDigitsCore] using hds
  | succ f ih =>
    intro n ds hds c hc
    unfold Nat.toDigitsCore at hc
    by_cases h : n / 10 = 0
    · simp only [h, if_true] at hc
      rcases List.mem_cons.mp hc with h1 | h1
      · subst h1; exact digitChar_isDigit _ (Nat.mod_lt _ (by norm_num))
      · exact hds c h1
    · simp only [h, if_false] at hc
      refine ih (n / 10) (Nat.digitChar (n % 10) :: ds) ?_ c hc
      intro c1 hc1
      rcases List.mem_cons.mp hc1 with h1 | h1
      · subst h1; exact digitChar_isDigit _ (Nat.mod_lt _ (by norm_num))
      · exact hds c1 h1

/-- All characters of the zero-padded decimal format are decimal digits. -/
theorem format_pad0_all_digits (w n : Nat) :
    ∀ c ∈ (format_pad0 w n).data, c.isDigit = true := by
  unfold format_pad0
  have hdig : ∀ c ∈ (Nat.repr n).data, c.isDigit = true := by
    rw [repr_data]
    exact toDigitsCore_all_digits (n + 1) n [] (by intro c hc; simp at hc)
  by_cases h : (Nat.repr n).length < w
  · simp only [h, if_true]
    intro c hc
    rw [String.data_append] at hc
    rcases List.mem_append.mp hc with h1 | h1
    · have := List.eq_of_mem_replicate h1
      subst this; decide
    · exact hdig c h1
  · simp only [h, if_false]
    exact hdig

/-- The zero-padded format has exactly width `w` when the bare representation
fits in `w` characters. -/
theorem format_pad0_length (w n : Nat) (h : (Nat.repr n).length ≤ w) :
    (format_pad0 w n).length = w := by
  unfold format_pad0
  by_cases hlt : (Nat.repr n).length < w
  · simp only [hlt, if_true]
    rw [String.length_append]
    have hmk : (String.mk (List.replicate (w - (Nat.repr n).length) '0')).length =
        w - (Nat.repr n).length := by
      show (List.replicate (w - (Nat.repr n).length) '0').length = _
      rw [List.length_replicate]
    rw [hmk]
    omega
  · have heq : (Nat.repr n).length = w := le_antisymm h (not_lt.mp hlt)
    simp only [hlt, if_false]
    exact heq

/-- A prefixed 5-digit identifier below 100000 satisfies the shape check. -/
theorem idFormatOk_prefix_format (pre : String) (c : Char) (hc : pre.data = [c])
    (i : Nat) (hi : i < 100000) : idFormatOk c (pre ++ format_pad0 5 i) = true := by
  have hlen5 : (format_pad0 5 i).length = 5 :=
    format_pad0_length 5 i (Nat.repr_length i 5 (by norm_num) (by omega))
  have hlenp : pre.length = 1 := by
    show pre.data.length = 1
    rw [hc]
    rfl
  unfold idFormatOk
  refine (Bool.and_eq_true _ _).mpr ⟨(Bool.and_eq_true _ _).mpr ⟨?_, ?_⟩, ?_⟩
  · rw [decide_eq_true_eq, String.length_append, hlenp, hlen5]
  · rw [decide_eq_true_eq, String.data_append, hc]
    rfl
  · rw [String.data_append, hc]
    rw [List.all_eq_true]
    intro x hx
    simp only [List.cons_append, List.nil_append, List.drop_succ_cons, List.drop_zero] at hx
    exact format_pad0_all_digits 5 i x hx

/-- Mapping a function of the index over an enumerated list is mapping it over
the index range. -/
theorem enum_map_fst_eq_range_map {α β : Type} (l : List α) (g : Nat → β) :
    l.enum.map (fun ip => g ip.1) = (List.range l.length).map g := by
  apply List.ext_getElem?
  intro i
  rw [List.getElem?_map, List.getElem?_enum, List.getElem?_map]
  by_cases h : i < l.length
  · rw [List.getElem?_range h, List.getElem?_eq_getElem h]
    rfl
  · rw [List.getElem?_eq_none (le_of_not_lt h),
      List.getElem?_eq_none (by simpa using not_lt.mp h)]
    rfl

/-- Prefixing with a fixed string preserves injectivity of identifier bodies. -/
theorem string_append_format_inj (pre : String) (m n : Nat)
    (h : pre ++ format_pad0 5 m = pre ++ format_pad0 5 n) : m = n := by
  have hd : (pre ++ format_pad0 5 m).data = (pre ++ format_pad0 5 n).data := by rw [h]
  rw [String.data_append, String.data_append] at hd
  have := List.append_cancel_left hd
  have hs : format_pad0 5 m = format_pad0 5 n := by
    cases hm : format_pad0 5 m
    cases hn : format_pad0 5 n
    rw [hm, hn] at this
    exact congrArg String.mk (by simpa using this)
  exact format_pad0_inj 5 m n hs

/-- The people component of the identifier assigner, as a map over the
enumerated list. -/
theorem gedcom_reset_people (t : GTree) :
    (gedcom_reset_identifiers t).people =
      t.people.enum.map (fun ip => { ip.2 with ind := "I" ++ format_pad0 5 ip.1 }) := rfl

/-- C9 counterexample: on a tree with 100001 people, the person at creation
index 100000 receives the id `"I100000"` — seven characters, so not of the
claimed shape `I` followed by exactly five digits (`I\d{5}`). -/
theorem C9_counterexample :
    ((gedcom_reset_identifiers bigTree100001).people[100000]?).map GPerson.ind =
      some "I100000" ∧
    idFormatOk 'I' "I100000" = false := by
  constructor
  · rw [gedcom_reset_people, List.getElem?_map, List.getElem?_enum]
    have hget : bigTree100001.people[100000]? = some blankPerson := by
      rw [show bigTree100001.people = List.replicate 100001 blankPerson from rfl,
        List.getElem?_replicate]
      simp
    rw [hget]
    show some ("I" ++ format_pad0 5 100000) = some "I100000"
    decide
  · decide

/-- C9 (amended): `gedcom_reset_identifiers` assigns, in creation-index order,
the id `prefix ++ zero-pad-to-at-least-5-digits(idx)` with prefixes
`I`/`F`/`S`/`N`/`O` for people/families/sources/notes/objects; within each
sequence the ids are distinct and contiguous in creation order, and for every
index below 100000 the person and family ids match `I\d{5}` and `F\d{5}`
exactly (for larger indices the number keeps all its digits, exceeding five). -/
theorem C9_identifier_assignment (t : GTree) :
    ((gedcom_reset_identifiers t).people.map GPerson.ind =
      (List.range t.people.length).map (fun i => "I" ++ format_pad0 5 i)) ∧
    ((gedcom_reset_identifiers t).families.map GFamily.ind =
      (List.range t.families.length).map (fun i => "F" ++ format_pad0 5 i)) ∧
    ((gedcom_reset_identifiers t).sources.map GMisc.ind =
      (List.range t.sources.length).map (fun i => "S" ++ format_pad0 5 i)) ∧
    ((gedcom_reset_identifiers t).notes.map GMisc.ind =
      (List.range t.notes.length).map (fun i => "N" ++ format_pad0 5 i)) ∧
    ((gedcom_reset_identifiers t).objects.map GMisc.ind =
      (List.range t.objects.length).map (fun i => "O" ++ format_pad0 5 i)) ∧
    ((gedcom_reset_identifiers t).people.map GPerson.ind).Nodup ∧
    ((gedcom_reset_identifiers t).families.map GFamily.ind).Nodup ∧
    (∀ i, i < 100000 → idFormatOk 'I' ("I" ++ format_pad0 5 i) = true) ∧
    (∀ i, i < 100000 → idFormatOk 'F' ("F" ++ format_pad0 5 i) = true) := by
  have hpeople : (gedcom_reset_identifiers t).people.map GPerson.ind =
      (List.range t.people.length).map (fun i => "I" ++ format_pad0 5 i) := by
    show (t.people.enum.map (fun ip => { ip.2 with ind := "I" ++ format_pad0 5 ip.1 })).map
        GPerson.ind = _
    rw [List.map_map]
    exact enum_map_fst_eq_range_map t.people (fun i => "I" ++ format_pad0 5 i)
  have hfam : (gedcom_reset_identifiers t).families.map GFamily.ind =
      (List.range t.families.length).map (fun i => "F" ++ format_pad0 5 i) := by
    show (t.families.enum.map (fun ip => { ip.2 with ind := "F" ++ format_pad0 5 ip.1 })).map
        GFamily.ind = _
    rw [List.map_map]
    exact enum_map_fst_eq_range_map t.families (fun i => "F" ++ format_pad0 5 i)
  refine ⟨hpeople, hfam, ?_, ?_, ?_, ?_, ?_, ?_, ?_⟩
  · show (t.sources.enum.map (fun ip => { ip.2 with ind := "S" ++ format_pad0 5 ip.1 })).map
        GMisc.ind = _
    rw [List.map_map]
    exact enum_map_fst_eq_range_map t.sources (fun i => "S" ++ format_pad0 5 i)
  · show (t.notes.enum.map (fun ip => { ip.2 with ind := "N" ++ format_pad0 5 ip.1 })).map
        GMisc.ind = _
    rw [List.map_map]
    exact enum_map_fst_eq_range_map t.notes (fun i => "N" ++ format_pad0 5 i)
  · show (t.objects.enum.map (fun ip => { ip.2 with ind := "O" ++ format_pad0 5 ip.1 })).map
        GMisc.ind = _
    rw [List.map_map]
    exact enum_map_fst_eq_range_map t.objects (fun i => "O" ++ format_pad0 5 i)
  · rw [hpeople]
    exact (List.nodup_range _).map (fun m n h => string_append_format_inj "I" m n h)
  · rw [hfam]
    exact (List.nodup_range _).map (fun m n h => string_append_format_inj "F" m n h)
  · intro i hi
    exact idFormatOk_prefix_format "I" 'I' rfl i hi
  · intro i hi
    exact idFormatOk_prefix_format "F" 'F' rfl i hi

/-- C9 witness: on a concrete one-family tree the assigner produces exactly
`["F00000"]`, which matches `F\d{5}`. -/
theorem C9_identifier_witness :
    (gedcom_reset_identifiers oneFamilyTree).families.map GFamily.ind = ["F00000"] ∧
    idFormatOk 'F' "F00000" = true := by
  constructor
  · rw [(C9_identifier_assignment oneFamilyTree).2.1]
    decide
  · exact (C9_identifier_assignment oneFamilyTree).2.2.2.2.2.2.2.2 0 (by decide)

/-! ## Children-count distribution shape (C4) -/

/-- Values of the accumulating CDF builder are its index list. -/
theorem cdf_accum_t_values {α : Type} (f : α → ℚ) :
    ∀ (ns : List α) (s : ℚ), ((cdf_accum_t f s ns).1).map Prod.snd = ns := by
  intro ns
  induction ns with
  | nil => intro s; rfl
  | cons n rest ih => intro s; simp [cdf_accum_t, ih]

/-- Widths of the accumulating CDF builder, followed by a tail: each index
contributes exactly its increment `f n`, and the tail continues from the
builder's final cumulative value. -/
theorem cdf_accum_t_widths_append {α : Type} (f : α → ℚ) :
    ∀ (ns : List α) (s : ℚ) (l2 : List (ℚ × α)),
      cdf_widths s ((cdf_accum_t f s ns).1 ++ l2) =
        ns.map f ++ cdf_widths (cdf_accum_t f s ns).2 l2 := by
  intro ns
  induction ns with
  | nil => intro s l2; rfl
  | cons n rest ih =>
    intro s l2
    simp only [cdf_accum_t, List.cons_append, cdf_widths, List.map_cons]
    rw [show s + f n - s = f n by ring]
    simpa using ih (s + f n) l2

/-- Widths of the accumulating CDF builder alone. -/
theorem cdf_accum_t_widths {α : Type} (f : α → ℚ) (ns : List α) (s : ℚ) :
    cdf_widths s (cdf_accum_t f s ns).1 = ns.map f := by
  have h := cdf_accum_t_widths_append f ns s []
  simpa [cdf_widths] using h

/-- Gauss sum for `range' 1 n`, in doubled form to avoid division. -/
theorem two_mul_sum_range' (n : Nat) : 2 * (List.range' 1 n).sum = n * (n + 1) := by
  induction n with
  | zero => rfl
  | succ n ih =>
    rw [List.range'_1_concat, List.sum_append]
    simp only [List.sum_cons, List.sum_nil]
    rw [Nat.mul_add, ih]
    ring

/-- Concatenating `0`, `1..E` and `E+1..m` gives `0..m`. -/
theorem zero_cons_ranges (E m : Nat) (h : E ≤ m) :
    (0 :: (List.range' 1 E ++ List.range' (E + 1) (m - E))) = List.range (m + 1) := by
  have h1 : (0 :: (List.range' 1 E ++ List.range' (E + 1) (m - E))) =
      List.range' 0 1 ++ (List.range' 1 E ++ List.range' (E + 1) (m - E)) := rfl
  rw [h1, ← List.append_assoc]
  rw [show List.range' 0 1 ++ List.range' 1 E = List.range' 0 1 ++ List.range' (0 + 1) E by rfl]
  rw [List.range'_append_1]
  rw [show List.range' (E + 1) (m - E) = List.range' (0 + (E + 1)) (m - E) by rw [Nat.zero_add]]
  rw [List.range'_append_1]
  rw [List.range_eq_range']
  congr 1
  omega

/-- The outcome values of `num_of_children_cdf` are exactly `0 .. max_num`. -/
theorem noc_values (E : Nat) (hE : 1 ≤ E) :
    (num_of_children_cdf E).map Prod.snd = List.range (nocM E + 1) := by
  have hE0 : ¬ (E = 0) := by omega
  have hME : E ≤ nocM E := by unfold nocM; omega
  show (num_of_children_cdf E).map Prod.snd = _
  simp only [num_of_children_cdf]
  rw [if_neg hE0]
  by_cases h1 : E > 1
  · rw [if_pos h1]
    by_cases h2 : E * 3 / 2 + 1 - E > 1
    · rw [if_pos h2]
      rw [List.map_append, List.map_append, cdf_accum_t_values, cdf_accum_t_values,
        cdf_accum_t_values]
      exact zero_cons_ranges E (nocM E) hME
    · rw [if_neg h2]
      rw [List.map_append, List.map_append, cdf_accum_t_values, cdf_accum_t_values,
        cdf_accum_t_values]
      exact zero_cons_ranges E (nocM E) hME
  · rw [if_neg h1]
    have hE1 : E = 1 := by omega
    subst hE1
    by_cases h2 : 1 * 3 / 2 + 1 - 1 > 1
    · rw [if_pos h2]
      rw [List.map_append, cdf_accum_t_values, cdf_accum_t_values]
      exact zero_cons_ranges 1 (nocM 1) hME
    · rw [if_neg h2]
      rw [List.map_append, cdf_accum_t_values, cdf_accum_t_values]
      exact zero_cons_ranges 1 (nocM 1) hME

/-- Widths of `num_of_children_cdf` for `expected_num ≥ 2`: the special
zero-children entry, the rising first half, and the falling second half. -/
theorem noc_widths (E : Nat) (hE : 2 ≤ E) :
    cdf_widths 0 (num_of_children_cdf E) =
      (nocA1 E * ((E : ℚ) - 1) + nocB1 E) ::
        ((List.range' 1 E).map (fun (n : Nat) => nocA1 E * (n : ℚ) + nocB1 E) ++
         (List.range' (E + 1) (nocM E - E)).map
           (fun (n : Nat) => nocA2 E * ((nocM E : ℚ) - (n : ℚ)) + nocB2 E)) := by
  have hE0 : ¬ (E = 0) := by omega
  have h1 : E > 1 := by omega
  have h2 : E * 3 / 2 + 1 - E > 1 := by omega
  simp only [num_of_children_cdf]
  rw [if_neg hE0, if_pos h1, if_pos h2]
  rw [List.append_assoc]
  rw [cdf_accum_t_widths_append, cdf_accum_t_widths_append, cdf_accum_t_widths]
  simp only [List.map_cons, List.map_nil, List.cons_append, List.nil_append]
  rfl

/-- The sum of `range' 1 n` is at least 1 once `n ≥ 1`. -/
theorem sum_range'_pos (n : Nat) (h : 1 ≤ n) : 1 ≤ (List.range' 1 n).sum := by
  have := two_mul_sum_range' n
  nlinarith

/-- Bounds tying `max_num` to `expected_num`. -/
theorem nocM_facts (E : Nat) (hE : 2 ≤ E) :
    E + 2 ≤ nocM E ∧ 2 * nocM E ≤ 3 * E + 2 ∧ 6 * E < 5 * nocM E := by
  unfold nocM
  omega

/-- The first-half total is strictly between 0 and 1. -/
theorem nocT_bounds (E : Nat) (hE : 1 ≤ E) : 0 < nocT E ∧ nocT E < 1 := by
  have hm : 6 * E < 5 * nocM E ∧ 0 < nocM E := by unfold nocM; omega
  have hm1 : (0 : ℚ) < (nocM E : ℚ) + 1 := by positivity
  have hT : nocT E = (6/5 * (E : ℚ) + 1) / ((nocM E : ℚ) + 1) := by
    unfold nocT
    ring
  constructor
  · rw [hT]
    have hE1 : (1 : ℚ) ≤ (E : ℚ) := by exact_mod_cast hE
    positivity
  · rw [hT, div_lt_one hm1]
    have h6 : (6 * E : ℚ) < 5 * (nocM E : ℚ) := by exact_mod_cast hm.1
    push_cast
    nlinarith

/-- Sign facts for the four width coefficients (for `expected_num ≥ 2`). -/
theorem noc_coeff_bounds (E : Nat) (hE : 2 ≤ E) :
    0 ≤ nocA1 E ∧ 0 < nocB1 E ∧ 0 ≤ nocA2 E ∧ 0 < nocB2 E := by
  obtain ⟨hT0, hT1⟩ := nocT_bounds E (by omega)
  obtain ⟨hm1, hm2, hm3⟩ := nocM_facts E hE
  have hx2 : (2 : ℚ) ≤ (E : ℚ) := by exact_mod_cast hE
  have hs1 : (0 : ℚ) ≤ (((List.range' 1 E).sum : Nat) : ℚ) := by positivity
  have hd1 : (0 : ℚ) < (E : ℚ) - 1 + (((List.range' 1 E).sum : Nat) : ℚ) := by linarith
  have hs2 : (1 : ℚ) ≤ (((List.range' 1 (nocM E - E - 1)).sum : Nat) : ℚ) := by
    exact_mod_cast sum_range'_pos (nocM E - E - 1) (by omega)
  have hmx : (E : ℚ) + 2 ≤ (nocM E : ℚ) := by exact_mod_cast hm1
  refine ⟨?_, ?_, ?_, ?_⟩
  · unfold nocA1
    apply div_nonneg (by linarith) (le_of_lt hd1)
  · unfold nocB1
    apply div_pos (by linarith) (by linarith)
  · unfold nocA2
    apply div_nonneg (by linarith) (by linarith)
  · unfold nocB2
    apply div_pos (by linarith) (by linarith)

/-- Key pure inequality behind the rising-to-falling transition at the
expectation: the first falling width never exceeds the last rising width. -/
theorem noc_key_ineq (x : ℚ) (hx : 2 ≤ x) :
    1.8 * ((3/10) * x + 1) / ((1/2) * x + 1) ≤
      (6/5 * x + 1) * (0.8 * x / (x - 1 + x * (x + 1) / 2) + 0.2 / (x + 1)) := by
  have hd1 : 0 < x - 1 + x * (x + 1) / 2 := by nlinarith
  have hd2 : (0 : ℚ) < x + 1 := by linarith
  have hd3 : (0 : ℚ) < (1/2) * x + 1 := by linarith
  rw [div_le_iff hd3, div_add_div _ _ (ne_of_gt hd1) (ne_of_gt hd2), ← mul_div_assoc,
    div_mul_eq_mul_div, div_mul_eq_mul_div, le_div_iff (by positivity)]
  have e1 : (0 : ℚ) ≤ x - 2 := by linarith
  have e2 : (0 : ℚ) ≤ x := by linarith
  have q1 : 0 ≤ x^2 * (x - 2) * (x + 2) := by
    apply mul_nonneg (mul_nonneg (sq_nonneg x) e1) (by linarith)
  have q2 : 0 ≤ x^2 * (x - 2) := mul_nonneg (sq_nonneg x) e1
  nlinarith [q1, q2, sq_nonneg x, e2]

/-- The transition at the expectation: the width of outcome `E+1` (first of
the falling half) does not exceed the width of outcome `E` (last of the
rising half). -/
theorem noc_transition (E : Nat) (hE : 2 ≤ E) :
    nocA2 E * ((nocM E : ℚ) - ((E : ℚ) + 1)) + nocB2 E ≤ nocA1 E * (E : ℚ) + nocB1 E := by
  obtain ⟨hm1, hm2, hm3⟩ := nocM_facts E hE
  have hx2 : (2 : ℚ) ≤ (E : ℚ) := by exact_mod_cast hE
  have hmx : (E : ℚ) + 2 ≤ (nocM E : ℚ) := by exact_mod_cast hm1
  have hmx2 : 2 * (nocM E : ℚ) ≤ 3 * (E : ℚ) + 2 := by exact_mod_cast hm2
  have hS1 : (((List.range' 1 E).sum : Nat) : ℚ) = (E : ℚ) * ((E : ℚ) + 1) / 2 := by
    have h := two_mul_sum_range' E
    have h2 : (2 : ℚ) * (((List.range' 1 E).sum : Nat) : ℚ) = (E : ℚ) * ((E : ℚ) + 1) := by
      exact_mod_cast h
    linarith
  have hS2 : (((List.range' 1 (nocM E - E - 1)).sum : Nat) : ℚ) =
      ((nocM E : ℚ) - (E : ℚ) - 1) * ((nocM E : ℚ) - (E : ℚ)) / 2 := by
    have h := two_mul_sum_range' (nocM E - E - 1)
    have hc1 : ((nocM E - E - 1 : Nat) : ℚ) = (nocM E : ℚ) - (E : ℚ) - 1 := by
      rw [Nat.cast_sub (by omega), Nat.cast_sub (by omega)]
      push_cast
      ring
    have h2 : (2 : ℚ) * (((List.range' 1 (nocM E - E - 1)).sum : Nat) : ℚ) =
        ((nocM E - E - 1 : Nat) : ℚ) * (((nocM E - E - 1 : Nat) : ℚ) + 1) := by
      exact_mod_cast h
    rw [hc1] at h2
    nlinarith [h2]
  have hT : nocT E = (6/5 * (E : ℚ) + 1) / ((nocM E : ℚ) + 1) := by
    unfold nocT
    ring
  unfold nocA1 nocB1 nocA2 nocB2
  rw [hS1, hS2, hT]
  set x := (E : ℚ) with hxdef
  set m := (nocM E : ℚ) with hmdef
  have hd1 : (0 : ℚ) < x - 1 + x * (x + 1) / 2 := by nlinarith
  have hd2 : (0 : ℚ) < x + 1 := by linarith
  have hd4 : (0 : ℚ) < m - x := by linarith
  have hd41 : (0 : ℚ) < m - x - 1 := by linarith
  have hd5 : (0 : ℚ) < m + 1 := by linarith
  have hd3 : (0 : ℚ) < (m - x - 1) * (m - x) / 2 := by positivity
  have hA : 0.8 * (1.0 - (6/5 * x + 1) / (m + 1)) / ((m - x - 1) * (m - x) / 2) * (m - (x + 1)) +
      0.2 * (1.0 - (6/5 * x + 1) / (m + 1)) / (m - x) =
      1.8 * (m - 6/5 * x) / ((m - x) * (m + 1)) := by
    have hne2 : m - x ≠ 0 := ne_of_gt hd4
    have hne4 : m - x - 1 ≠ 0 := ne_of_gt hd41
    have hne3 : m + 1 ≠ 0 := ne_of_gt hd5
    field_simp
    ring
  have hB : 1.8 * (m - 6/5 * x) / ((m - x) * (m + 1)) ≤
      1.8 * ((3/10) * x + 1) / (((1/2) * x + 1) * (m + 1)) := by
    rw [div_le_div_iff (by positivity) (by positivity)]
    have hkey : 0 ≤ (m + 1) * (x * (3 * x + 2 - 2 * m)) := by
      apply mul_nonneg (le_of_lt hd5)
      apply mul_nonneg (by linarith)
      linarith
    nlinarith [hkey]
  have hCeq1 : 1.8 * ((3/10) * x + 1) / (((1/2) * x + 1) * (m + 1)) =
      (1.8 * ((3/10) * x + 1) / ((1/2) * x + 1)) / (m + 1) := by
    rw [div_div]
  have hCeq2 : 0.8 * ((6/5 * x + 1) / (m + 1)) / (x - 1 + x * (x + 1) / 2) * x +
      0.2 * ((6/5 * x + 1) / (m + 1)) / (x + 1) =
      ((6/5 * x + 1) * (0.8 * x / (x - 1 + x * (x + 1) / 2) + 0.2 / (x + 1))) / (m + 1) := by
    ring
  calc 0.8 * (1.0 - (6/5 * x + 1) / (m + 1)) / ((m - x - 1) * (m - x) / 2) * (m - (x + 1)) +
      0.2 * (1.0 - (6/5 * x + 1) / (m + 1)) / (m - x)
      = 1.8 * (m - 6/5 * x) / ((m - x) * (m + 1)) := hA
    _ ≤ 1.8 * ((3/10) * x + 1) / (((1/2) * x + 1) * (m + 1)) := hB
    _ = (1.8 * ((3/10) * x + 1) / ((1/2) * x + 1)) / (m + 1) := hCeq1
    _ ≤ ((6/5 * x + 1) * (0.8 * x / (x - 1 + x * (x + 1) / 2) + 0.2 / (x + 1))) / (m + 1) := by
        rw [div_le_div_iff hd5 hd5]
        have := noc_key_ineq x hx2
        nlinarith [this, hd5]
    _ = 0.8 * ((6/5 * x + 1) / (m + 1)) / (x - 1 + x * (x + 1) / 2) * x +
        0.2 * ((6/5 * x + 1) / (m + 1)) / (x + 1) := hCeq2.symm

/-- Indexed access into the width list of `num_of_children_cdf` (for `E ≥ 2`):
entry 0 is the special zero-children width, entries `1..E` follow the rising
line, entries `E+1..max_num` follow the falling line. -/
theorem noc_getD (E : Nat) (hE : 2 ≤ E) :
    ((cdf_widths 0 (num_of_children_cdf E)).getD 0 0 = nocA1 E * ((E : ℚ) - 1) + nocB1 E) ∧
    (∀ i, 1 ≤ i → i ≤ E →
      (cdf_widths 0 (num_of_children_cdf E)).getD i 0 = nocA1 E * (i : ℚ) + nocB1 E) ∧
    (∀ i, E + 1 ≤ i → i ≤ nocM E →
      (cdf_widths 0 (num_of_children_cdf E)).getD i 0 =
        nocA2 E * ((nocM E : ℚ) - (i : ℚ)) + nocB2 E) := by
  rw [noc_widths E hE]
  refine ⟨rfl, ?_, ?_⟩
  · intro i h1 h2
    obtain ⟨j, rfl⟩ : ∃ j, i = j + 1 := ⟨i - 1, by omega⟩
    rw [List.getD_cons_succ, List.getD_eq_getElem?_getD,
      List.getElem?_append_left (by simpa using (by omega : j < E)),
      List.getElem?_map, List.getElem?_range' 1 1 (by omega)]
    simp only [Option.map_some', Option.getD_some]
    push_cast
    ring
  · intro i h1 h2
    obtain ⟨j, rfl⟩ : ∃ j, i = j + 1 := ⟨i - 1, by omega⟩
    rw [List.getD_cons_succ, List.getD_eq_getElem?_getD,
      List.getElem?_append_right (by simpa using (by omega : E ≤ j)),
      List.getElem?_map]
    have hlen : j - (List.map (fun (n : Nat) => nocA1 E * (n : ℚ) + nocB1 E)
        (List.range' 1 E)).length = j - E := by simp
    rw [hlen, List.getElem?_range' (E + 1) 1 (by omega)]
    simp only [Option.map_some', Option.getD_some]
    have hidx : E + 1 + 1 * (j - E) = j + 1 := by omega
    rw [hidx]

/-- C4 counterexample: for expected_num = 3, the probability share of
outcome 0 is strictly greater than that of outcome 1, so the per-value
shares are NOT non-decreasing in n from 0 up to E as claimed (outcome 0
is a special case weighted like outcome E - 1). -/
theorem C4_counterexample :
    ¬ ((cdf_widths 0 (num_of_children_cdf 3)).getD 0 0 ≤
       (cdf_widths 0 (num_of_children_cdf 3)).getD 1 0) := by
  with_unfolding_all decide

/-- C4 (amended): for every E ≥ 1, num_of_children_cdf E has support exactly
{0 .. E*3/2 + 1} (floor(1.5 E) + 1), every outcome has strictly positive
probability share (so zero probability never occurs), the shares are
non-decreasing in n from 1 up to E and non-increasing from E up to the
maximum, and outcome 0 is a special case carrying the same share as
outcome E - 1 (hence not part of the rising segment). -/
theorem C4_children_distribution_shape (E : Nat) (hE : 1 ≤ E) :
    ((num_of_children_cdf E).map Prod.snd = List.range (E * 3 / 2 + 2)) ∧
    (∀ w ∈ cdf_widths 0 (num_of_children_cdf E), 0 < w) ∧
    (∀ i, i < E → 1 ≤ i →
      (cdf_widths 0 (num_of_children_cdf E)).getD i 0 ≤
        (cdf_widths 0 (num_of_children_cdf E)).getD (i + 1) 0) ∧
    (∀ i, i < E * 3 / 2 + 1 → E ≤ i →
      (cdf_widths 0 (num_of_children_cdf E)).getD (i + 1) 0 ≤
        (cdf_widths 0 (num_of_children_cdf E)).getD i 0) ∧
    ((cdf_widths 0 (num_of_children_cdf E)).getD 0 0 =
      (cdf_widths 0 (num_of_children_cdf E)).getD (E - 1) 0) := by
  by_cases hE2 : 2 ≤ E
  · obtain ⟨hA1, hB1, hA2, hB2⟩ := noc_coeff_bounds E hE2
    obtain ⟨hm1, hm2, hm3⟩ := nocM_facts E hE2
    obtain ⟨hg0, hg1, hg2⟩ := noc_getD E hE2
    have hx2 : (2 : ℚ) ≤ (E : ℚ) := by exact_mod_cast hE2
    have hmE : E * 3 / 2 + 1 = nocM E := by unfold nocM; omega
    refine ⟨?_, ?_, ?_, ?_, ?_⟩
    · rw [show E * 3 / 2 + 2 = nocM E + 1 by unfold nocM; omega]
      exact noc_values E hE
    · intro w hw
      rw [noc_widths E hE2] at hw
      rcases List.mem_cons.mp hw with h | h
      · subst h
        nlinarith
      · rcases List.mem_append.mp h with h | h
        · obtain ⟨n, hn, rfl⟩ := List.mem_map.mp h
          have hn' : 1 ≤ n := (List.mem_range'_1.mp hn).1
          have : (0 : ℚ) ≤ (n : ℚ) := by positivity
          nlinarith
        · obtain ⟨n, hn, rfl⟩ := List.mem_map.mp h
          have hn' : n < E + 1 + (nocM E - E) := (List.mem_range'_1.mp hn).2
          have hnm : n ≤ nocM E := by omega
          have : (n : ℚ) ≤ (nocM E : ℚ) := by exact_mod_cast hnm
          nlinarith
    · intro i hiE hi1
      rw [hg1 i hi1 (by omega), hg1 (i + 1) (by omega) (by omega)]
      push_cast
      nlinarith
    · intro i him hiE
      rw [hmE] at him
      by_cases hcase : i = E
      · rw [hcase]
        rw [hg1 E (by omega) (by omega), hg2 (E + 1) (by omega) (by omega)]
        push_cast
        have := noc_transition E hE2
        linarith
      · have hi1 : E + 1 ≤ i := by omega
        rw [hg2 i (by omega) (by omega), hg2 (i + 1) (by omega) (by omega)]
        push_cast
        nlinarith
    · rw [hg0, hg1 (E - 1) (by omega) (by omega), Nat.cast_sub (by omega), Nat.cast_one]
  · have hE1 : E = 1 := by omega
    subst hE1
    refine ⟨by with_unfolding_all decide, by with_unfolding_all decide,
      ?_, ?_, by with_unfolding_all decide⟩
    · intro i hiE hi1
      omega
    · have : ∀ i, i < 1 * 3 / 2 + 1 → 1 ≤ i →
          (cdf_widths 0 (num_of_children_cdf 1)).getD (i + 1) 0 ≤
            (cdf_widths 0 (num_of_children_cdf 1)).getD i 0 := by
        with_unfolding_all decide
      exact this

/-- C4 witness: the amended shape theorem instantiated at expected_num = 2. -/
theorem C4_shape_witness :
    1 ≤ 2 ∧
    (((num_of_children_cdf 2).map Prod.snd = List.range (2 * 3 / 2 + 2)) ∧
     (∀ w ∈ cdf_widths 0 (num_of_children_cdf 2), 0 < w) ∧
     (∀ i, i < 2 → 1 ≤ i →
       (cdf_widths 0 (num_of_children_cdf 2)).getD i 0 ≤
         (cdf_widths 0 (num_of_children_cdf 2)).getD (i + 1) 0) ∧
     (∀ i, i < 2 * 3 / 2 + 1 → 2 ≤ i →
       (cdf_widths 0 (num_of_children_cdf 2)).getD (i + 1) 0 ≤
         (cdf_widths 0 (num_of_children_cdf 2)).getD i 0) ∧
     ((cdf_widths 0 (num_of_children_cdf 2)).getD 0 0 =
       (cdf_widths 0 (num_of_children_cdf 2)).getD (2 - 1) 0)) :=
  ⟨by decide, C4_children_distribution_shape 2 (by decide)⟩

/-- C2: counterexample run showing the min_male_children guarantee fails.
With role "father" on a one-man tree, num_children = 0 and
min_male_children = 2, drawing 1/2 on every random call (so every organic
sex draw yields "F"), the run succeeds and the created family ends up with
exactly 1 male child — fewer than the required 2.  The code forces "M" only
at the single loop index i = max_children - min_male_children, so only one
short slot can ever be repaired. -/
theorem C2_min_male_children_bug :
    gfipMaleCount samplePO oneManTree 0 "father" 0 2 halfStream = some (some 1) ∧ 1 < 2 := by
  constructor
  · with_unfolding_all decide
  · decide

/-! ## Bidirectional link invariant (C1) -/

/-- A successful indexed lookup implies the index is in range. -/
theorem lookup_lt_length {α : Type} {l : List α} {i : Nat} {a : α}
    (h : l[i]? = some a) : i < l.length := by
  by_contra hlt
  rw [List.getElem?_eq_none (by omega)] at h
  exact Option.noConfusion h

/-- Case analysis for a lookup into a one-element append. -/
theorem getElem?_append_single {α : Type} {l : List α} {a : α} {i : Nat} {p : α}
    (h : (l ++ [a])[i]? = some p) : l[i]? = some p ∨ (i = l.length ∧ p = a) := by
  by_cases hi : i < l.length
  · rw [List.getElem?_append_left hi] at h
    exact Or.inl h
  · have hle : l.length ≤ i := by omega
    rw [List.getElem?_append_right hle] at h
    rcases hd : i - l.length with _ | m
    · rw [hd] at h
      simp only [List.getElem?_cons_zero] at h
      exact Or.inr ⟨by omega, (Option.some_inj.mp h).symm⟩
    · rw [hd] at h
      simp at h

/-- Case analysis for a lookup into a `set`. -/
theorem getElem?_set_cases {α : Type} {l : List α} {i j : Nat} {x : α} {f : α}
    (h : (l.set i x)[j]? = some f) :
    (j = i ∧ f = x ∧ i < l.length) ∨ (j ≠ i ∧ l[j]? = some f) := by
  by_cases hij : j = i
  · subst hij
    have hlt : j < l.length := by
      have := lookup_lt_length h
      simpa using this
    rw [List.getElem?_set_self hlt] at h
    exact Or.inl ⟨rfl, (Option.some_inj.mp h).symm, hlt⟩
  · rw [List.getElem?_set_ne (fun he => hij he.symm)] at h
    exact Or.inr ⟨hij, h⟩

/-- `GrowsN` is reflexive. -/
theorem GrowsN.self (L : Nat) (p : GPerson) : GrowsN L p p :=
  ⟨rfl, rfl, rfl, 0, by simp⟩

/-- `GrowsN` composes. -/
theorem GrowsN.comp {L : Nat} {p p' p'' : GPerson}
    (h1 : GrowsN L p p') (h2 : GrowsN L p' p'') : GrowsN L p p'' := by
  obtain ⟨ha1, hb1, hc1, k1, hk1⟩ := h1
  obtain ⟨ha2, hb2, hc2, k2, hk2⟩ := h2
  refine ⟨ha2.trans ha1, hb2.trans hb1, hc2.trans hc1, k1 + k2, ?_⟩
  rw [hk2, hk1, List.append_assoc, List.append_replicate_replicate]

/-- Growth preserves membership of any family id. -/
theorem GrowsN.mem_of {L : Nat} {p p' : GPerson} (h : GrowsN L p p')
    {f : Nat} (hm : f ∈ p.families) : f ∈ p'.families := by
  obtain ⟨_, _, _, k, hk⟩ := h
  rw [hk]
  exact List.mem_append_left _ hm

/-- A family id present after growth was present before, or is the link `L`. -/
theorem GrowsN.mem_inv {L : Nat} {p p' : GPerson} (h : GrowsN L p p')
    {f : Nat} (hm : f ∈ p'.families) : f ∈ p.families ∨ f = L := by
  obtain ⟨_, _, _, k, hk⟩ := h
  rw [hk] at hm
  rcases List.mem_append.mp hm with h1 | h1
  · exact Or.inl h1
  · exact Or.inr (List.eq_of_mem_replicate h1)

/-- `BackStar` is reflexive. -/
theorem BackStar.base (L : Nat) (S : List Nat) (t : GTree) : BackStar L S t t :=
  ⟨rfl, rfl, fun q p h => ⟨p, h, GrowsN.self L p⟩,
   fun q p' h => ⟨p', h, GrowsN.self L p', Or.inl rfl⟩⟩

/-- `BackStar` composes, accumulating the processed sets. -/
theorem BackStar.chain {L : Nat} {S1 S2 : List Nat} {t t' t'' : GTree}
    (h1 : BackStar L S1 t t') (h2 : BackStar L S2 t' t'') : BackStar L (S1 ++ S2) t t'' := by
  obtain ⟨hf1, hl1, hfw1, hbw1⟩ := h1
  obtain ⟨hf2, hl2, hfw2, hbw2⟩ := h2
  refine ⟨hf2.trans hf1, hl2.trans hl1, ?_, ?_⟩
  · intro q p h
    obtain ⟨p', hp', hg1⟩ := hfw1 q p h
    obtain ⟨p'', hp'', hg2⟩ := hfw2 q p' hp'
    exact ⟨p'', hp'', hg1.comp hg2⟩
  · intro q p'' h
    obtain ⟨p', hp', hg2, hd2⟩ := hbw2 q p'' h
    obtain ⟨p, hp, hg1, hd1⟩ := hbw1 q p' hp'
    refine ⟨p, hp, hg1.comp hg2, ?_⟩
    rcases hd2 with hd2 | hd2
    · rcases hd1 with hd1 | hd1
      · exact Or.inl (hd2.trans hd1)
      · exact Or.inr (List.mem_append_left _ hd1)
    · exact Or.inr (List.mem_append_right _ hd2)

/-- Weakening the processed set of a `BackStar`. -/
theorem BackStar.widen {L : Nat} {S S' : List Nat} {t t' : GTree}
    (hS : ∀ x ∈ S, x ∈ S') (h : BackStar L S t t') : BackStar L S' t t' := by
  obtain ⟨hf, hl, hfw, hbw⟩ := h
  refine ⟨hf, hl, hfw, fun q p' hq => ?_⟩
  obtain ⟨p, hp, hg, hd⟩ := hbw q p' hq
  exact ⟨p, hp, hg, hd.imp id (hS q)⟩

/-- `HasLink` persists along further back-link steps. -/
theorem HasLink.persist {t t' : GTree} {pid L : Nat} {S : List Nat}
    (h : HasLink t pid L) (hb : BackStar L S t t') : HasLink t' pid L := by
  obtain ⟨p, hp, hm⟩ := h
  obtain ⟨p', hp', hg⟩ := hb.2.2.1 pid p hp
  exact ⟨p', hp', hg.mem_of hm⟩

/-- A single back-link step: `BackStar` over the singleton set plus the fact
that the linked person now carries `L`. -/
theorem family_backlink_backstar (L pid : Nat) (t t' : GTree)
    (h : family_backlink L t pid = .ok t') : BackStar L [pid] t t' ∧ HasLink t' pid L := by
  unfold family_backlink at h
  rcases hp : t.people[pid]? with _ | p0
  · simp only [hp] at h
    exact Except.noConfusion h
  · simp only [hp] at h
    injection h with h1
    have hlt : pid < t.people.length := lookup_lt_length hp
    have hlook : t'.people[pid]? = some { p0 with families := p0.families ++ [L] } := by
      rw [← h1]
      simpa using List.getElem?_set_self (l := t.people) (a := { p0 with families := p0.families ++ [L] }) hlt
    constructor
    · refine ⟨by rw [← h1], by rw [← h1]; simp, ?_, ?_⟩
      · intro q p hq
        by_cases hqp : q = pid
        · subst hqp
          rw [hp] at hq
          injection hq with hq1
          subst hq1
          exact ⟨_, hlook, rfl, rfl, rfl, 1, by simp⟩
        · refine ⟨p, ?_, GrowsN.self L p⟩
          rw [← h1]
          simpa using (List.getElem?_set_ne (l := t.people)
            (a := { p0 with families := p0.families ++ [L] }) (fun he => hqp he.symm)).trans hq
      · intro q p' hq
        rw [← h1] at hq
        rcases getElem?_set_cases (l := t.people) hq with ⟨hq1, hq2, _⟩ | ⟨hq1, hq2⟩
        · subst hq1
          subst hq2
          exact ⟨p0, hp, ⟨rfl, rfl, rfl, 1, by simp⟩, Or.inr (by simp)⟩
        · exact ⟨p', hq2, GrowsN.self L p', Or.inl rfl⟩
    · exact ⟨_, hlook, List.mem_append_right _ (by simp)⟩

/-- The optional back-link step. -/
theorem family_backlink_opt_backstar (L : Nat) (o : Option Nat) (t t' : GTree)
    (h : family_backlink_opt L t o = .ok t') :
    BackStar L o.toList t t' ∧ ∀ pid, o = some pid → HasLink t' pid L := by
  rcases o with _ | pid
  · injection h with h1
    subst h1
    exact ⟨BackStar.base L _ t, fun pid hp => Option.noConfusion hp⟩
  · obtain ⟨hb, hl⟩ := family_backlink_backstar L pid t t' h
    refine ⟨hb.widen (by simp), fun pid' hp => ?_⟩
    injection hp with hp1
    subst hp1
    exact hl

/-- The children back-link loop. -/
theorem family_backlink_children_backstar (L : Nat) :
    ∀ (ch : List Nat) (t t' : GTree), family_backlink_children L t ch = .ok t' →
      BackStar L ch t t' ∧ ∀ pid ∈ ch, HasLink t' pid L := by
  intro ch
  induction ch with
  | nil =>
    intro t t' h
    injection h with h1
    subst h1
    exact ⟨BackStar.base L _ t, fun pid hp => absurd hp (List.not_mem_nil pid)⟩
  | cons c rest ih =>
    intro t t' h
    unfold family_backlink_children at h
    rcases hb : family_backlink L t c with e | t2
    · simp only [hb] at h
      exact Except.noConfusion h
    · simp only [hb] at h
      obtain ⟨hb1, hl1⟩ := family_backlink_backstar L c t t2 hb
      obtain ⟨hb2, hl2⟩ := ih t2 t' h
      refine ⟨(hb1.chain hb2).widen (by simp), ?_⟩
      intro pid hp
      rcases List.mem_cons.mp hp with hp1 | hp1
      · subst hp1
        exact hl1.persist hb2
      · exact hl2 pid hp1

/-- Full decomposition of a successful `create_family` call: the new family is
appended at index `len(families)` and the tree evolves from the appended tree
by back-link steps covering exactly the member set. -/
theorem create_family_backstar (po : PO) (t : GTree) (fa mo : Option Nat)
    (ch : List Nat) (r : RS) (fid1 : Nat) (t1 : GTree) (r1 : RS)
    (h : create_family po t fa mo ch r = .ok (fid1, t1, r1)) :
    fid1 = t.families.length ∧ ∃ legal,
      BackStar t.families.length (fa.toList ++ (mo.toList ++ ch))
        { t with families := t.families ++
            [{ ind := "", legal := legal, dat := none, father := fa, mother := mo,
               children := ch, change_date := none }] } t1 ∧
      (∀ pid, fa = some pid → HasLink t1 pid t.families.length) ∧
      (∀ pid, mo = some pid → HasLink t1 pid t.families.length) ∧
      (∀ pid ∈ ch, HasLink t1 pid t.families.length) := by
  unfold create_family at h
  rcases hd : cdf_random_value relation_type_cdf r with e | lr
  · simp only [hd] at h
    exact Except.noConfusion h
  · obtain ⟨legal, r2⟩ := lr
    simp only [hd] at h
    rcases hb1 : family_backlink_opt t.families.length
        ({ t with families := t.families ++ [⟨"", legal, none, fa, mo, ch, none⟩] }) fa
      with e | t2
    · simp only [hb1] at h
      exact Except.noConfusion h
    · simp only [hb1] at h
      rcases hb2 : family_backlink_opt t.families.length t2 mo with e | t3
      · simp only [hb2] at h
        exact Except.noConfusion h
      · simp only [hb2] at h
        rcases hb3 : family_backlink_children t.families.length t3 ch with e | t4
        · simp only [hb3] at h
          exact Except.noConfusion h
        · simp only [hb3] at h
          injection h with h1
          rw [Prod.mk.injEq] at h1
          obtain ⟨h2, h3⟩ := h1
          rw [Prod.mk.injEq] at h3
          obtain ⟨h4, h5⟩ := h3
          subst h4
          obtain ⟨hs1, hf1⟩ := family_backlink_opt_backstar _ fa _ t2 hb1
          obtain ⟨hs2, hf2⟩ := family_backlink_opt_backstar _ mo t2 t3 hb2
          obtain ⟨hs3, hf3⟩ := family_backlink_children_backstar _ ch t3 t4 hb3
          refine ⟨h2.symm, legal, (hs1.chain (hs2.chain hs3)).widen (by simp), ?_, ?_, ?_⟩
          · intro pid hp
            exact ((hf1 pid hp).persist hs2).persist hs3
          · intro pid hp
            exact (hf2 pid hp).persist hs3
          · exact hf3

/-- `create_family` preserves the bidirectional link invariant. -/
theorem create_family_linked (po : PO) (t : GTree) (fa mo : Option Nat)
    (ch : List Nat) (r : RS) (fid1 : Nat) (t1 : GTree) (r1 : RS)
    (hL : Linked t) (h : create_family po t fa mo ch r = .ok (fid1, t1, r1)) : Linked t1 := by
  obtain ⟨hfid, legal, hbs, hfa, hmo, hch⟩ := create_family_backstar po t fa mo ch r fid1 t1 r1 h
  set L := t.families.length with hLdef
  set F : GFamily := ({ ind := "", legal := legal, dat := none, father := fa, mother := mo, children := ch, change_date := none } : GFamily) with hFdef
  obtain ⟨hfams, hlen, hfw, hbw⟩ := hbs
  have hfams1 : t1.families = t.families ++ [F] := hfams
  constructor
  · -- every person's family links are sound
    intro pid p' hp'
    obtain ⟨p, hp, hg, hd⟩ := hbw pid p' hp'
    intro fid hfid'
    rcases hg.mem_inv hfid' with hmem | hmem
    · -- an old link: resolved by the old invariant; the family list only grew
      obtain ⟨f, hf, hrole⟩ := hL.1 pid p hp fid hmem
      refine ⟨f, ?_, hrole⟩
      rw [hfams1, List.getElem?_append_left (lookup_lt_length hf)]
      exact hf
    · -- the new link `L`: the person is one of the new family's members
      subst hmem
      have hFlook : t1.families[L]? = some F := by
        rw [hfams1, hLdef, List.getElem?_concat_length]
      refine ⟨F, hFlook, ?_⟩
      have hpidS : pid ∈ fa.toList ++ (mo.toList ++ ch) := by
        rcases hd with hd | hd
        · -- the link would already be present in `t`, impossible: out of range
          exfalso
          rw [hd] at hfid'
          obtain ⟨f, hf, _⟩ := hL.1 pid p hp L hfid'
          have := lookup_lt_length hf
          omega
        · exact hd
      rcases List.mem_append.mp hpidS with hs | hs
      · left
        rcases fa with _ | faid
        · simp at hs
        · simp at hs
          rw [hs]
      · rcases List.mem_append.mp hs with hs1 | hs1
        · right; left
          rcases mo with _ | moid
          · simp at hs1
          · simp at hs1
            rw [hs1]
        · right; right
          exact hs1
  · -- every family's member links are sound
    intro fid f hf
    rw [hfams1] at hf
    rcases getElem?_append_single hf with hold | ⟨hfidL, hfF⟩
    · -- an old family: its members only grew their links
      obtain ⟨hFa, hMo, hCh⟩ := hL.2 fid f hold
      refine ⟨?_, ?_, ?_⟩
      · intro pid hp
        obtain ⟨p, hpl, hm⟩ := hFa pid hp
        obtain ⟨p', hpl', hg⟩ := hfw pid p hpl
        exact ⟨p', hpl', hg.mem_of hm⟩
      · intro pid hp
        obtain ⟨p, hpl, hm⟩ := hMo pid hp
        obtain ⟨p', hpl', hg⟩ := hfw pid p hpl
        exact ⟨p', hpl', hg.mem_of hm⟩
      · intro pid hp
        obtain ⟨p, hpl, hm⟩ := hCh pid hp
        obtain ⟨p', hpl', hg⟩ := hfw pid p hpl
        exact ⟨p', hpl', hg.mem_of hm⟩
    · -- the new family: every member was back-linked
      subst hfF
      refine ⟨?_, ?_, ?_⟩
      · intro pid hp
        have := hfa pid hp
        rw [hfidL]
        exact this
      · intro pid hp
        have := hmo pid hp
        rw [hfidL]
        exact this
      · intro pid hp
        have := hch pid hp
        rw [hfidL]
        exact this

/-- `create_father` preserves the link invariant when the target family's
father slot is still empty (the only situation in which the generator calls
it). -/
theorem create_father_linked (po : PO) (t : GTree) (fid : Nat) (gn : String)
    (sn : Option String) (sx : String) (pid : Nat) (t1 : GTree)
    (hL : Linked t)
    (hN : ∀ fam, t.families[fid]? = some fam → fam.father = none)
    (h : create_father po t fid gn sn sx = .ok (pid, t1)) : Linked t1 := by
  obtain ⟨fam, lv, sn1, hf, hls, hpid, ht⟩ := create_father_shape po t fid gn sn sx pid t1 h
  have hfamN : fam.father = none := hN fam hf
  subst ht
  subst hpid
  have hfidlt : fid < t.families.length := lookup_lt_length hf
  constructor
  · intro q p' hp'
    rcases getElem?_append_single hp' with hold | ⟨hq, hpP⟩
    · intro fid' hm
      obtain ⟨f, hflook, hrole⟩ := hL.1 q p' hold fid' hm
      by_cases hff : fid' = fid
      · subst hff
        rw [hf] at hflook
        injection hflook with he
        subst he
        refine ⟨{ fam with father := some t.people.length }, ?_, ?_⟩
        · exact List.getElem?_set_self hfidlt
        · rcases hrole with h1 | h1 | h1
          · rw [hfamN] at h1
            exact Option.noConfusion h1
          · exact Or.inr (Or.inl h1)
          · exact Or.inr (Or.inr h1)
      · refine ⟨f, ?_, hrole⟩
        show (t.families.set fid _)[fid']? = some f
        rw [List.getElem?_set_ne (fun he => hff he.symm)]
        exact hflook
    · subst hq
      subst hpP
      intro fid' hm
      have hm1 : fid' = fid := by simpa using hm
      subst hm1
      refine ⟨{ fam with father := some t.people.length }, ?_, Or.inl rfl⟩
      exact List.getElem?_set_self hfidlt
  · intro fid'' f'' hf''
    rcases getElem?_set_cases hf'' with ⟨hq1, hq2, _⟩ | ⟨hne, hold⟩
    · subst hq1
      subst hq2
      obtain ⟨hFa, hMo, hCh⟩ := hL.2 fid'' fam hf
      refine ⟨?_, ?_, ?_⟩
      · intro q hp
        have hq : q = t.people.length := by
          have : some t.people.length = some q := hp
          exact (Option.some_inj.mp this).symm
        subst hq
        refine ⟨_, List.getElem?_concat_length t.people _, by simp⟩
      · intro q hp
        obtain ⟨p, hpl, hm⟩ := hMo q hp
        refine ⟨p, ?_, hm⟩
        rw [List.getElem?_append_left (lookup_lt_length hpl)]
        exact hpl
      · intro q hp
        obtain ⟨p, hpl, hm⟩ := hCh q hp
        refine ⟨p, ?_, hm⟩
        rw [List.getElem?_append_left (lookup_lt_length hpl)]
        exact hpl
    · obtain ⟨hFa, hMo, hCh⟩ := hL.2 fid'' f'' hold
      refine ⟨?_, ?_, ?_⟩
      · intro q hp
        obtain ⟨p, hpl, hm⟩ := hFa q hp
        refine ⟨p, ?_, hm⟩
        rw [List.getElem?_append_left (lookup_lt_length hpl)]
        exact hpl
      · intro q hp
        obtain ⟨p, hpl, hm⟩ := hMo q hp
        refine ⟨p, ?_, hm⟩
        rw [List.getElem?_append_left (lookup_lt_length hpl)]
        exact hpl
      · intro q hp
        obtain ⟨p, hpl, hm⟩ := hCh q hp
        refine ⟨p, ?_, hm⟩
        rw [List.getElem?_append_left (lookup_lt_length hpl)]
        exact hpl

/-- `create_mother` preserves the link invariant when the target family's
mother slot is still empty. -/
theorem create_mother_linked (po : PO) (t : GTree) (fid : Nat) (gn : String)
    (msn maiden : Option String) (sx : String) (pid : Nat) (t1 : GTree)
    (hL : Linked t)
    (hN : ∀ fam, t.families[fid]? = some fam → fam.mother = none)
    (h : create_mother po t fid gn msn maiden sx = .ok (pid, t1)) : Linked t1 := by
  obtain ⟨fam, lv, sn1, hf, hls, hpid, ht⟩ := create_mother_shape po t fid gn msn maiden sx pid t1 h
  have hfamN : fam.mother = none := hN fam hf
  subst ht
  subst hpid
  have hfidlt : fid < t.families.length := lookup_lt_length hf
  constructor
  · intro q p' hp'
    rcases getElem?_append_single hp' with hold | ⟨hq, hpP⟩
    · intro fid' hm
      obtain ⟨f, hflook, hrole⟩ := hL.1 q p' hold fid' hm
      by_cases hff : fid' = fid
      · subst hff
        rw [hf] at hflook
        injection hflook with he
        subst he
        refine ⟨{ fam with mother := some t.people.length }, ?_, ?_⟩
        · exact List.getElem?_set_self hfidlt
        · rcases hrole with h1 | h1 | h1
          · exact Or.inl h1
          · rw [hfamN] at h1
            exact Option.noConfusion h1
          · exact Or.inr (Or.inr h1)
      · refine ⟨f, ?_, hrole⟩
        show (t.families.set fid _)[fid']? = some f
        rw [List.getElem?_set_ne (fun he => hff he.symm)]
        exact hflook
    · subst hq
      subst hpP
      intro fid' hm
      have hm1 : fid' = fid := by simpa using hm
      subst hm1
      refine ⟨{ fam with mother := some t.people.length }, ?_, Or.inr (Or.inl rfl)⟩
      exact List.getElem?_set_self hfidlt
  · intro fid'' f'' hf''
    rcases getElem?_set_cases hf'' with ⟨hq1, hq2, _⟩ | ⟨hne, hold⟩
    · subst hq1
      subst hq2
      obtain ⟨hFa, hMo, hCh⟩ := hL.2 fid'' fam hf
      refine ⟨?_, ?_, ?_⟩
      · intro q hp
        obtain ⟨p, hpl, hm⟩ := hFa q hp
        refine ⟨p, ?_, hm⟩
        rw [List.getElem?_append_left (lookup_lt_length hpl)]
        exact hpl
      · intro q hp
        have hq : q = t.people.length := by
          have : some t.people.length = some q := hp
          exact (Option.some_inj.mp this).symm
        subst hq
        refine ⟨_, List.getElem?_concat_length t.people _, by simp⟩
      · intro q hp
        obtain ⟨p, hpl, hm⟩ := hCh q hp
        refine ⟨p, ?_, hm⟩
        rw [List.getElem?_append_left (lookup_lt_length hpl)]
        exact hpl
    · obtain ⟨hFa, hMo, hCh⟩ := hL.2 fid'' f'' hold
      refine ⟨?_, ?_, ?_⟩
      · intro q hp
        obtain ⟨p, hpl, hm⟩ := hFa q hp
        refine ⟨p, ?_, hm⟩
        rw [List.getElem?_append_left (lookup_lt_length hpl)]
        exact hpl
      · intro q hp
        obtain ⟨p, hpl, hm⟩ := hMo q hp
        refine ⟨p, ?_, hm⟩
        rw [List.getElem?_append_left (lookup_lt_length hpl)]
        exact hpl
      · intro q hp
        obtain ⟨p, hpl, hm⟩ := hCh q hp
        refine ⟨p, ?_, hm⟩
        rw [List.getElem?_append_left (lookup_lt_length hpl)]
        exact hpl

/-- `create_child` preserves the link invariant unconditionally: the child is
appended to the family's children list, overwriting nothing. -/
theorem create_child_linked (po : PO) (t : GTree) (fid : Nat) (gn : String)
    (sn : Option String) (sx : String) (pid : Nat) (t1 : GTree)
    (hL : Linked t)
    (h : create_child po t fid gn sn sx = .ok (pid, t1)) : Linked t1 := by
  obtain ⟨fam, lv, sn1, hf, hls, hpid, ht⟩ := create_child_shape po t fid gn sn sx pid t1 h
  subst ht
  subst hpid
  have hfidlt : fid < t.families.length := lookup_lt_length hf
  constructor
  · intro q p' hp'
    rcases getElem?_append_single hp' with hold | ⟨hq, hpP⟩
    · intro fid' hm
      obtain ⟨f, hflook, hrole⟩ := hL.1 q p' hold fid' hm
      by_cases hff : fid' = fid
      · subst hff
        rw [hf] at hflook
        injection hflook with he
        subst he
        refine ⟨{ fam with children := fam.children ++ [t.people.length] }, ?_, ?_⟩
        · exact List.getElem?_set_self hfidlt
        · rcases hrole with h1 | h1 | h1
          · exact Or.inl h1
          · exact Or.inr (Or.inl h1)
          · exact Or.inr (Or.inr (List.mem_append_left _ h1))
      · refine ⟨f, ?_, hrole⟩
        show (t.families.set fid _)[fid']? = some f
        rw [List.getElem?_set_ne (fun he => hff he.symm)]
        exact hflook
    · subst hq
      subst hpP
      intro fid' hm
      have hm1 : fid' = fid := by simpa using hm
      subst hm1
      refine ⟨{ fam with children := fam.children ++ [t.people.length] }, ?_, ?_⟩
      · exact List.getElem?_set_self hfidlt
      · exact Or.inr (Or.inr (List.mem_append_right _ (by simp)))
  · intro fid'' f'' hf''
    rcases getElem?_set_cases hf'' with ⟨hq1, hq2, _⟩ | ⟨hne, hold⟩
    · subst hq1
      subst hq2
      obtain ⟨hFa, hMo, hCh⟩ := hL.2 fid'' fam hf
      refine ⟨?_, ?_, ?_⟩
      · intro q hp
        obtain ⟨p, hpl, hm⟩ := hFa q hp
        refine ⟨p, ?_, hm⟩
        rw [List.getElem?_append_left (lookup_lt_length hpl)]
        exact hpl
      · intro q hp
        obtain ⟨p, hpl, hm⟩ := hMo q hp
        refine ⟨p, ?_, hm⟩
        rw [List.getElem?_append_left (lookup_lt_length hpl)]
        exact hpl
      · intro q hp
        rcases List.mem_append.mp hp with hq1 | hq1
        · obtain ⟨p, hpl, hm⟩ := hCh q hq1
          refine ⟨p, ?_, hm⟩
          rw [List.getElem?_append_left (lookup_lt_length hpl)]
          exact hpl
        · have hq : q = t.people.length := by simpa using hq1
          subst hq
          refine ⟨_, List.getElem?_concat_length t.people _, by simp⟩
    · obtain ⟨hFa, hMo, hCh⟩ := hL.2 fid'' f'' hold
      refine ⟨?_, ?_, ?_⟩
      · intro q hp
        obtain ⟨p, hpl, hm⟩ := hFa q hp
        refine ⟨p, ?_, hm⟩
        rw [List.getElem?_append_left (lookup_lt_length hpl)]
        exact hpl
      · intro q hp
        obtain ⟨p, hpl, hm⟩ := hMo q hp
        refine ⟨p, ?_, hm⟩
        rw [List.getElem?_append_left (lookup_lt_length hpl)]
        exact hpl
      · intro q hp
        obtain ⟨p, hpl, hm⟩ := hCh q hp
        refine ⟨p, ?_, hm⟩
        rw [List.getElem?_append_left (lookup_lt_length hpl)]
        exact hpl

/-- C1: the bidirectional link invariant is preserved by every entity-creation
operation: `create_family` unconditionally, `create_child` unconditionally,
and `create_father` / `create_mother` whenever the target family's
corresponding parent slot is still empty — which is the only way the
generator ever calls them (from `generate_parent`, on a family freshly
created with that slot `None`).  No one-sided or dangling link exists after
any of these operations if none existed before. -/
theorem C1_bidirectional_links :
    (∀ po t fid gn sn sx pid t1, Linked t →
      (∀ fam, t.families[fid]? = some fam → fam.father = none) →
      create_father po t fid gn sn sx = .ok (pid, t1) → Linked t1) ∧
    (∀ po t fid gn msn maiden sx pid t1, Linked t →
      (∀ fam, t.families[fid]? = some fam → fam.mother = none) →
      create_mother po t fid gn msn maiden sx = .ok (pid, t1) → Linked t1) ∧
    (∀ po t fid gn sn sx pid t1, Linked t →
      create_child po t fid gn sn sx = .ok (pid, t1) → Linked t1) ∧
    (∀ po t fa mo ch r fid1 t1 r1, Linked t →
      create_family po t fa mo ch r = .ok (fid1, t1, r1) → Linked t1) :=
  ⟨fun po t fid gn sn sx pid t1 hL hN h => create_father_linked po t fid gn sn sx pid t1 hL hN h,
   fun po t fid gn msn maiden sx pid t1 hL hN h =>
     create_mother_linked po t fid gn msn maiden sx pid t1 hL hN h,
   fun po t fid gn sn sx pid t1 hL h => create_child_linked po t fid gn sn sx pid t1 hL h,
   fun po t fa mo ch r fid1 t1 r1 hL h => create_family_linked po t fa mo ch r fid1 t1 r1 hL h⟩

/-- C1 witness: the empty tree is linked, and the tree obtained by creating a
childless family in it via `create_family` is linked. -/
theorem C1_links_witness : Linked emptyTree ∧ Linked oneFamilyTree := by
  have hempty : Linked emptyTree := by
    constructor
    · intro pid p hp
      simp [emptyTree] at hp
    · intro fid f hf
      simp [emptyTree] at hf
  refine ⟨hempty, ?_⟩
  have hok : create_family samplePO emptyTree none none [] zeroStream =
      .ok (0, oneFamilyTree, zeroStream.advance) := by
    with_unfolding_all rfl
  exact C1_bidirectional_links.2.2.2 samplePO emptyTree none none [] zeroStream
    0 oneFamilyTree zeroStream.advance hempty hok

/-! ## Generation levels and termination (C10, C3) -/

/-- A supplied sex is passed through unchanged by the shared randomization
prologue. -/
theorem generate_givname_sex_some (po : PO) (gn : Option String) (sx : String) (r : RS)
    (g s : String) (r' : RS)
    (h : generate_givname_sex po gn (some sx) r = .ok (g, s, r')) : s = sx := by
  unfold generate_givname_sex at h
  rcases gn with _ | g0
  · rcases hg : generate_givname_from (pick_firstnames_cdf po sx r).1 po.second_name_chance
        (pick_firstnames_cdf po sx r).2 with e | gv
    · simp only [hg] at h
      exact Except.noConfusion h
    · obtain ⟨g1, r3⟩ := gv
      simp only [hg] at h
      injection h with h1
      rw [Prod.mk.injEq] at h1
      rw [Prod.mk.injEq] at h1
      exact h1.2.1.symm
  · injection h with h1
    rw [Prod.mk.injEq] at h1
    rw [Prod.mk.injEq] at h1
    exact h1.2.1.symm

/-- A successful `generate_child` is a successful `create_child` on the same
tree (for some drawn given name and sex). -/
theorem generate_child_spec (po : PO) (t : GTree) (fid : Nat)
    (gn sn sx : Option String) (r : RS) (cid : Nat) (t1 : GTree) (r1 : RS)
    (h : generate_child po t fid gn sn sx r = .ok (cid, t1, r1)) :
    ∃ g s, create_child po t fid g sn s = .ok (cid, t1) := by
  unfold generate_child at h
  rcases hg : generate_givname_sex po gn sx r with e | gv
  · simp only [hg] at h
    exact Except.noConfusion h
  · obtain ⟨g1, s1, r2⟩ := gv
    simp only [hg] at h
    rcases hc : create_child po t fid g1 sn s1 with e | cv
    · simp only [hc] at h
      exact Except.noConfusion h
    · obtain ⟨cid1, t2⟩ := cv
      simp only [hc] at h
      injection h with h1
      rw [Prod.mk.injEq] at h1
      rw [Prod.mk.injEq] at h1
      obtain ⟨e1, e2, _⟩ := h1
      exact ⟨g1, s1, by rw [hc, e1, e2]⟩

/-- A successful `generate_parent` with sex `"M"` on a family whose father
slot is empty is a successful `create_father`. -/
theorem generate_parent_father_spec (po : PO) (t : GTree) (fid : Nat) (r : RS)
    (pid : Nat) (t1 : GTree) (r1 : RS) (fam : GFamily)
    (hfam : t.families[fid]? = some fam) (hfa : fam.father = none)
    (h : generate_parent po t fid none none none (some "M") r = .ok (pid, t1, r1)) :
    ∃ g, create_father po t fid g none "M" = .ok (pid, t1) := by
  unfold generate_parent at h
  rcases hg : generate_givname_sex po none (some "M") r with e | gv
  · simp only [hg] at h
    exact Except.noConfusion h
  · obtain ⟨g1, s1, r2⟩ := gv
    have hs1 : s1 = "M" := generate_givname_sex_some po none "M" r g1 s1 r2 hg
    subst hs1
    simp only [hg, hfam] at h
    rw [if_pos (Or.inl hfa)] at h
    rcases hc : create_father po t fid g1 none "M" with e | cv
    · simp only [hc] at h
      exact Except.noConfusion h
    · obtain ⟨pid1, t2⟩ := cv
      simp only [hc] at h
      injection h with h1
      rw [Prod.mk.injEq] at h1
      rw [Prod.mk.injEq] at h1
      obtain ⟨e1, e2, _⟩ := h1
      exact ⟨g1, by rw [hc, e1, e2]⟩

/-- A successful `generate_parent` with sex `"F"` on a family whose father
slot is filled and mother slot is empty is a successful `create_mother`. -/
theorem generate_parent_mother_spec (po : PO) (t : GTree) (fid : Nat) (r : RS)
    (pid : Nat) (t1 : GTree) (r1 : RS) (fam : GFamily) (x : Nat)
    (hfam : t.families[fid]? = some fam) (hfa : fam.father = some x)
    (h : generate_parent po t fid none none none (some "F") r = .ok (pid, t1, r1)) :
    ∃ g m, create_mother po t fid g none (some m) "F" = .ok (pid, t1) := by
  unfold generate_parent at h
  rcases hg : generate_givname_sex po none (some "F") r with e | gv
  · simp only [hg] at h
    exact Except.noConfusion h
  · obtain ⟨g1, s1, r2⟩ := gv
    have hs1 : s1 = "F" := generate_givname_sex_some po none "F" r g1 s1 r2 hg
    subst hs1
    simp only [hg, hfam] at h
    rw [if_neg (by simp [hfa])] at h
    rcases hm : cdf_random_value_not_in_list po.lastnames_male_cdf
        (Option.toList (none : Option String)) r2 with e | mv
    · simp only [hm] at h
      exact Except.noConfusion h
    · obtain ⟨m1, r3⟩ := mv
      simp only [hm] at h
      rcases hc : create_mother po t fid g1 none (some m1) "F" with e | cv
      · simp only [hc] at h
        exact Except.noConfusion h
      · obtain ⟨pid1, t2⟩ := cv
        simp only [hc] at h
        injection h with h1
        rw [Prod.mk.injEq] at h1
        rw [Prod.mk.injEq] at h1
        obtain ⟨e1, e2, _⟩ := h1
        exact ⟨g1, m1, by rw [hc, e1, e2]⟩

/-- The level inferred by `child_level_surname` when the family has a father:
one below the next generation, i.e. `father.level + 1`. -/
theorem child_level_surname_father (t : GTree) (F : GFamily) (sn : Option String)
    (fa_id : Nat) (faRec : GPerson) (lv : Int) (s : String)
    (hf : F.father = some fa_id) (hp : t.people[fa_id]? = some faRec)
    (h : child_level_surname t F sn = .ok (lv, s)) : lv = faRec.level + 1 := by
  unfold child_level_surname at h
  rw [hf] at h
  simp only [hp] at h
  rcases sn with _ | s0
  · rcases hn : faRec.names[0]? with _ | nm
    · rw [hn] at h
      exact Except.noConfusion h
    · rw [hn] at h
      injection h with h1
      rw [Prod.mk.injEq] at h1
      exact h1.1.symm
  · injection h with h1
    rw [Prod.mk.injEq] at h1
    exact h1.1.symm

/-- The level inferred by `mother_level_surname` when the family has a father:
the father's level. -/
theorem mother_level_surname_father (t : GTree) (F : GFamily) (sn : Option String)
    (fa_id : Nat) (faRec : GPerson) (lv : Int) (s : String)
    (hf : F.father = some fa_id) (hp : t.people[fa_id]? = some faRec)
    (h : mother_level_surname t F sn = .ok (lv, s)) : lv = faRec.level := by
  unfold mother_level_surname at h
  rw [hf] at h
  simp only [hp] at h
  rcases sn with _ | s0
  · rcases hn : faRec.names[0]? with _ | nm
    · rw [hn] at h
      exact Except.noConfusion h
    · rw [hn] at h
      injection h with h1
      rw [Prod.mk.injEq] at h1
      exact h1.1.symm
  · injection h with h1
    rw [Prod.mk.injEq] at h1
    exact h1.1.symm

/-- The level inferred by `father_level_surname` when the family has a mother:
the mother's level. -/
theorem father_level_surname_mother (t : GTree) (F : GFamily) (sn : Option String)
    (mo_id : Nat) (moRec : GPerson) (lv : Int) (s : String)
    (hm : F.mother = some mo_id) (hp : t.people[mo_id]? = some moRec)
    (h : father_level_surname t F sn = .ok (lv, s)) : lv = moRec.level := by
  unfold father_level_surname at h
  rw [hm] at h
  simp only [hp] at h
  rcases sn with _ | s0
  · rcases hn : moRec.names[0]? with _ | nm
    · rw [hn] at h
      exact Except.noConfusion h
    · rw [hn] at h
      injection h with h1
      rw [Prod.mk.injEq] at h1
      exact h1.1.symm
  · injection h with h1
    rw [Prod.mk.injEq] at h1
    exact h1.1.symm

/-- The level inferred by `father_level_surname` when the family has no mother
but existing children: one above the first child, i.e. `child.level - 1`. -/
theorem father_level_surname_child (t : GTree) (F : GFamily) (sn : Option String)
    (cid : Nat) (rest : List Nat) (cRec : GPerson) (lv : Int) (s : String)
    (hm : F.mother = none) (hch : F.children = cid :: rest)
    (hp : t.people[cid]? = some cRec)
    (h : father_level_surname t F sn = .ok (lv, s)) : lv = cRec.level - 1 := by
  unfold father_level_surname at h
  rw [hm, hch] at h
  simp only [hp] at h
  rcases sn with _ | s0
  · rcases hn : cRec.names[0]? with _ | nm
    · rw [hn] at h
      exact Except.noConfusion h
    · rw [hn] at h
      injection h with h1
      rw [Prod.mk.injEq] at h1
      exact h1.1.symm
  · injection h with h1
    rw [Prod.mk.injEq] at h1
    exact h1.1.symm

/-- Full decomposition of a successful run of the children loop of
`generate_family_incl_person`: one child per index, appended in order, each at
one level below the family's father and back-linked only to this family;
nothing else in the tree changes. -/
theorem gfip_children_spec (po : PO) (L mc mm : Nat) :
    ∀ (idxs : List Nat) (males : Nat) (t : GTree) (r : RS) (males1 : Nat) (t1 : GTree) (r1 : RS)
      (fa_id : Nat) (faRec : GPerson) (F : GFamily),
      gfip_children_loop po L mc mm idxs males t r = .ok (males1, t1, r1) →
      t.families[L]? = some F → F.father = some fa_id → t.people[fa_id]? = some faRec →
      t1.people.length = t.people.length + idxs.length ∧
      (∀ (q : Nat) (p0 : GPerson), t.people[q]? = some p0 → t1.people[q]? = some p0) ∧
      (∀ (j : Nat) (c : GPerson), t1.people[j]? = some c → t.people.length ≤ j →
        c.level = faRec.level + 1 ∧ c.families = [L]) ∧
      (∃ F1, t1.families[L]? = some F1 ∧ F1.father = F.father ∧ F1.mother = F.mother ∧
        F1.children = F.children ++ List.range' t.people.length idxs.length) ∧
      (∀ (fid : Nat) (f : GFamily), fid ≠ L → t.families[fid]? = some f →
        t1.families[fid]? = some f) ∧
      t1.families.length = t.families.length := by
  intro idxs
  induction idxs with
  | nil =>
    intro males t r males1 t1 r1 fa_id faRec F h hF hfa hfrec
    injection h with h1
    rw [Prod.mk.injEq] at h1
    rw [Prod.mk.injEq] at h1
    obtain ⟨_, ht, _⟩ := h1
    subst ht
    refine ⟨by simp, fun q p0 hq => hq, ?_, ⟨F, hF, rfl, rfl, by simp⟩,
      fun fid f _ hf => hf, rfl⟩
    intro j c hc hj
    exact absurd (lookup_lt_length hc) (by omega)
  | cons i rest ih =>
    intro males t r males1 t1 r1 fa_id faRec F h hF hfa hfrec
    unfold gfip_children_loop at h
    rcases hd : cdf_random_value person_sex_cdf r with e | sv
    · rw [hd] at h
      exact Except.noConfusion h
    · obtain ⟨sex0, r2⟩ := sv
      rw [hd] at h
      simp only [] at h
      split at h
      · exact Except.noConfusion h
      · rename_i a cid t2 r3 heq
        obtain ⟨g, s, hcc⟩ := generate_child_spec po t L none none _ r2 cid t2 r3 heq
        obtain ⟨fam, lv, sn1, hf2, hls, hcid, ht2⟩ := create_child_shape po t L g none s cid t2 hcc
        rw [hF] at hf2
        injection hf2 with hf2e
        subst hf2e
        have hlv : lv = faRec.level + 1 :=
          child_level_surname_father t F none fa_id faRec lv sn1 hfa hfrec hls
        have hLlt : L < t.families.length := lookup_lt_length hF
        have hfa_lt : fa_id < t.people.length := lookup_lt_length hfrec
        have hlen2 : t2.people.length = t.people.length + 1 := by
          rw [ht2]
          simp
        have hfwd : ∀ (q : Nat) (p0 : GPerson), t.people[q]? = some p0 →
            t2.people[q]? = some p0 := by
          intro q p0 hq
          rw [ht2]
          show (t.people ++ _)[q]? = some p0
          rw [List.getElem?_append_left (lookup_lt_length hq)]
          exact hq
        have hF2 : t2.families[L]? = some { F with children := F.children ++ [cid] } := by
          rw [ht2]
          exact List.getElem?_set_self hLlt
        have hfa2 : t2.people[fa_id]? = some faRec := hfwd fa_id faRec hfrec
        have hnew3 : ∀ (j : Nat) (c : GPerson), t2.people[j]? = some c →
            t.people.length ≤ j → c.level = faRec.level + 1 ∧ c.families = [L] := by
          intro j c hc hj
          rw [ht2] at hc
          rcases getElem?_append_single hc with hold | ⟨hje, hce⟩
          · exact absurd (lookup_lt_length hold) (by omega)
          · subst hce
            exact ⟨hlv, rfl⟩
        have hfr2 : ∀ (fid : Nat) (f : GFamily), fid ≠ L → t.families[fid]? = some f →
            t2.families[fid]? = some f := by
          intro fid f hne hf
          rw [ht2]
          show (t.families.set L _)[fid]? = some f
          rw [List.getElem?_set_ne (fun he => hne he.symm)]
          exact hf
        have hflen2 : t2.families.length = t.families.length := by
          rw [ht2]
          simp
        obtain ⟨ih1, ih2, ih3, ⟨F1, hF1, hF1f, hF1m, hF1c⟩, ih5, ih6⟩ :=
          ih _ t2 r3 males1 t1 r1 fa_id faRec _ h hF2 hfa hfa2
        refine ⟨?_, ?_, ?_, ?_, ?_, ?_⟩
        · rw [ih1, hlen2]
          simp only [List.length_cons]
          omega
        · intro q p0 hq
          exact ih2 q p0 (hfwd q p0 hq)
        · intro j c hc hj
          by_cases hj2 : t.people.length + 1 ≤ j
          · exact ih3 j c hc (by omega)
          · have hje : j = t.people.length := by omega
            subst hje
            rcases hx : t2.people[t.people.length]? with _ | c0
            · rw [List.getElem?_eq_none_iff] at hx
              omega
            · obtain ⟨hc1, hc2⟩ := hnew3 _ c0 hx (by omega)
              have := ih2 _ c0 hx
              rw [hc] at this
              injection this with he
              subst he
              exact ⟨hc1, hc2⟩
        · refine ⟨F1, hF1, hF1f, hF1m, ?_⟩
          rw [hlen2] at hF1c
          have hproj : ({ F with children := F.children ++ [cid] } : GFamily).children
              = F.children ++ [cid] := rfl
          rw [hproj] at hF1c
          rw [hF1c, hcid, List.append_assoc]
          simp only [List.length_cons]
          congr 1
        · intro fid f hne hf
          exact ih5 fid f hne (hfr2 fid f hne hf)
        · rw [ih6, hflen2]

/-- Exact update formula of a single back-link step. -/
theorem family_backlink_shape (L : Nat) (t : GTree) (pid : Nat) (t' : GTree)
    (h : family_backlink L t pid = .ok t') :
    ∃ p0, t.people[pid]? = some p0 ∧
      t' = { t with people := t.people.set pid { p0 with families := p0.families ++ [L] } } := by
  unfold family_backlink at h
  rcases hp : t.people[pid]? with _ | p0
  · simp only [hp] at h
    exact Except.noConfusion h
  · simp only [hp] at h
    injection h with h1
    exact ⟨p0, rfl, h1.symm⟩

/-- Exact shape of `create_family` for a lone father member. -/
theorem create_family_father_shape (po : PO) (t : GTree) (pid : Nat) (r : RS)
    (L : Nat) (t2 : GTree) (r2 : RS)
    (h : create_family po t (some pid) none [] r = .ok (L, t2, r2)) :
    L = t.families.length ∧ ∃ legal p0,
      t.people[pid]? = some p0 ∧
      t2 = { t with
             people := t.people.set pid { p0 with families := p0.families ++ [t.families.length] },
             families := t.families ++ [{ ind := "", legal := legal, dat := none,
                                          father := some pid, mother := none, children := [],
                                          change_date := none }] } := by
  unfold create_family at h
  rcases hd : cdf_random_value relation_type_cdf r with e | lr
  · simp only [hd] at h
    exact Except.noConfusion h
  · obtain ⟨legal, rr⟩ := lr
    simp only [hd] at h
    rcases hb1 : family_backlink_opt t.families.length
        ({ t with families := t.families ++ [⟨"", legal, none, some pid, none, [], none⟩] })
        (some pid) with e | tB
    · simp only [hb1] at h
      exact Except.noConfusion h
    · simp only [hb1] at h
      injection h with h1
      rw [Prod.mk.injEq] at h1
      obtain ⟨hL, h3⟩ := h1
      rw [Prod.mk.injEq] at h3
      obtain ⟨ht2, hr2⟩ := h3
      obtain ⟨p0, hp0, htB⟩ := family_backlink_shape _ _ _ _ hb1
      refine ⟨hL.symm, legal, p0, hp0, ?_⟩
      rw [← ht2, htB]

/-- Exact shape of `create_family` for a lone mother member. -/
theorem create_family_mother_shape (po : PO) (t : GTree) (pid : Nat) (r : RS)
    (L : Nat) (t2 : GTree) (r2 : RS)
    (h : create_family po t none (some pid) [] r = .ok (L, t2, r2)) :
    L = t.families.length ∧ ∃ legal p0,
      t.people[pid]? = some p0 ∧
      t2 = { t with
             people := t.people.set pid { p0 with families := p0.families ++ [t.families.length] },
             families := t.families ++ [{ ind := "", legal := legal, dat := none,
                                          father := none, mother := some pid, children := [],
                                          change_date := none }] } := by
  unfold create_family at h
  rcases hd : cdf_random_value relation_type_cdf r with e | lr
  · simp only [hd] at h
    exact Except.noConfusion h
  · obtain ⟨legal, rr⟩ := lr
    simp only [hd, family_backlink_opt] at h
    rcases hb2 : family_backlink t.families.length
        ({ t with families := t.families ++ [⟨"", legal, none, none, some pid, [], none⟩] })
        pid with e | tB
    · simp only [hb2] at h
      exact Except.noConfusion h
    · simp only [hb2, family_backlink_children] at h
      injection h with h1
      rw [Prod.mk.injEq] at h1
      obtain ⟨hL, h3⟩ := h1
      rw [Prod.mk.injEq] at h3
      obtain ⟨ht2, hr2⟩ := h3
      obtain ⟨p0, hp0, htB⟩ := family_backlink_shape _ _ _ _ hb2
      refine ⟨hL.symm, legal, p0, hp0, ?_⟩
      rw [← ht2, htB]

/-- Exact shape of `create_family` for a lone child member. -/
theorem create_family_child_shape (po : PO) (t : GTree) (pid : Nat) (r : RS)
    (L : Nat) (t2 : GTree) (r2 : RS)
    (h : create_family po t none none [pid] r = .ok (L, t2, r2)) :
    L = t.families.length ∧ ∃ legal p0,
      t.people[pid]? = some p0 ∧
      t2 = { t with
             people := t.people.set pid { p0 with families := p0.families ++ [t.families.length] },
             families := t.families ++ [{ ind := "", legal := legal, dat := none,
                                          father := none, mother := none, children := [pid],
                                          change_date := none }] } := by
  unfold create_family at h
  rcases hd : cdf_random_value relation_type_cdf r with e | lr
  · simp only [hd] at h
    exact Except.noConfusion h
  · obtain ⟨legal, rr⟩ := lr
    simp only [hd, family_backlink_opt, family_backlink_children] at h
    rcases hb : family_backlink t.families.length
        ({ t with families := t.families ++ [⟨"", legal, none, none, none, [pid], none⟩] })
        pid with e | tC
    · simp only [hb] at h
      exact Except.noConfusion h
    · simp only [hb, family_backlink_children] at h
      injection h with h1
      rw [Prod.mk.injEq] at h1
      obtain ⟨hL, h3⟩ := h1
      rw [Prod.mk.injEq] at h3
      obtain ⟨ht2, hr2⟩ := h3
      obtain ⟨p0, hp0, htC⟩ := family_backlink_shape _ _ _ _ hb
      refine ⟨hL.symm, legal, p0, hp0, ?_⟩
      rw [← ht2, htC]

/-- Full specification of a successful `generate_family_incl_person` with role
`"father"`: a new family indexed `len(families)` with the person as father, a
fresh mother at the person's level, and at least one fresh child one level
below the children; everyone else in the tree is untouched. -/
theorem gfip_spec_father (po : PO) (t : GTree) (pid : Nat) (numc minm : Nat) (r : RS)
    (fid1 : Nat) (t1 : GTree) (r1 : RS) (p : GPerson)
    (hp : t.people[pid]? = some p)
    (h : generate_family_incl_person po t pid "father" numc minm r = .ok (fid1, t1, r1)) :
    fid1 = t.families.length ∧
    t1.families.length = t.families.length + 1 ∧
    (∃ k, 1 ≤ k ∧ t1.people.length = t.people.length + 1 + k ∧
      (∃ pm, t1.people[t.people.length]? = some pm ∧ pm.level = p.level ∧
        pm.families = [t.families.length]) ∧
      (∀ (j : Nat) (c : GPerson), t1.people[j]? = some c → t.people.length + 1 ≤ j →
        c.level = p.level + 1 ∧ c.families = [t.families.length]) ∧
      (∃ F1, t1.families[t.families.length]? = some F1 ∧ F1.father = some pid ∧
        F1.mother = some t.people.length ∧
        F1.children = List.range' (t.people.length + 1) k)) ∧
    (∀ (q : Nat) (p0 : GPerson), q ≠ pid → t.people[q]? = some p0 → t1.people[q]? = some p0) ∧
    (∃ p', t1.people[pid]? = some p' ∧ p'.level = p.level ∧ p'.names = p.names ∧
      p'.sex = p.sex ∧ p'.families = p.families ++ [t.families.length]) ∧
    (∀ (fid : Nat) (f : GFamily), t.families[fid]? = some f → t1.families[fid]? = some f) := by
  unfold generate_family_incl_person at h
  simp only [String.reduceEq, reduceIte] at h
  rcases hcf : create_family po t (some pid) none [] r with e | v
  · simp only [hcf] at h
    exact Except.noConfusion h
  obtain ⟨L, t2, r2⟩ := v
  simp only [hcf] at h
  obtain ⟨hL, legal, p0, hp0, ht2⟩ := create_family_father_shape po t pid r L t2 r2 hcf
  subst hL
  rw [hp] at hp0
  injection hp0 with hpe
  subst hpe
  have hpidlt : pid < t.people.length := lookup_lt_length hp
  have ht2p : t2.people.length = t.people.length := by
    rw [ht2]
    simp
  have ht2f : t2.families.length = t.families.length + 1 := by
    rw [ht2]
    simp
  have ht2pid : t2.people[pid]? =
      some { p with families := p.families ++ [t.families.length] } := by
    rw [ht2]
    exact List.getElem?_set_self hpidlt
  have ht2q : ∀ (q : Nat) (x : GPerson), q ≠ pid → t.people[q]? = some x →
      t2.people[q]? = some x := by
    intro q x hq hx
    rw [ht2]
    show (t.people.set pid _)[q]? = some x
    rw [List.getElem?_set_ne (fun he => hq he.symm)]
    exact hx
  have ht2F : t2.families[t.families.length]? =
      some (⟨"", legal, none, some pid, none, [], none⟩ : GFamily) := by
    rw [ht2]
    exact List.getElem?_concat_length _ _
  have ht2old : ∀ (fid : Nat) (f : GFamily), t.families[fid]? = some f →
      t2.families[fid]? = some f := by
    intro fid f hf
    rw [ht2]
    show (t.families ++ _)[fid]? = some f
    rw [List.getElem?_append_left (lookup_lt_length hf)]
    exact hf
  rcases hgp : generate_parent po t2 t.families.length none none none (some "F") r2 with e | w
  · simp only [hgp] at h
    exact Except.noConfusion h
  obtain ⟨mo_id, t3, r3⟩ := w
  simp only [hgp] at h
  obtain ⟨g, m, hcm⟩ := generate_parent_mother_spec po t2 t.families.length r2 mo_id t3 r3
    ⟨"", legal, none, some pid, none, [], none⟩ pid ht2F rfl hgp
  obtain ⟨fam2, lvm, snm, hf2, hlsm, hmoid, ht3⟩ :=
    create_mother_shape po t2 t.families.length g none (some m) "F" mo_id t3 hcm
  rw [ht2F] at hf2
  injection hf2 with hf2e
  subst hf2e
  have hlvm : lvm = p.level :=
    mother_level_surname_father t2 _ none pid
      { p with families := p.families ++ [t.families.length] } lvm snm rfl ht2pid hlsm
  have hLlt2 : t.families.length < t2.families.length := by omega
  have ht3p : t3.people.length = t.people.length + 1 := by
    rw [ht3]
    simp [ht2p]
  have ht3flen : t3.families.length = t.families.length + 1 := by
    rw [ht3]
    simp [ht2f]
  have ht3mom : t3.people[t.people.length]? =
      some { level := lvm, ind := "", names := mother_names g snm (some m), sex := "F",
             families := [t.families.length], events := [], sources := [], notes := [],
             objects := [], change_date := some po.final_date } := by
    rw [ht3, ← ht2p]
    exact List.getElem?_concat_length _ _
  have ht3pid : t3.people[pid]? =
      some { p with families := p.families ++ [t.families.length] } := by
    rw [ht3]
    show (t2.people ++ _)[pid]? = _
    rw [List.getElem?_append_left (by omega)]
    exact ht2pid
  have ht3q : ∀ (q : Nat) (x : GPerson), q ≠ pid → t.people[q]? = some x →
      t3.people[q]? = some x := by
    intro q x hq hx
    rw [ht3]
    show (t2.people ++ _)[q]? = some x
    rw [List.getElem?_append_left (by rw [ht2p]; exact lookup_lt_length hx)]
    exact ht2q q x hq hx
  have ht3F : t3.families[t.families.length]? =
      some { (⟨"", legal, none, some pid, none, [], none⟩ : GFamily) with
             mother := some mo_id } := by
    rw [ht3]
    exact List.getElem?_set_self hLlt2
  have ht3old : ∀ (fid : Nat) (f : GFamily), t.families[fid]? = some f →
      t3.families[fid]? = some f := by
    intro fid f hf
    rw [ht3]
    show (t2.families.set _ _)[fid]? = some f
    rw [List.getElem?_set_ne (by have := lookup_lt_length hf; omega)]
    exact ht2old fid f hf
  split at h
  · exact Except.noConfusion h
  rename_i ml t4 r4 heq
  obtain ⟨c1, c2, c3, ⟨F1, hF1, hF1f, hF1m, hF1c⟩, c5, c6⟩ :=
    gfip_children_spec po t.families.length _ minm _ 0 t3 r3 ml t4 r4 pid
      { p with families := p.families ++ [t.families.length] } _ heq ht3F rfl ht3pid
  injection h with h1
  rw [Prod.mk.injEq] at h1
  obtain ⟨hLf, h3⟩ := h1
  rw [Prod.mk.injEq] at h3
  obtain ⟨ht4, hr4⟩ := h3
  subst ht4
  rw [List.length_range'] at c1
  refine ⟨hLf.symm, by rw [c6, ht3flen], ?_, ?_, ?_, ?_⟩
  · refine ⟨max numc (0 + (max 0 ((minm : Int) - ((0 : Nat) : Int))).toNat + 1) - 0,
      ?_, ?_, ?_, ?_, ?_⟩
    · have := Nat.le_max_right numc (0 + (max 0 ((minm : Int) - ((0 : Nat) : Int))).toNat + 1)
      omega
    · rw [c1, ht3p]
    · refine ⟨_, c2 _ _ ht3mom, hlvm, rfl⟩
    · intro j c hc hj
      have := c3 j c hc (by omega)
      exact this
    · refine ⟨F1, hF1, hF1f, ?_, ?_⟩
      · rw [hF1m]
        show some mo_id = some t.people.length
        rw [hmoid, ht2p]
      · rw [hF1c, ht3p]
        have hnil : ({ (⟨"", legal, none, some pid, none, [], none⟩ : GFamily) with
            mother := some mo_id } : GFamily).children = ([] : List Nat) := rfl
        rw [hnil, List.nil_append, List.length_range']
  · intro q x hq hx
    exact c2 q x (ht3q q x hq hx)
  · exact ⟨_, c2 _ _ ht3pid, rfl, rfl, rfl, rfl⟩
  · intro fid f hf
    exact c5 fid f (by have := lookup_lt_length hf; omega) (ht3old fid f hf)

/-- Full specification of a successful `generate_family_incl_person` with role
`"mother"`: a new family indexed `len(families)` with the person as mother, a
fresh father at the person's level, and at least one fresh child one level
below; everyone else in the tree is untouched. -/
theorem gfip_spec_mother (po : PO) (t : GTree) (pid : Nat) (numc minm : Nat) (r : RS)
    (fid1 : Nat) (t1 : GTree) (r1 : RS) (p : GPerson)
    (hp : t.people[pid]? = some p)
    (h : generate_family_incl_person po t pid "mother" numc minm r = .ok (fid1, t1, r1)) :
    fid1 = t.families.length ∧
    t1.families.length = t.families.length + 1 ∧
    (∃ k, 1 ≤ k ∧ t1.people.length = t.people.length + 1 + k ∧
      (∃ pf, t1.people[t.people.length]? = some pf ∧ pf.level = p.level ∧
        pf.families = [t.families.length]) ∧
      (∀ (j : Nat) (c : GPerson), t1.people[j]? = some c → t.people.length + 1 ≤ j →
        c.level = p.level + 1 ∧ c.families = [t.families.length]) ∧
      (∃ F1, t1.families[t.families.length]? = some F1 ∧
        F1.father = some t.people.length ∧ F1.mother = some pid ∧
        F1.children = List.range' (t.people.length + 1) k)) ∧
    (∀ (q : Nat) (p0 : GPerson), q ≠ pid → t.people[q]? = some p0 → t1.people[q]? = some p0) ∧
    (∃ p', t1.people[pid]? = some p' ∧ p'.level = p.level ∧ p'.names = p.names ∧
      p'.sex = p.sex ∧ p'.families = p.families ++ [t.families.length]) ∧
    (∀ (fid : Nat) (f : GFamily), t.families[fid]? = some f → t1.families[fid]? = some f) := by
  unfold generate_family_incl_person at h
  simp only [String.reduceEq, reduceIte] at h
  rcases hcf : create_family po t none (some pid) [] r with e | v
  · simp only [hcf] at h
    exact Except.noConfusion h
  obtain ⟨L, t2, r2⟩ := v
  simp only [hcf] at h
  obtain ⟨hL, legal, p0, hp0, ht2⟩ := create_family_mother_shape po t pid r L t2 r2 hcf
  subst hL
  rw [hp] at hp0
  injection hp0 with hpe
  subst hpe
  have hpidlt : pid < t.people.length := lookup_lt_length hp
  have ht2p : t2.people.length = t.people.length := by
    rw [ht2]
    simp
  have ht2f : t2.families.length = t.families.length + 1 := by
    rw [ht2]
    simp
  have ht2pid : t2.people[pid]? =
      some { p with families := p.families ++ [t.families.length] } := by
    rw [ht2]
    exact List.getElem?_set_self hpidlt
  have ht2q : ∀ (q : Nat) (x : GPerson), q ≠ pid → t.people[q]? = some x →
      t2.people[q]? = some x := by
    intro q x hq hx
    rw [ht2]
    show (t.people.set pid _)[q]? = some x
    rw [List.getElem?_set_ne (fun he => hq he.symm)]
    exact hx
  have ht2F : t2.families[t.families.length]? =
      some (⟨"", legal, none, none, some pid, [], none⟩ : GFamily) := by
    rw [ht2]
    exact List.getElem?_concat_length _ _
  have ht2old : ∀ (fid : Nat) (f : GFamily), t.families[fid]? = some f →
      t2.families[fid]? = some f := by
    intro fid f hf
    rw [ht2]
    show (t.families ++ _)[fid]? = some f
    rw [List.getElem?_append_left (lookup_lt_length hf)]
    exact hf
  rcases hgp : generate_parent po t2 t.families.length none none none (some "M") r2 with e | w
  · simp only [hgp] at h
    exact Except.noConfusion h
  obtain ⟨fa_id, t3, r3⟩ := w
  simp only [hgp] at h
  obtain ⟨g, hcfa⟩ := generate_parent_father_spec po t2 t.families.length r2 fa_id t3 r3
    ⟨"", legal, none, none, some pid, [], none⟩ ht2F rfl hgp
  obtain ⟨fam2, lv, sn1, hf2, hls, hfaid, ht3⟩ :=
    create_father_shape po t2 t.families.length g none "M" fa_id t3 hcfa
  rw [ht2F] at hf2
  injection hf2 with hf2e
  subst hf2e
  have hlv : lv = p.level :=
    father_level_surname_mother t2 _ none pid
      { p with families := p.families ++ [t.families.length] } lv sn1 rfl ht2pid hls
  have hLlt2 : t.families.length < t2.families.length := by omega
  have ht3p : t3.people.length = t.people.length + 1 := by
    rw [ht3]
    simp [ht2p]
  have ht3flen : t3.families.length = t.families.length + 1 := by
    rw [ht3]
    simp [ht2f]
  have ht3fa : t3.people[t.people.length]? =
      some { level := lv, ind := "", names := [⟨"birth", g, sn1, "", "", ""⟩], sex := "M",
             families := [t.families.length], events := [], sources := [], notes := [],
             objects := [], change_date := some po.final_date } := by
    rw [ht3, ← ht2p]
    exact List.getElem?_concat_length _ _
  have ht3pid : t3.people[pid]? =
      some { p with families := p.families ++ [t.families.length] } := by
    rw [ht3]
    show (t2.people ++ _)[pid]? = _
    rw [List.getElem?_append_left (by omega)]
    exact ht2pid
  have ht3q : ∀ (q : Nat) (x : GPerson), q ≠ pid → t.people[q]? = some x →
      t3.people[q]? = some x := by
    intro q x hq hx
    rw [ht3]
    show (t2.people ++ _)[q]? = some x
    rw [List.getElem?_append_left (by rw [ht2p]; exact lookup_lt_length hx)]
    exact ht2q q x hq hx
  have ht3F : t3.families[t.families.length]? =
      some { (⟨"", legal, none, none, some pid, [], none⟩ : GFamily) with
             father := some fa_id } := by
    rw [ht3]
    exact List.getElem?_set_self hLlt2
  have ht3old : ∀ (fid : Nat) (f : GFamily), t.families[fid]? = some f →
      t3.families[fid]? = some f := by
    intro fid f hf
    rw [ht3]
    show (t2.families.set _ _)[fid]? = some f
    rw [List.getElem?_set_ne (by have := lookup_lt_length hf; omega)]
    exact ht2old fid f hf
  have ht3farec : t3.people[fa_id]? =
      some { level := lv, ind := "", names := [⟨"birth", g, sn1, "", "", ""⟩], sex := "M",
             families := [t.families.length], events := [], sources := [], notes := [],
             objects := [], change_date := some po.final_date } := by
    rw [hfaid, ← ht2p] at *
    exact ht3fa
  split at h
  · exact Except.noConfusion h
  rename_i ml t4 r4 heq
  obtain ⟨c1, c2, c3, ⟨F1, hF1, hF1f, hF1m, hF1c⟩, c5, c6⟩ :=
    gfip_children_spec po t.families.length _ minm _ 0 t3 r3 ml t4 r4 fa_id
      { level := lv, ind := "", names := [⟨"birth", g, sn1, "", "", ""⟩], sex := "M",
        families := [t.families.length], events := [], sources := [], notes := [],
        objects := [], change_date := some po.final_date } _ heq ht3F rfl ht3farec
  injection h with h1
  rw [Prod.mk.injEq] at h1
  obtain ⟨hLf, h3⟩ := h1
  rw [Prod.mk.injEq] at h3
  obtain ⟨ht4, hr4⟩ := h3
  subst ht4
  rw [List.length_range'] at c1
  refine ⟨hLf.symm, by rw [c6, ht3flen], ?_, ?_, ?_, ?_⟩
  · refine ⟨max numc (0 + (max 0 ((minm : Int) - ((0 : Nat) : Int))).toNat + 1) - 0,
      ?_, ?_, ?_, ?_, ?_⟩
    · have := Nat.le_max_right numc (0 + (max 0 ((minm : Int) - ((0 : Nat) : Int))).toNat + 1)
      omega
    · rw [c1, ht3p]
    · refine ⟨_, c2 _ _ ht3fa, ?_, rfl⟩
      show lv = p.level
      exact hlv
    · intro j c hc hj
      obtain ⟨ha, hb⟩ := c3 j c hc (by omega)
      refine ⟨?_, hb⟩
      rw [ha]
      show lv + 1 = p.level + 1
      rw [hlv]
    · refine ⟨F1, hF1, ?_, hF1m, ?_⟩
      · rw [hF1f]
        show some fa_id = some t.people.length
        rw [hfaid, ht2p]
      · rw [hF1c, ht3p]
        have hnil : ({ (⟨"", legal, none, none, some pid, [], none⟩ : GFamily) with
            father := some fa_id } : GFamily).children = ([] : List Nat) := rfl
        rw [hnil, List.nil_append, List.length_range']
  · intro q x hq hx
    exact c2 q x (ht3q q x hq hx)
  · exact ⟨_, c2 _ _ ht3pid, rfl, rfl, rfl, rfl⟩
  · intro fid f hf
    exact c5 fid f (by have := lookup_lt_length hf; omega) (ht3old fid f hf)

/-- Full specification of a successful `generate_family_incl_person` with role
`"child"`: a new family indexed `len(families)` with the person as first child,
fresh parents one level above the person, and at least one fresh sibling at the
person's level; everyone else in the tree is untouched. -/
theorem gfip_spec_child (po : PO) (t : GTree) (pid : Nat) (numc minm : Nat) (r : RS)
    (fid1 : Nat) (t1 : GTree) (r1 : RS) (p : GPerson)
    (hp : t.people[pid]? = some p)
    (h : generate_family_incl_person po t pid "child" numc minm r = .ok (fid1, t1, r1)) :
    fid1 = t.families.length ∧
    t1.families.length = t.families.length + 1 ∧
    (∃ k, 1 ≤ k ∧ t1.people.length = t.people.length + 2 + k ∧
      (∃ pf, t1.people[t.people.length]? = some pf ∧ pf.level = p.level - 1 ∧
        pf.families = [t.families.length]) ∧
      (∃ pm, t1.people[t.people.length + 1]? = some pm ∧ pm.level = p.level - 1 ∧
        pm.families = [t.families.length]) ∧
      (∀ (j : Nat) (c : GPerson), t1.people[j]? = some c → t.people.length + 2 ≤ j →
        c.level = p.level ∧ c.families = [t.families.length]) ∧
      (∃ F1, t1.families[t.families.length]? = some F1 ∧
        F1.father = some t.people.length ∧ F1.mother = some (t.people.length + 1) ∧
        F1.children = pid :: List.range' (t.people.length + 2) k)) ∧
    (∀ (q : Nat) (p0 : GPerson), q ≠ pid → t.people[q]? = some p0 → t1.people[q]? = some p0) ∧
    (∃ p', t1.people[pid]? = some p' ∧ p'.level = p.level ∧ p'.names = p.names ∧
      p'.sex = p.sex ∧ p'.families = p.families ++ [t.families.length]) ∧
    (∀ (fid : Nat) (f : GFamily), t.families[fid]? = some f → t1.families[fid]? = some f) := by
  unfold generate_family_incl_person at h
  simp only [String.reduceEq, reduceIte, hp] at h
  rcases hcf : create_family po t none none [pid] r with e | v
  · simp only [hcf] at h
    exact Except.noConfusion h
  obtain ⟨L, t2, r2⟩ := v
  simp only [hcf] at h
  obtain ⟨hL, legal, p0, hp0, ht2⟩ := create_family_child_shape po t pid r L t2 r2 hcf
  subst hL
  rw [hp] at hp0
  injection hp0 with hpe
  subst hpe
  have hpidlt : pid < t.people.length := lookup_lt_length hp
  have ht2p : t2.people.length = t.people.length := by
    rw [ht2]
    simp
  have ht2f : t2.families.length = t.families.length + 1 := by
    rw [ht2]
    simp
  have ht2pid : t2.people[pid]? =
      some { p with families := p.families ++ [t.families.length] } := by
    rw [ht2]
    exact List.getElem?_set_self hpidlt
  have ht2q : ∀ (q : Nat) (x : GPerson), q ≠ pid → t.people[q]? = some x →
      t2.people[q]? = some x := by
    intro q x hq hx
    rw [ht2]
    show (t.people.set pid _)[q]? = some x
    rw [List.getElem?_set_ne (fun he => hq he.symm)]
    exact hx
  have ht2F : t2.families[t.families.length]? =
      some (⟨"", legal, none, none, none, [pid], none⟩ : GFamily) := by
    rw [ht2]
    exact List.getElem?_concat_length _ _
  have ht2old : ∀ (fid : Nat) (f : GFamily), t.families[fid]? = some f →
      t2.families[fid]? = some f := by
    intro fid f hf
    rw [ht2]
    show (t.families ++ _)[fid]? = some f
    rw [List.getElem?_append_left (lookup_lt_length hf)]
    exact hf
  rcases hgp : generate_parent po t2 t.families.length none none none (some "M") r2 with e | w
  · simp only [hgp] at h
    exact Except.noConfusion h
  obtain ⟨fa_id, t3, r3⟩ := w
  simp only [hgp] at h
  obtain ⟨g, hcfa⟩ := generate_parent_father_spec po t2 t.families.length r2 fa_id t3 r3
    ⟨"", legal, none, none, none, [pid], none⟩ ht2F rfl hgp
  obtain ⟨fam2, lvf, sn1, hf2, hls, hfaid, ht3⟩ :=
    create_father_shape po t2 t.families.length g none "M" fa_id t3 hcfa
  rw [ht2F] at hf2
  injection hf2 with hf2e
  subst hf2e
  have hlvf : lvf = p.level - 1 :=
    father_level_surname_child t2 _ none pid []
      { p with families := p.families ++ [t.families.length] } lvf sn1 rfl rfl ht2pid hls
  have hLlt2 : t.families.length < t2.families.length := by omega
  have ht3p : t3.people.length = t.people.length + 1 := by
    rw [ht3]
    simp [ht2p]
  have ht3flen : t3.families.length = t.families.length + 1 := by
    rw [ht3]
    simp [ht2f]
  have ht3fa : t3.people[t.people.length]? =
      some { level := lvf, ind := "", names := [⟨"birth", g, sn1, "", "", ""⟩], sex := "M",
             families := [t.families.length], events := [], sources := [], notes := [],
             objects := [], change_date := some po.final_date } := by
    rw [ht3, ← ht2p]
    exact List.getElem?_concat_length _ _
  have ht3pid : t3.people[pid]? =
      some { p with families := p.families ++ [t.families.length] } := by
    rw [ht3]
    show (t2.people ++ _)[pid]? = _
    rw [List.getElem?_append_left (by omega)]
    exact ht2pid
  have ht3q : ∀ (q : Nat) (x : GPerson), q ≠ pid → t.people[q]? = some x →
      t3.people[q]? = some x := by
    intro q x hq hx
    rw [ht3]
    show (t2.people ++ _)[q]? = some x
    rw [List.getElem?_append_left (by rw [ht2p]; exact lookup_lt_length hx)]
    exact ht2q q x hq hx
  have ht3F : t3.families[t.families.length]? =
      some { (⟨"", legal, none, none, none, [pid], none⟩ : GFamily) with
             father := some fa_id } := by
    rw [ht3]
    exact List.getElem?_set_self hLlt2
  have ht3old : ∀ (fid : Nat) (f : GFamily), t.families[fid]? = some f →
      t3.families[fid]? = some f := by
    intro fid f hf
    rw [ht3]
    show (t2.families.set _ _)[fid]? = some f
    rw [List.getElem?_set_ne (by have := lookup_lt_length hf; omega)]
    exact ht2old fid f hf
  rcases hgm : generate_parent po t3 t.families.length none none none (some "F") r3 with e | w2
  · simp only [hgm] at h
    exact Except.noConfusion h
  obtain ⟨mo_id, t4, r4⟩ := w2
  simp only [hgm] at h
  obtain ⟨g2, m, hcm⟩ := generate_parent_mother_spec po t3 t.families.length r3 mo_id t4 r4
    ({ (⟨"", legal, none, none, none, [pid], none⟩ : GFamily) with father := some fa_id })
    fa_id ht3F rfl hgm
  obtain ⟨fam3, lvm, snm, hf3, hlsm, hmoid, ht4⟩ :=
    create_mother_shape po t3 t.families.length g2 none (some m) "F" mo_id t4 hcm
  rw [ht3F] at hf3
  injection hf3 with hf3e
  subst hf3e
  have hfarec3 : t3.people[fa_id]? =
      some { level := lvf, ind := "", names := [⟨"birth", g, sn1, "", "", ""⟩], sex := "M",
             families := [t.families.length], events := [], sources := [], notes := [],
             objects := [], change_date := some po.final_date } := by
    rw [hfaid, ht2p]
    exact ht3fa
  have hlvm : lvm = lvf :=
    mother_level_surname_father t3 _ none fa_id
      { level := lvf, ind := "", names := [⟨"birth", g, sn1, "", "", ""⟩], sex := "M",
        families := [t.families.length], events := [], sources := [], notes := [],
        objects := [], change_date := some po.final_date } lvm snm rfl hfarec3 hlsm
  have hLlt3 : t.families.length < t3.families.length := by omega
  have ht4p : t4.people.length = t.people.length + 2 := by
    rw [ht4]
    simp [ht3p]
  have ht4flen : t4.families.length = t.families.length + 1 := by
    rw [ht4]
    simp [ht3flen]
  have ht4mom : t4.people[t.people.length + 1]? =
      some { level := lvm, ind := "", names := mother_names g2 snm (some m), sex := "F",
             families := [t.families.length], events := [], sources := [], notes := [],
             objects := [], change_date := some po.final_date } := by
    rw [ht4, ← ht3p]
    exact List.getElem?_concat_length _ _
  have ht4fa : t4.people[t.people.length]? =
      some { level := lvf, ind := "", names := [⟨"birth", g, sn1, "", "", ""⟩], sex := "M",
             families := [t.families.length], events := [], sources := [], notes := [],
             objects := [], change_date := some po.final_date } := by
    rw [ht4]
    show (t3.people ++ _)[t.people.length]? = _
    rw [List.getElem?_append_left (by omega)]
    exact ht3fa
  have ht4farec : t4.people[fa_id]? =
      some { level := lvf, ind := "", names := [⟨"birth", g, sn1, "", "", ""⟩], sex := "M",
             families := [t.families.length], events := [], sources := [], notes := [],
             objects := [], change_date := some po.final_date } := by
    rw [hfaid, ht2p]
    exact ht4fa
  have ht4pid : t4.people[pid]? =
      some { p with families := p.families ++ [t.families.length] } := by
    rw [ht4]
    show (t3.people ++ _)[pid]? = _
    rw [List.getElem?_append_left (by omega)]
    exact ht3pid
  have ht4q : ∀ (q : Nat) (x : GPerson), q ≠ pid → t.people[q]? = some x →
      t4.people[q]? = some x := by
    intro q x hq hx
    rw [ht4]
    show (t3.people ++ _)[q]? = some x
    rw [List.getElem?_append_left (by rw [ht3p]; have := lookup_lt_length hx; omega)]
    exact ht3q q x hq hx
  have ht4F : t4.families[t.families.length]? =
      some { ({ (⟨"", legal, none, none, none, [pid], none⟩ : GFamily) with
                father := some fa_id }) with mother := some mo_id } := by
    rw [ht4]
    exact List.getElem?_set_self hLlt3
  have ht4old : ∀ (fid : Nat) (f : GFamily), t.families[fid]? = some f →
      t4.families[fid]? = some f := by
    intro fid f hf
    rw [ht4]
    show (t3.families.set _ _)[fid]? = some f
    rw [List.getElem?_set_ne (by have := lookup_lt_length hf; omega)]
    exact ht3old fid f hf
  split at h
  · exact Except.noConfusion h
  rename_i ml t5 r5 heq
  obtain ⟨c1, c2, c3, ⟨F1, hF1, hF1f, hF1m, hF1c⟩, c5, c6⟩ :=
    gfip_children_spec po t.families.length _ minm _ _ t4 r4 ml t5 r5 fa_id
      { level := lvf, ind := "", names := [⟨"birth", g, sn1, "", "", ""⟩], sex := "M",
        families := [t.families.length], events := [], sources := [], notes := [],
        objects := [], change_date := some po.final_date } _ heq ht4F rfl ht4farec
  injection h with h1
  rw [Prod.mk.injEq] at h1
  obtain ⟨hLf, h3⟩ := h1
  rw [Prod.mk.injEq] at h3
  obtain ⟨ht5, hr5⟩ := h3
  subst ht5
  rw [List.length_range'] at c1
  refine ⟨hLf.symm, by rw [c6, ht4flen], ?_, ?_, ?_, ?_⟩
  · refine ⟨max numc (1 + (max 0 ((minm : Int) -
        ((if p.sex = "M" then 1 else 0 : Nat) : Int))).toNat + 1) - 1, ?_, ?_, ?_, ?_, ?_, ?_⟩
    · have := Nat.le_max_right numc (1 + (max 0 ((minm : Int) -
        ((if p.sex = "M" then 1 else 0 : Nat) : Int))).toNat + 1)
      omega
    · rw [c1, ht4p]
    · refine ⟨_, c2 _ _ ht4fa, ?_, rfl⟩
      show lvf = p.level - 1
      exact hlvf
    · refine ⟨_, c2 _ _ ht4mom, ?_, rfl⟩
      show lvm = p.level - 1
      rw [hlvm, hlvf]
    · intro j c hc hj
      obtain ⟨ha, hb⟩ := c3 j c hc (by omega)
      refine ⟨?_, hb⟩
      rw [ha]
      show lvf + 1 = p.level
      rw [hlvf]
      omega
    · refine ⟨F1, hF1, ?_, ?_, ?_⟩
      · rw [hF1f]
        show some fa_id = some t.people.length
        rw [hfaid, ht2p]
      · rw [hF1m]
        show some mo_id = some (t.people.length + 1)
        rw [hmoid, ht3p]
      · rw [hF1c, ht4p]
        have hch : ({ ({ (⟨"", legal, none, none, none, [pid], none⟩ : GFamily) with
            father := some fa_id }) with mother := some mo_id } : GFamily).children
            = [pid] := rfl
        rw [hch, List.length_range']
        rfl
  · intro q x hq hx
    exact c2 q x (ht4q q x hq hx)
  · exact ⟨_, c2 _ _ ht4pid, rfl, rfl, rfl, rfl⟩
  · intro fid f hf
    exact c5 fid f (by have := lookup_lt_length hf; omega) (ht4old fid f hf)

/-- With at least three generations, a spouse-family generation around a father
below the ceiling always leaves some unresolved person in the tree (a child
still below the parent ceiling, or the fresh mother lacking a child role). -/
theorem gfip_father_unresolved (po : PO) (t : GTree) (pid : Nat) (numc minm : Nat) (r : RS)
    (fid1 : Nat) (t1 : GTree) (r1 : RS) (p : GPerson)
    (hp : t.people[pid]? = some p)
    (h : generate_family_incl_person po t pid "father" numc minm r = .ok (fid1, t1, r1))
    (hg3 : 3 ≤ po.num_generations)
    (hlev : p.level + 1 < (po.num_generations : Int)) :
    ∃ q, Unresolved po t1 q := by
  obtain ⟨_, _, ⟨k, hk1, hlen, ⟨pm, hpm, hpml, hpmf⟩, hch, ⟨F1, hF1, hF1f, hF1m, hF1c⟩⟩,
    _, _, _⟩ := gfip_spec_father po t pid numc minm r fid1 t1 r1 p hp h
  have hpidlt : pid < t.people.length := lookup_lt_length hp
  by_cases hcase : p.level + 2 < (po.num_generations : Int)
  · -- a fresh child is still below the parent ceiling
    rcases hc : t1.people[t.people.length + 1]? with _ | c
    · rw [List.getElem?_eq_none_iff] at hc
      omega
    · obtain ⟨hcl, hcf⟩ := hch _ c hc (by omega)
      refine ⟨t.people.length + 1, c, hc, Or.inl ⟨?_, by rw [hcl]; omega⟩⟩
      rintro ⟨fid, hfid, f, hflook, hrole⟩
      rw [hcf] at hfid
      have hfidL : fid = t.families.length := by simpa using hfid
      subst hfidL
      rw [hF1] at hflook
      injection hflook with hfe
      subst hfe
      rcases hrole with h1 | h1
      · rw [hF1f] at h1
        injection h1 with h1e
        omega
      · rw [hF1m] at h1
        injection h1 with h1e
        omega
  · -- the fresh mother lacks a child role above generation zero
    refine ⟨t.people.length, pm, hpm, Or.inr ⟨?_, by rw [hpml]; omega⟩⟩
    rintro ⟨fid, hfid, f, hflook, hmem⟩
    rw [hpmf] at hfid
    have hfidL : fid = t.families.length := by simpa using hfid
    subst hfidL
    rw [hF1] at hflook
    injection hflook with hfe
    subst hfe
    rw [hF1c] at hmem
    rw [List.mem_range'_1] at hmem
    omega

/-- Symmetric statement for a spouse-family around a mother. -/
theorem gfip_mother_unresolved (po : PO) (t : GTree) (pid : Nat) (numc minm : Nat) (r : RS)
    (fid1 : Nat) (t1 : GTree) (r1 : RS) (p : GPerson)
    (hp : t.people[pid]? = some p)
    (h : generate_family_incl_person po t pid "mother" numc minm r = .ok (fid1, t1, r1))
    (hg3 : 3 ≤ po.num_generations)
    (hlev : p.level + 1 < (po.num_generations : Int)) :
    ∃ q, Unresolved po t1 q := by
  obtain ⟨_, _, ⟨k, hk1, hlen, ⟨pf, hpf, hpfl, hpff⟩, hch, ⟨F1, hF1, hF1f, hF1m, hF1c⟩⟩,
    _, _, _⟩ := gfip_spec_mother po t pid numc minm r fid1 t1 r1 p hp h
  have hpidlt : pid < t.people.length := lookup_lt_length hp
  by_cases hcase : p.level + 2 < (po.num_generations : Int)
  · rcases hc : t1.people[t.people.length + 1]? with _ | c
    · rw [List.getElem?_eq_none_iff] at hc
      omega
    · obtain ⟨hcl, hcf⟩ := hch _ c hc (by omega)
      refine ⟨t.people.length + 1, c, hc, Or.inl ⟨?_, by rw [hcl]; omega⟩⟩
      rintro ⟨fid, hfid, f, hflook, hrole⟩
      rw [hcf] at hfid
      have hfidL : fid = t.families.length := by simpa using hfid
      subst hfidL
      rw [hF1] at hflook
      injection hflook with hfe
      subst hfe
      rcases hrole with h1 | h1
      · rw [hF1f] at h1
        injection h1 with h1e
        omega
      · rw [hF1m] at h1
        injection h1 with h1e
        omega
  · refine ⟨t.people.length, pf, hpf, Or.inr ⟨?_, by rw [hpfl]; omega⟩⟩
    rintro ⟨fid, hfid, f, hflook, hmem⟩
    rw [hpff] at hfid
    have hfidL : fid = t.families.length := by simpa using hfid
    subst hfidL
    rw [hF1] at hflook
    injection hflook with hfe
    subst hfe
    rw [hF1c] at hmem
    rw [List.mem_range'_1] at hmem
    omega

/-- With at least three generations, a parent-family generation around a child
above generation zero always leaves some unresolved person (a new sibling
below the parent ceiling, or the fresh father lacking a child role). -/
theorem gfip_child_unresolved (po : PO) (t : GTree) (pid : Nat) (numc minm : Nat) (r : RS)
    (fid1 : Nat) (t1 : GTree) (r1 : RS) (p : GPerson)
    (hp : t.people[pid]? = some p)
    (h : generate_family_incl_person po t pid "child" numc minm r = .ok (fid1, t1, r1))
    (hg3 : 3 ≤ po.num_generations)
    (hlev : 0 < p.level) :
    ∃ q, Unresolved po t1 q := by
  obtain ⟨_, _, ⟨k, hk1, hlen, ⟨pf, hpf, hpfl, hpff⟩, ⟨pm, hpm, hpml, hpmf⟩, hch,
    ⟨F1, hF1, hF1f, hF1m, hF1c⟩⟩, _, _, _⟩ :=
    gfip_spec_child po t pid numc minm r fid1 t1 r1 p hp h
  have hpidlt : pid < t.people.length := lookup_lt_length hp
  by_cases hcase : p.level + 1 < (po.num_generations : Int)
  · -- a fresh sibling is still below the parent ceiling
    rcases hc : t1.people[t.people.length + 2]? with _ | c
    · rw [List.getElem?_eq_none_iff] at hc
      omega
    · obtain ⟨hcl, hcf⟩ := hch _ c hc (by omega)
      refine ⟨t.people.length + 2, c, hc, Or.inl ⟨?_, by rw [hcl]; omega⟩⟩
      rintro ⟨fid, hfid, f, hflook, hrole⟩
      rw [hcf] at hfid
      have hfidL : fid = t.families.length := by simpa using hfid
      subst hfidL
      rw [hF1] at hflook
      injection hflook with hfe
      subst hfe
      rcases hrole with h1 | h1
      · rw [hF1f] at h1
        injection h1 with h1e
        omega
      · rw [hF1m] at h1
        injection h1 with h1e
        omega
  · -- the fresh father lacks a child role and sits above generation zero
    refine ⟨t.people.length, pf, hpf, Or.inr ⟨?_, by rw [hpfl]; omega⟩⟩
    rintro ⟨fid, hfid, f, hflook, hmem⟩
    rw [hpff] at hfid
    have hfidL : fid = t.families.length := by simpa using hfid
    subst hfidL
    rw [hF1] at hflook
    injection hflook with hfe
    subst hfe
    rw [hF1c] at hmem
    rcases List.mem_cons.mp hmem with h1 | h1
    · omega
    · rw [List.mem_range'_1] at h1
      omega

/-- Spouse-family generation around a father below the ceiling keeps all
generation levels inside `[0, n)`. -/
theorem gfip_father_levels (po : PO) (t : GTree) (pid : Nat) (numc minm : Nat) (r : RS)
    (fid1 : Nat) (t1 : GTree) (r1 : RS) (p : GPerson) (n : Nat)
    (hp : t.people[pid]? = some p)
    (h : generate_family_incl_person po t pid "father" numc minm r = .ok (fid1, t1, r1))
    (hLok : LevelsOk n t)
    (hlev : p.level + 1 < (n : Int)) : LevelsOk n t1 := by
  obtain ⟨_, _, ⟨k, hk1, hlen, ⟨pm, hpm, hpml, hpmf⟩, hch, _⟩, c4, ⟨p', hp', hp'l, _, _, _⟩,
    _⟩ := gfip_spec_father po t pid numc minm r fid1 t1 r1 p hp h
  obtain ⟨hpl0, hpl1⟩ := hLok p (List.getElem?_mem hp)
  intro x hx
  obtain ⟨j, hj⟩ := List.mem_iff_getElem?.mp hx
  by_cases hjpid : j = pid
  · subst hjpid
    rw [hp'] at hj
    injection hj with hje
    subst hje
    rw [hp'l]
    exact ⟨hpl0, hpl1⟩
  · by_cases hjold : j < t.people.length
    · rcases hold : t.people[j]? with _ | y
      · rw [List.getElem?_eq_none_iff] at hold
        omega
      · have := c4 j y hjpid hold
        rw [hj] at this
        injection this with he
        subst he
        exact hLok x (List.getElem?_mem hold)
    · by_cases hjm : j = t.people.length
      · subst hjm
        rw [hpm] at hj
        injection hj with hje
        subst hje
        rw [hpml]
        exact ⟨hpl0, hpl1⟩
      · obtain ⟨hcl, _⟩ := hch j x hj (by omega)
        rw [hcl]
        constructor
        · omega
        · omega

/-- Spouse-family generation around a mother below the ceiling keeps all
generation levels inside `[0, n)`. -/
theorem gfip_mother_levels (po : PO) (t : GTree) (pid : Nat) (numc minm : Nat) (r : RS)
    (fid1 : Nat) (t1 : GTree) (r1 : RS) (p : GPerson) (n : Nat)
    (hp : t.people[pid]? = some p)
    (h : generate_family_incl_person po t pid "mother" numc minm r = .ok (fid1, t1, r1))
    (hLok : LevelsOk n t)
    (hlev : p.level + 1 < (n : Int)) : LevelsOk n t1 := by
  obtain ⟨_, _, ⟨k, hk1, hlen, ⟨pf, hpf, hpfl, hpff⟩, hch, _⟩, c4, ⟨p', hp', hp'l, _, _, _⟩,
    _⟩ := gfip_spec_mother po t pid numc minm r fid1 t1 r1 p hp h
  obtain ⟨hpl0, hpl1⟩ := hLok p (List.getElem?_mem hp)
  intro x hx
  obtain ⟨j, hj⟩ := List.mem_iff_getElem?.mp hx
  by_cases hjpid : j = pid
  · subst hjpid
    rw [hp'] at hj
    injection hj with hje
    subst hje
    rw [hp'l]
    exact ⟨hpl0, hpl1⟩
  · by_cases hjold : j < t.people.length
    · rcases hold : t.people[j]? with _ | y
      · rw [List.getElem?_eq_none_iff] at hold
        omega
      · have := c4 j y hjpid hold
        rw [hj] at this
        injection this with he
        subst he
        exact hLok x (List.getElem?_mem hold)
    · by_cases hjm : j = t.people.length
      · subst hjm
        rw [hpf] at hj
        injection hj with hje
        subst hje
        rw [hpfl]
        exact ⟨hpl0, hpl1⟩
      · obtain ⟨hcl, _⟩ := hch j x hj (by omega)
        rw [hcl]
        constructor
        · omega
        · omega

/-- Parent-family generation around a child above generation zero keeps all
generation levels inside `[0, n)`. -/
theorem gfip_child_levels (po : PO) (t : GTree) (pid : Nat) (numc minm : Nat) (r : RS)
    (fid1 : Nat) (t1 : GTree) (r1 : RS) (p : GPerson) (n : Nat)
    (hp : t.people[pid]? = some p)
    (h : generate_family_incl_person po t pid "child" numc minm r = .ok (fid1, t1, r1))
    (hLok : LevelsOk n t)
    (hlev : 0 < p.level) : LevelsOk n t1 := by
  obtain ⟨_, _, ⟨k, hk1, hlen, ⟨pf, hpf, hpfl, hpff⟩, ⟨pm, hpm, hpml, hpmf⟩, hch, _⟩,
    c4, ⟨p', hp', hp'l, _, _, _⟩, _⟩ :=
    gfip_spec_child po t pid numc minm r fid1 t1 r1 p hp h
  obtain ⟨hpl0, hpl1⟩ := hLok p (List.getElem?_mem hp)
  intro x hx
  obtain ⟨j, hj⟩ := List.mem_iff_getElem?.mp hx
  by_cases hjpid : j = pid
  · subst hjpid
    rw [hp'] at hj
    injection hj with hje
    subst hje
    rw [hp'l]
    exact ⟨hpl0, hpl1⟩
  · by_cases hjold : j < t.people.length
    · rcases hold : t.people[j]? with _ | y
      · rw [List.getElem?_eq_none_iff] at hold
        omega
      · have := c4 j y hjpid hold
        rw [hj] at this
        injection this with he
        subst he
        exact hLok x (List.getElem?_mem hold)
    · by_cases hjf : j = t.people.length
      · subst hjf
        rw [hpf] at hj
        injection hj with hje
        subst hje
        rw [hpfl]
        constructor
        · omega
        · omega
      · by_cases hjm : j = t.people.length + 1
        · subst hjm
          rw [hpm] at hj
          injection hj with hje
          subst hje
          rw [hpml]
          constructor
          · omega
          · omega
        · obtain ⟨hcl, _⟩ := hch j x hj (by omega)
          rw [hcl]
          exact ⟨hpl0, hpl1⟩

/-- A successful parent-match scan returns a non-empty list exactly when some
listed family gives the person a parent role. -/
theorem parent_matches_iff (t : GTree) (pid : Nat) :
    ∀ (fids ms : List Nat), parent_family_matches t pid fids = .ok ms →
      (ms ≠ [] ↔ ∃ fid ∈ fids, ∃ f, t.families[fid]? = some f ∧
        (f.father = some pid ∨ f.mother = some pid)) := by
  intro fids
  induction fids with
  | nil =>
    intro ms h
    injection h with h1
    subst h1
    simp
  | cons fid rest ih =>
    intro ms h
    unfold parent_family_matches at h
    rcases hf : t.families[fid]? with _ | f
    · rw [hf] at h
      exact Except.noConfusion h
    · rw [hf] at h
      rcases hrec : parent_family_matches t pid rest with e | ms0
      · simp only [hrec] at h
        exact Except.noConfusion h
      · simp only [hrec] at h
        split at h
        · rename_i hcond
          injection h with h1
          subst h1
          constructor
          · intro _
            exact ⟨fid, List.mem_cons_self fid rest, f, hf, hcond⟩
          · intro _
            simp
        · rename_i hcond
          injection h with h1
          subst h1
          rw [ih ms0 hrec]
          constructor
          · rintro ⟨fid2, hm2, f2, hl2, hr2⟩
            exact ⟨fid2, List.mem_cons_of_mem fid hm2, f2, hl2, hr2⟩
          · rintro ⟨fid2, hm2, f2, hl2, hr2⟩
            rcases List.mem_cons.mp hm2 with he | hm3
            · subst he
              rw [hf] at hl2
              injection hl2 with hl2e
              subst hl2e
              exact absurd hr2 hcond
            · exact ⟨fid2, hm3, f2, hl2, hr2⟩

/-- A successful child-match scan returns a non-empty list exactly when some
listed family lists the person among its children. -/
theorem child_matches_iff (t : GTree) (pid : Nat) :
    ∀ (fids ms : List Nat), child_family_matches t pid fids = .ok ms →
      (ms ≠ [] ↔ ∃ fid ∈ fids, ∃ f, t.families[fid]? = some f ∧ pid ∈ f.children) := by
  intro fids
  induction fids with
  | nil =>
    intro ms h
    injection h with h1
    subst h1
    simp
  | cons fid rest ih =>
    intro ms h
    unfold child_family_matches at h
    rcases hf : t.families[fid]? with _ | f
    · rw [hf] at h
      exact Except.noConfusion h
    · rw [hf] at h
      rcases hrec : child_family_matches t pid rest with e | ms0
      · simp only [hrec] at h
        exact Except.noConfusion h
      · simp only [hrec] at h
        split at h
        · rename_i hcond
          injection h with h1
          subst h1
          constructor
          · intro _
            exact ⟨fid, List.mem_cons_self fid rest, f, hf, hcond⟩
          · intro _
            simp
        · rename_i hcond
          injection h with h1
          subst h1
          rw [ih ms0 hrec]
          constructor
          · rintro ⟨fid2, hm2, f2, hl2, hr2⟩
            exact ⟨fid2, List.mem_cons_of_mem fid hm2, f2, hl2, hr2⟩
          · rintro ⟨fid2, hm2, f2, hl2, hr2⟩
            rcases List.mem_cons.mp hm2 with he | hm3
            · subst he
              rw [hf] at hl2
              injection hl2 with hl2e
              subst hl2e
              exact absurd hr2 hcond
            · exact ⟨fid2, hm3, f2, hl2, hr2⟩

/-- Characterization of `Unresolved` through the two scans the sub-branch loop
actually runs. -/
theorem unresolved_iff_scans (po : PO) (t : GTree) (pid : Nat) (p : GPerson)
    (ms cs : List Nat)
    (hp : t.people[pid]? = some p)
    (hms : person_is_parent_in_families t pid = .ok ms)
    (hcs : person_is_child_in_families t pid = .ok cs) :
    Unresolved po t pid ↔
      ((ms.length < 1 ∧ p.level + 1 < (po.num_generations : Int)) ∨
       (cs.length < 1 ∧ 0 < p.level)) := by
  unfold person_is_parent_in_families at hms
  unfold person_is_child_in_families at hcs
  rw [hp] at hms hcs
  have hmiff := parent_matches_iff t pid p.families ms hms
  have hciff := child_matches_iff t pid p.families cs hcs
  have hmlen : ms.length < 1 ↔ ms = [] := by
    constructor
    · intro hl
      cases ms with
      | nil => rfl
      | cons a l => simp at hl
    · intro he
      subst he
      simp
  have hclen : cs.length < 1 ↔ cs = [] := by
    constructor
    · intro hl
      cases cs with
      | nil => rfl
      | cons a l => simp at hl
    · intro he
      subst he
      simp
  constructor
  · rintro ⟨p2, hp2, hdis⟩
    rw [hp] at hp2
    injection hp2 with hpe
    subst hpe
    rcases hdis with ⟨hnp, hl⟩ | ⟨hnc, hl⟩
    · left
      refine ⟨hmlen.mpr ?_, hl⟩
      by_contra hne
      exact hnp (hmiff.mp hne)
    · right
      refine ⟨hclen.mpr ?_, hl⟩
      by_contra hne
      exact hnc (hciff.mp hne)
  · rintro (⟨hl, hlev⟩ | ⟨hl, hlev⟩)
    · refine ⟨p, hp, Or.inl ⟨?_, hlev⟩⟩
      intro hpar
      have : ms ≠ [] := hmiff.mpr hpar
      exact this (hmlen.mp hl)
    · refine ⟨p, hp, Or.inr ⟨?_, hlev⟩⟩
      intro hch
      have : cs ≠ [] := hciff.mpr hch
      exact this (hclen.mp hl)

/-- One full sub-branch scan (over any index list), with at least three
generations: the population never shrinks, and the scan either reaches the
population target, or fires nothing because every scanned index was already
resolved, or strictly grows the population while leaving some unresolved
person behind. -/
theorem sub_branches_loop_growth (po : PO) (num_w : Nat) (hg3 : 3 ≤ po.num_generations) :
    ∀ (idxs : List Nat) (t : GTree) (r : RS) (t1 : GTree) (r1 : RS),
      sub_branches_loop po num_w idxs t r = .ok (t1, r1) →
      t.people.length ≤ t1.people.length ∧
      (po.num_people ≤ t1.people.length ∨
        (t1 = t ∧ ∀ i ∈ idxs, ¬ Unresolved po t i) ∨
        (t.people.length < t1.people.length ∧ ∃ q, Unresolved po t1 q)) := by
  intro idxs
  induction idxs with
  | nil =>
    intro t r t1 r1 h
    injection h with h1
    rw [Prod.mk.injEq] at h1
    obtain ⟨ht, hr⟩ := h1
    subst ht
    exact ⟨Nat.le_refl _, Or.inr (Or.inl ⟨rfl, by simp⟩)⟩
  | cons i rest ih =>
    intro t r t1 r1 h
    unfold sub_branches_loop at h
    split at h
    · rename_i hmet
      injection h with h1
      rw [Prod.mk.injEq] at h1
      obtain ⟨ht, hr⟩ := h1
      subst ht
      exact ⟨Nat.le_refl _, Or.inl hmet⟩
    · rename_i hbelow
      rcases hp : t.people[i]? with _ | gp
      · rw [hp] at h
        exact Except.noConfusion h
      rw [hp] at h
      rcases hpm : person_is_parent_in_families t i with e | ms
      · simp only [hpm] at h
        exact Except.noConfusion h
      simp only [hpm] at h
      split at h
      · rename_i hcond
        rcases hdraw : cdf_random_value (num_of_children_cdf num_w) r with e | dv
        · rw [hdraw] at h
          exact Except.noConfusion h
        obtain ⟨nc, r2⟩ := dv
        rw [hdraw] at h
        by_cases hsex : gp.sex = "F"
        · rw [if_pos hsex] at h
          rcases hgf : generate_family_incl_person po t i "mother" nc 0 r2 with e | gv
          · simp only [hgf] at h
            exact Except.noConfusion h
          obtain ⟨fidX, t2, r3⟩ := gv
          simp only [hgf] at h
          obtain ⟨_, _, ⟨k, hk1, hlen, _, _, _⟩, _, _, _⟩ :=
            gfip_spec_mother po t i nc 0 r2 fidX t2 r3 gp hp hgf
          have hunres := gfip_mother_unresolved po t i nc 0 r2 fidX t2 r3 gp hp hgf hg3 hcond.2
          obtain ⟨iha, ihb⟩ := ih t2 r3 t1 r1 h
          refine ⟨by omega, ?_⟩
          rcases ihb with hb | ⟨hbe, hball⟩ | ⟨hbg, hbq⟩
          · exact Or.inl hb
          · refine Or.inr (Or.inr ⟨by omega, ?_⟩)
            rw [hbe]
            exact hunres
          · exact Or.inr (Or.inr ⟨by omega, hbq⟩)
        · rw [if_neg hsex] at h
          rcases hgf : generate_family_incl_person po t i "father" nc 0 r2 with e | gv
          · simp only [hgf] at h
            exact Except.noConfusion h
          obtain ⟨fidX, t2, r3⟩ := gv
          simp only [hgf] at h
          obtain ⟨_, _, ⟨k, hk1, hlen, _, _, _⟩, _, _, _⟩ :=
            gfip_spec_father po t i nc 0 r2 fidX t2 r3 gp hp hgf
          have hunres := gfip_father_unresolved po t i nc 0 r2 fidX t2 r3 gp hp hgf hg3 hcond.2
          obtain ⟨iha, ihb⟩ := ih t2 r3 t1 r1 h
          refine ⟨by omega, ?_⟩
          rcases ihb with hb | ⟨hbe, hball⟩ | ⟨hbg, hbq⟩
          · exact Or.inl hb
          · refine Or.inr (Or.inr ⟨by omega, ?_⟩)
            rw [hbe]
            exact hunres
          · exact Or.inr (Or.inr ⟨by omega, hbq⟩)
      · rename_i hncond
        rcases hcm : person_is_child_in_families t i with e | cs
        · simp only [hcm] at h
          exact Except.noConfusion h
        simp only [hcm] at h
        split at h
        · rename_i hcond2
          rcases hdraw : cdf_random_value (num_of_children_cdf num_w) r with e | dv
          · rw [hdraw] at h
            exact Except.noConfusion h
          obtain ⟨nc, r2⟩ := dv
          rw [hdraw] at h
          rcases hgf : generate_family_incl_person po t i "child" nc 0 r2 with e | gv
          · simp only [hgf] at h
            exact Except.noConfusion h
          obtain ⟨fidX, t2, r3⟩ := gv
          simp only [hgf] at h
          obtain ⟨_, _, ⟨k, hk1, hlen, _, _, _, _⟩, _, _, _⟩ :=
            gfip_spec_child po t i nc 0 r2 fidX t2 r3 gp hp hgf
          have hunres := gfip_child_unresolved po t i nc 0 r2 fidX t2 r3 gp hp hgf hg3 hcond2.2
          obtain ⟨iha, ihb⟩ := ih t2 r3 t1 r1 h
          refine ⟨by omega, ?_⟩
          rcases ihb with hb | ⟨hbe, hball⟩ | ⟨hbg, hbq⟩
          · exact Or.inl hb
          · refine Or.inr (Or.inr ⟨by omega, ?_⟩)
            rw [hbe]
            exact hunres
          · exact Or.inr (Or.inr ⟨by omega, hbq⟩)
        · rename_i hncond2
          obtain ⟨iha, ihb⟩ := ih t r t1 r1 h
          refine ⟨iha, ?_⟩
          rcases ihb with hb | ⟨hbe, hball⟩ | ⟨hbg, hbq⟩
          · exact Or.inl hb
          · refine Or.inr (Or.inl ⟨hbe, ?_⟩)
            intro i2 hi2
            rcases List.mem_cons.mp hi2 with he | hm
            · subst he
              rw [unresolved_iff_scans po t i2 gp ms cs hp hpm hcm]
              rintro (hfire | hfire)
              · exact hncond hfire
              · exact hncond2 hfire
            · exact hball i2 hm
          · exact Or.inr (Or.inr ⟨hbg, hbq⟩)

/-- One full sub-branch scan preserves the generation-level bound, for any
number of generations: each firing branch is guarded exactly by the level
condition its created persons need. -/
theorem sub_branches_loop_levels (po : PO) (num_w : Nat) :
    ∀ (idxs : List Nat) (t : GTree) (r : RS) (t1 : GTree) (r1 : RS),
      sub_branches_loop po num_w idxs t r = .ok (t1, r1) →
      LevelsOk po.num_generations t → LevelsOk po.num_generations t1 := by
  intro idxs
  induction idxs with
  | nil =>
    intro t r t1 r1 h hLok
    injection h with h1
    rw [Prod.mk.injEq] at h1
    obtain ⟨ht, hr⟩ := h1
    subst ht
    exact hLok
  | cons i rest ih =>
    intro t r t1 r1 h hLok
    unfold sub_branches_loop at h
    split at h
    · injection h with h1
      rw [Prod.mk.injEq] at h1
      obtain ⟨ht, hr⟩ := h1
      subst ht
      exact hLok
    · rcases hp : t.people[i]? with _ | gp
      · rw [hp] at h
        exact Except.noConfusion h
      rw [hp] at h
      rcases hpm : person_is_parent_in_families t i with e | ms
      · simp only [hpm] at h
        exact Except.noConfusion h
      simp only [hpm] at h
      split at h
      · rename_i hcond
        rcases hdraw : cdf_random_value (num_of_children_cdf num_w) r with e | dv
        · rw [hdraw] at h
          exact Except.noConfusion h
        obtain ⟨nc, r2⟩ := dv
        rw [hdraw] at h
        by_cases hsex : gp.sex = "F"
        · rw [if_pos hsex] at h
          rcases hgf : generate_family_incl_person po t i "mother" nc 0 r2 with e | gv
          · simp only [hgf] at h
            exact Except.noConfusion h
          obtain ⟨fidX, t2, r3⟩ := gv
          simp only [hgf] at h
          exact ih t2 r3 t1 r1 h
            (gfip_mother_levels po t i nc 0 r2 fidX t2 r3 gp po.num_generations hp hgf hLok
              hcond.2)
        · rw [if_neg hsex] at h
          rcases hgf : generate_family_incl_person po t i "father" nc 0 r2 with e | gv
          · simp only [hgf] at h
            exact Except.noConfusion h
          obtain ⟨fidX, t2, r3⟩ := gv
          simp only [hgf] at h
          exact ih t2 r3 t1 r1 h
            (gfip_father_levels po t i nc 0 r2 fidX t2 r3 gp po.num_generations hp hgf hLok
              hcond.2)
      · rcases hcm : person_is_child_in_families t i with e | cs
        · simp only [hcm] at h
          exact Except.noConfusion h
        simp only [hcm] at h
        split at h
        · rename_i hcond2
          rcases hdraw : cdf_random_value (num_of_children_cdf num_w) r with e | dv
          · rw [hdraw] at h
            exact Except.noConfusion h
          obtain ⟨nc, r2⟩ := dv
          rw [hdraw] at h
          rcases hgf : generate_family_incl_person po t i "child" nc 0 r2 with e | gv
          · simp only [hgf] at h
            exact Except.noConfusion h
          obtain ⟨fidX, t2, r3⟩ := gv
          simp only [hgf] at h
          exact ih t2 r3 t1 r1 h
            (gfip_child_levels po t i nc 0 r2 fidX t2 r3 gp po.num_generations hp hgf hLok
              hcond2.2)
        · exact ih t r t1 r1 h hLok

/-- The child filter returns a subset of the scanned ids. -/
theorem child_filter_subset (t : GTree) (gn sn sx : Option String) :
    ∀ (ids ms : List Nat), child_filter_loop t gn sn sx ids = .ok ms →
      ∀ c ∈ ms, c ∈ ids := by
  intro ids
  induction ids with
  | nil =>
    intro ms h c hc
    injection h with h1
    subst h1
    exact absurd hc (List.not_mem_nil c)
  | cons i rest ih =>
    intro ms h c hc
    unfold child_filter_loop at h
    rcases hp : t.people[i]? with _ | gc
    · rw [hp] at h
      exact Except.noConfusion h
    rw [hp] at h
    rcases hm : child_match gn sn sx gc with e | keep
    · simp only [hm] at h
      exact Except.noConfusion h
    simp only [hm] at h
    rcases hrec : child_filter_loop t gn sn sx rest with e | ms0
    · simp only [hrec] at h
      exact Except.noConfusion h
    simp only [hrec] at h
    injection h with h1
    subst h1
    by_cases hk : keep = true
    · rw [if_pos hk] at hc
      rcases List.mem_cons.mp hc with he | hm2
      · subst he
        exact List.mem_cons_self c rest
      · exact List.mem_cons_of_mem i (ih ms0 hrec c hm2)
    · rw [if_neg hk] at hc
      exact List.mem_cons_of_mem i (ih ms0 hrec c hc)

/-- A successful random-child pick returns an actual child of the family. -/
theorem fgrc_child_mem (t : GTree) (fid : Nat) (gn sn sx : Option String) (r : RS)
    (cid : Nat) (r1 : RS)
    (h : family_get_random_child t fid gn sn sx r = .ok (some cid, r1)) :
    ∃ f, t.families[fid]? = some f ∧ cid ∈ f.children := by
  unfold family_get_random_child at h
  rcases hf : t.families[fid]? with _ | f
  · rw [hf] at h
    exact Except.noConfusion h
  rw [hf] at h
  rcases hfl : child_filter_loop t gn sn sx f.children with e | ms
  · simp only [hfl] at h
    exact Except.noConfusion h
  simp only [hfl] at h
  split at h
  · injection h with h1
    rw [Prod.mk.injEq] at h1
    exact Option.noConfusion h1.1
  · split at h
    · exact Except.noConfusion h
    · rename_i cid0 hidx
      injection h with h1
      rw [Prod.mk.injEq] at h1
      obtain ⟨hc, _⟩ := h1
      injection hc with hce
      subst hce
      exact ⟨f, rfl, child_filter_subset t gn sn sx f.children ms hfl cid0
        (List.getElem?_mem hidx)⟩

/-- The trunk loop keeps all levels inside the generation bound and, with at
least three generations and at least one iteration, leaves an unresolved
person in the resulting tree. -/
theorem core_loop_spec (po : PO) (num_w : Nat) :
    ∀ (idxs : List Nat) (gid : Nat) (t : GTree) (r : RS) (gid1 : Nat) (t1 : GTree) (r1 : RS)
      (p : GPerson),
      generate_core_branch_loop po num_w idxs gid t r = .ok (gid1, t1, r1) →
      t.people[gid]? = some p →
      p.level + (idxs.length : Int) < (po.num_generations : Int) →
      LevelsOk po.num_generations t →
      (LevelsOk po.num_generations t1 ∧
       (3 ≤ po.num_generations → idxs ≠ [] → ∃ q, Unresolved po t1 q)) := by
  intro idxs
  induction idxs with
  | nil =>
    intro gid t r gid1 t1 r1 p h hp hlev hLok
    injection h with h1
    rw [Prod.mk.injEq] at h1
    obtain ⟨_, h3⟩ := h1
    rw [Prod.mk.injEq] at h3
    obtain ⟨ht, _⟩ := h3
    subst ht
    exact ⟨hLok, fun _ hne => absurd rfl hne⟩
  | cons i rest ih =>
    intro gid t r gid1 t1 r1 p h hp hlev hLok
    unfold generate_core_branch_loop at h
    rcases hdraw : cdf_random_value (num_of_children_cdf num_w) r with e | dv
    · rw [hdraw] at h
      exact Except.noConfusion h
    obtain ⟨nc, r2⟩ := dv
    rw [hdraw] at h
    rcases hgf : generate_family_incl_person po t gid "father" nc 1 r2 with e | gv
    · simp only [hgf] at h
      exact Except.noConfusion h
    obtain ⟨fidX, t2, r3⟩ := gv
    simp only [hgf] at h
    have hlev1 : p.level + 1 < (po.num_generations : Int) := by
      have : ((i :: rest).length : Int) = (rest.length : Int) + 1 := by
        push_cast
        simp
      rw [this] at hlev
      have hr0 : (0 : Int) ≤ (rest.length : Int) := by positivity
      omega
    obtain ⟨hfid, _, ⟨k, hk1, hlen, _, hch, ⟨F1, hF1, _, _, hF1c⟩⟩, _, _, _⟩ :=
      gfip_spec_father po t gid nc 1 r2 fidX t2 r3 p hp hgf
    have hlev2 : LevelsOk po.num_generations t2 :=
      gfip_father_levels po t gid nc 1 r2 fidX t2 r3 p po.num_generations hp hgf hLok hlev1
    split at h
    · exact Except.noConfusion h
    · exact Except.noConfusion h
    · rename_i cid r4 heqf
      obtain ⟨f, hflook, hcidmem⟩ := fgrc_child_mem t2 fidX none none (some "M") r3 cid r4 heqf
      rw [hfid, hF1] at hflook
      injection hflook with hfe
      subst hfe
      rw [hF1c] at hcidmem
      rw [List.mem_range'_1] at hcidmem
      rcases hcrec : t2.people[cid]? with _ | c
      · rw [List.getElem?_eq_none_iff] at hcrec
        omega
      obtain ⟨hcl, _⟩ := hch cid c hcrec (by omega)
      obtain ⟨ihL, ihU⟩ := ih cid t2 r4 gid1 t1 r1 c h hcrec
        (by
          rw [hcl]
          have : ((i :: rest).length : Int) = (rest.length : Int) + 1 := by
            push_cast
            simp
          rw [this] at hlev
          omega) hlev2
      refine ⟨ihL, ?_⟩
      intro hg3 _
      by_cases hrest : rest = []
      · subst hrest
        injection h with h1
        rw [Prod.mk.injEq] at h1
        obtain ⟨_, h3⟩ := h1
        rw [Prod.mk.injEq] at h3
        obtain ⟨ht, _⟩ := h3
        rw [← ht]
        exact gfip_father_unresolved po t gid nc 1 r2 fidX t2 r3 p hp hgf hg3 hlev1
      · exact ihU hg3 hrest

/-- The trunk establisher: levels stay inside the generation bound, and with
at least three generations (hence at least one trunk iteration) some
unresolved person remains for the generation phase to pick up. -/
theorem generate_core_branch_spec (po : PO) (t : GTree) (num_w num_h : Nat) (r : RS)
    (t1 : GTree) (r1 : RS)
    (h : generate_core_branch po t num_w num_h r = .ok (t1, r1))
    (hLok : LevelsOk po.num_generations t)
    (hh : num_h ≤ po.num_generations) (hh1 : 1 ≤ po.num_generations) :
    LevelsOk po.num_generations t1 ∧
    (3 ≤ po.num_generations → 2 ≤ num_h → ∃ q, Unresolved po t1 q) := by
  unfold generate_core_branch at h
  rcases hs : cdf_random_value po.lastnames_male_cdf r.advance with e | sv
  · simp only [hs] at h
    exact Except.noConfusion h
  obtain ⟨sn, r1'⟩ := sv
  simp only [hs] at h
  rcases hg : cdf_random_value po.firstnames_male_cdf r1' with e | gv
  · simp only [hg] at h
    exact Except.noConfusion h
  obtain ⟨gn, r2'⟩ := gv
  simp only [hg] at h
  split at h
  · exact Except.noConfusion h
  · rename_i a t2 r3 heq
    injection h with h1
    rw [Prod.mk.injEq] at h1
    obtain ⟨ht, _⟩ := h1
    subst ht
    have hbase : ({ t with people := t.people ++
        [{ level := 0, ind := "", names := [⟨"birth", gn, sn, "", "", ""⟩], sex := "M",
           families := [] }] } : GTree).people[t.people.length]? =
        some { level := 0, ind := "", names := [⟨"birth", gn, sn, "", "", ""⟩], sex := "M",
               families := [], events := [], sources := [], notes := [], objects := [],
               change_date := none } :=
      List.getElem?_concat_length _ _
    have hLok0 : LevelsOk po.num_generations ({ t with people := t.people ++
        [{ level := 0, ind := "", names := [⟨"birth", gn, sn, "", "", ""⟩], sex := "M",
           families := [] }] } : GTree) := by
      intro x hx
      rcases List.mem_append.mp hx with hm | hm
      · exact hLok x hm
      · have hxe : x =
            { level := 0, ind := "", names := [⟨"birth", gn, sn, "", "", ""⟩],
              sex := "M", families := [], events := [], sources := [], notes := [],
              objects := [], change_date := none } := by
          simpa using hm
        subst hxe
        constructor
        · exact le_refl 0
        · show (0 : Int) < (po.num_generations : Int)
          omega
    obtain ⟨hL1, hU1⟩ := core_loop_spec po num_w (List.range' 1 (num_h - 1))
      t.people.length _ r2' a t2 r3 _ heq hbase
      (by
        show (0 : Int) + _ < _
        rw [List.length_range']
        have : ((num_h - 1 : Nat) : Int) < (po.num_generations : Int) := by omega
        omega) hLok0
    refine ⟨hL1, ?_⟩
    intro hg3 hh2
    refine hU1 hg3 (List.ne_nil_of_length_pos ?_)
    rw [List.length_range']
    omega

/-- The generation phase, with at least three generations and the pending
invariant: within `num_people` scans every non-erroring run reaches the
population target. -/
theorem gen_phase_loop_term (po : PO) (num_w : Nat) (hg3 : 3 ≤ po.num_generations) :
    ∀ (n : Nat) (t : GTree) (r : RS),
      po.num_people ≤ t.people.length + n →
      (t.people.length < po.num_people → ∃ q, Unresolved po t q) →
      ∀ (t1 : GTree) (r1 : RS), gen_phase_loop po num_w n t r = .ok (t1, r1) →
        po.num_people ≤ t1.people.length := by
  intro n
  induction n with
  | zero =>
    intro t r hfuel hpend t1 r1 h
    injection h with h1
    rw [Prod.mk.injEq] at h1
    obtain ⟨ht, _⟩ := h1
    subst ht
    omega
  | succ n ih =>
    intro t r hfuel hpend t1 r1 h
    unfold gen_phase_loop at h
    split at h
    · rename_i hbelow
      rcases hsb : generate_sub_branches po num_w t r with e | sv
      · rw [hsb] at h
        exact Except.noConfusion h
      obtain ⟨t2, r2⟩ := sv
      rw [hsb] at h
      unfold generate_sub_branches at hsb
      obtain ⟨hle, hdis⟩ :=
        sub_branches_loop_growth po num_w hg3 (List.range t.people.length) t r t2 r2 hsb
      obtain ⟨q0, hq0⟩ := hpend hbelow
      rcases hdis with hb | ⟨hbe, hball⟩ | ⟨hbg, hbq⟩
      · exact ih t2 r2 (by omega) (fun hb2 => absurd hb2 (by omega)) t1 r1 h
      · exfalso
        obtain ⟨pp, hpp, hd⟩ := hq0
        have hq0lt : q0 < t.people.length := lookup_lt_length hpp
        exact hball q0 (List.mem_range.mpr hq0lt) ⟨pp, hpp, hd⟩
      · exact ih t2 r2 (by omega) (fun _ => hbq) t1 r1 h
    · rename_i hnotbelow
      injection h with h1
      rw [Prod.mk.injEq] at h1
      obtain ⟨ht, _⟩ := h1
      subst ht
      omega

/-- C10: the generation-level bound is an invariant of the whole generator:
the trunk (`generate_core_branch` with height at most the configured number of
generations) keeps every person's level inside `[0, num_generations)`, and each
sub-branch scan preserves the bound — spouse-families are guarded by
`level + 1 < num_generations`, and parent-families (guarded by `level > 0`)
place the new parents at `level - 1 ≥ 0` and the extra siblings at the
person's own level. -/
theorem C10_generation_level_bound :
    (∀ (po : PO) (t : GTree) (num_w num_h : Nat) (r : RS) (t1 : GTree) (r1 : RS),
      num_h ≤ po.num_generations → 1 ≤ po.num_generations →
      LevelsOk po.num_generations t →
      generate_core_branch po t num_w num_h r = .ok (t1, r1) →
      LevelsOk po.num_generations t1) ∧
    (∀ (po : PO) (num_w : Nat) (t : GTree) (r : RS) (t1 : GTree) (r1 : RS),
      LevelsOk po.num_generations t →
      generate_sub_branches po num_w t r = .ok (t1, r1) →
      LevelsOk po.num_generations t1) := by
  constructor
  · intro po t num_w num_h r t1 r1 hh hh1 hLok h
    exact (generate_core_branch_spec po t num_w num_h r t1 r1 h hLok hh hh1).1
  · intro po num_w t r t1 r1 hLok h
    unfold generate_sub_branches at h
    exact sub_branches_loop_levels po num_w (List.range t.people.length) t r t1 r1 h hLok

/-- C10 witness: a concrete one-iteration trunk run from the empty tree whose
resulting single person sits at level 0, inside `[0, 3)`. -/
theorem C10_level_witness :
    LevelsOk samplePO3.num_generations
      ⟨[⟨0, "", [⟨"birth", "Adam", "Nowak", "", "", ""⟩], "M", [], [], [], [], [], none⟩],
       [], [], [], []⟩ := by
  have hok : generate_core_branch samplePO3 emptyTree 1 1 halfStream =
      .ok (⟨[⟨0, "", [⟨"birth", "Adam", "Nowak", "", "", ""⟩], "M", [], [], [], [], [], none⟩],
            [], [], [], []⟩, halfStream.advance.advance.advance) := by
    with_unfolding_all rfl
  exact C10_generation_level_bound.1 samplePO3 emptyTree 1 1 halfStream _ _
    (by decide) (by decide) (by intro x hx; simp [emptyTree] at hx) hok

/-- C3 counterexample: with num_people = 2 and num_generations = 1 (both
within the claimed range), a full sub-branch scan of a one-man tree returns
the tree unchanged while the population target is still unmet — the scan
neither meets the target nor strictly grows the population, so the
generation-phase while-loop spins forever. -/
theorem C3_counterexample :
    generate_sub_branches samplePO 1 oneManTree zeroStream = .ok (oneManTree, zeroStream) ∧
    oneManTree.people.length < samplePO.num_people := by
  constructor
  · with_unfolding_all rfl
  · decide

/-- C3 (amended): with at least three generations the generation phase does
terminate.  The trunk leaves an unresolved person behind, and from any state
satisfying the pending invariant (below target implies somebody is
unresolved), at most `num_people` sub-branch scans suffice: every run of the
fuelled loop that does not end in an exception reaches the population
target.  (A run that raises an exception also terminates, matching the
spec's fatal-invariant-violation exit.) -/
theorem C3_generation_phase_termination :
    (∀ (po : PO) (t : GTree) (num_w : Nat) (r : RS) (t1 : GTree) (r1 : RS),
      3 ≤ po.num_generations →
      LevelsOk po.num_generations t →
      generate_core_branch po t num_w po.num_generations r = .ok (t1, r1) →
      ∃ q, Unresolved po t1 q) ∧
    (∀ (po : PO) (num_w : Nat) (t : GTree) (r : RS),
      3 ≤ po.num_generations →
      (t.people.length < po.num_people → ∃ q, Unresolved po t q) →
      ∀ (t1 : GTree) (r1 : RS),
        gen_phase_loop po num_w po.num_people t r = .ok (t1, r1) →
        po.num_people ≤ t1.people.length) := by
  constructor
  · intro po t num_w r t1 r1 hg3 hLok h
    exact (generate_core_branch_spec po t num_w po.num_generations r t1 r1 h hLok
      (le_refl _) (by omega)).2 hg3 (by omega)
  · intro po num_w t r hg3 hpend t1 r1 h
    exact gen_phase_loop_term po num_w hg3 po.num_people t r (by omega) hpend t1 r1 h

/-- C3 witness: a configuration with three generations whose population target
is already met by a single person; the fuelled generation loop confirms the
target. -/
theorem C3_termination_witness : samplePO3.num_people ≤ oneManTree.people.length := by
  have hok : gen_phase_loop samplePO3 1 samplePO3.num_people oneManTree zeroStream =
      .ok (oneManTree, zeroStream) := by
    with_unfolding_all rfl
  exact C3_generation_phase_termination.2 samplePO3 1 oneManTree zeroStream
    (by decide) (fun hb => absurd hb (by decide)) oneManTree zeroStream hok
